import Mathlib

/-!
Verification of the real-time segment consolidation engine of the Judiscribe
backend: a shallow embedding in Lean 4 of the Python modules
`app/ws/transcription_ws.py`, `app/services/real_time_enhancement.py`,
`app/services/legal_dictionary.py` and `app/services/text_processing.py`,
together with theorems settling the specification's claims about them.

Texts are modelled as lists of characters (`Str`); the Python string
primitives used by the code (`strip`, `split`, `lower`, `rstrip`,
`endswith`, `" ".join`, …) are defined explicitly below; fractional
numeric values (confidences, timestamps) are modelled as `Rat`.
-/

set_option maxRecDepth 20000

abbrev Str := List Char

/-- Coerce a Lean string literal to the `Str` character-list representation. -/
def str (s : String) : Str := s.data

/-- The characters Python `str.strip` / `str.split` treat as whitespace
(for the texts this system handles). -/
def pyIsSpace (c : Char) : Bool :=
  c = ' ' || c = '\t' || c = '\n' || c = '\r' || c = '\x0b' || c = '\x0c'

/-- Python `str.lower`, restricted to the Latin/Spanish alphabet this system
processes; characters outside it are returned unchanged. -/
def pyToLower (c : Char) : Char :=
  match c with
  | 'A' => 'a' | 'B' => 'b' | 'C' => 'c' | 'D' => 'd' | 'E' => 'e' | 'F' => 'f'
  | 'G' => 'g' | 'H' => 'h' | 'I' => 'i' | 'J' => 'j' | 'K' => 'k' | 'L' => 'l'
  | 'M' => 'm' | 'N' => 'n' | 'O' => 'o' | 'P' => 'p' | 'Q' => 'q' | 'R' => 'r'
  | 'S' => 's' | 'T' => 't' | 'U' => 'u' | 'V' => 'v' | 'W' => 'w' | 'X' => 'x'
  | 'Y' => 'y' | 'Z' => 'z'
  | 'Á' => 'á' | 'É' => 'é' | 'Í' => 'í' | 'Ó' => 'ó' | 'Ú' => 'ú'
  | 'Ñ' => 'ñ' | 'Ü' => 'ü'
  | c => c

/-- Python `str.upper` on one character, same alphabet restriction. -/
def pyToUpper (c : Char) : Char :=
  match c with
  | 'a' => 'A' | 'b' => 'B' | 'c' => 'C' | 'd' => 'D' | 'e' => 'E' | 'f' => 'F'
  | 'g' => 'G' | 'h' => 'H' | 'i' => 'I' | 'j' => 'J' | 'k' => 'K' | 'l' => 'L'
  | 'm' => 'M' | 'n' => 'N' | 'o' => 'O' | 'p' => 'P' | 'q' => 'Q' | 'r' => 'R'
  | 's' => 'S' | 't' => 'T' | 'u' => 'U' | 'v' => 'V' | 'w' => 'W' | 'x' => 'X'
  | 'y' => 'Y' | 'z' => 'Z'
  | 'á' => 'Á' | 'é' => 'É' | 'í' => 'Í' | 'ó' => 'Ó' | 'ú' => 'Ú'
  | 'ñ' => 'Ñ' | 'ü' => 'Ü'
  | c => c

/-- The uppercase characters of the modelled alphabet: exactly those on which
Python `str.isupper` is true for the texts this system handles. -/
def upperChars : List Char :=
  str "ABCDEFGHIJKLMNOPQRSTUVWXYZÁÉÍÓÚÑÜ"

/-- Python `ch.isupper()` for a single character (modelled alphabet). -/
def pyIsUpper (c : Char) : Bool := upperChars.contains c

/-- Python `str.lower` on a whole string. -/
def pyLower (s : Str) : Str := s.map pyToLower

/-- Python `str.strip()` (no argument): drop leading and trailing whitespace. -/
def pyStrip (s : Str) : Str :=
  ((s.dropWhile pyIsSpace).reverse.dropWhile pyIsSpace).reverse

/-- Python `str.rstrip(chars)`: drop trailing characters belonging to `cs`. -/
def pyRstripSet (s : Str) (cs : List Char) : Str :=
  (s.reverse.dropWhile (fun c => cs.contains c)).reverse

/-- Worker for `pySplit`: `acc` holds the (reversed) word being scanned. -/
def splitGo : Str → Str → List Str
  | [], acc => if acc = [] then [] else [acc.reverse]
  | c :: cs, acc =>
      if pyIsSpace c then
        if acc = [] then splitGo cs [] else acc.reverse :: splitGo cs []
      else splitGo cs (c :: acc)

/-- Python `str.split()` (no argument): split on whitespace runs, no empty
words. -/
def pySplit (s : Str) : List Str := splitGo s []

/-- Python `" ".join(xs)`. -/
def sjoin : List Str → Str
  | [] => []
  | [x] => x
  | x :: y :: xs => x ++ ' ' :: sjoin (y :: xs)

/-- Membership of one character in the Python literal `'.?!'`. -/
def isTerminalPunct (c : Char) : Bool := c = '.' || c = '?' || c = '!'

/-- The Python literal `'.,;:!?'` used by `_is_incomplete_by_pattern`. -/
def heuristicPunct : List Char := str ".,;:!?"

/-! ## `transcription_ws._is_incomplete_by_pattern` (lines 69-137)

The two word lists are transcribed verbatim from
`src/backend/app/ws/transcription_ws.py`. -/

/-- `INCOMPLETE_ENDINGS` (transcription_ws.py lines 69-77): trailing words
that indicate an unfinished sentence. -/
def INCOMPLETE_ENDINGS : List Str :=
  ([ "que", "para", "y", "o", "si", "pero", "cuando", "porque",
     "a", "de", "con", "en", "por", "sin", "sobre", "hasta",
     "desde", "hacia", "ante", "bajo", "según", "mediante",
     "durante", "como", "cual", "cuales", "quien", "quienes",
     "donde", "adonde", "el", "la", "los", "las", "un", "una",
     "unos", "unas", "este", "esta", "estos", "estas", "ese",
     "esa", "esos", "esas", "aquel", "aquella", "aquellos", "aquellas"
   ] : List String).map str

/-- `COMPLETE_SHORT_RESPONSES` (transcription_ws.py lines 80-94): canonical
short judicial responses, complete by definition. -/
def COMPLETE_SHORT_RESPONSES : List Str :=
  ([ "sí", "si", "no", "correcto", "exacto", "afirmativo", "negativo",
     "niego", "afirmo", "consiento", "me opongo", "acepto", "rechazo",
     "de acuerdo", "conforme", "me acojo", "me allano", "desisto",
     "lo juro", "sí juro", "prometo decir la verdad",
     "presente", "ausente", "notificado",
     "entendido", "comprendido", "así es", "efectivamente",
     "protesto", "objeción", "reservo", "me reservo"
   ] : List String).map str

/-- `_is_incomplete_by_pattern` (transcription_ws.py lines 103-137): the pure
completion heuristic. Returns `true` when the buffer text looks incomplete. -/
def isIncompleteByPattern (text : Str) : Bool :=
  if pyStrip text = [] then false
  else
    let cleanText := pyLower (pyStrip text)
    let words := pySplit cleanText
    if words = [] then false
    else if pyRstripSet cleanText heuristicPunct ∈ COMPLETE_SHORT_RESPONSES then false
    else
      let lastWord := pyRstripSet (words.getLastD []) heuristicPunct
      if lastWord ∈ INCOMPLETE_ENDINGS then true
      else if words.length < 3 then
        if isTerminalPunct ((pyStrip text).getLastD ' ') then false else true
      else if 3 ≤ words.length ∧ ¬ isTerminalPunct ((pyStrip text).getLastD ' ') then
        if 15 < words.length then false else true
      else false

/-- The completion ladder exactly as §4.2 of the specification words it,
evaluated in the stated order (rule 1 canonical short responses, rule 2
trailing connectors, rule 3 short texts, rule 4 unpunctuated long texts,
rule 5 complete). Returns `true` for "incomplete". -/
def specCompletionLadder (text : Str) : Bool :=
  let cleanText := pyLower (pyStrip text)
  let words := pySplit cleanText
  if pyRstripSet cleanText heuristicPunct ∈ COMPLETE_SHORT_RESPONSES then false
  else if pyRstripSet (words.getLastD []) heuristicPunct ∈ INCOMPLETE_ENDINGS then true
  else if words.length < 3 then ¬ isTerminalPunct ((pyStrip text).getLastD ' ')
  else if ¬ isTerminalPunct ((pyStrip text).getLastD ' ') then
    decide (words.length ≤ 15)
  else false

/-! ## String-primitive lemmas -/

lemma pyIsSpace_pyToLower (c : Char) : pyIsSpace (pyToLower c) = pyIsSpace c := by
  unfold pyToLower; split <;> rfl

lemma all_pyIsSpace_pyLower (s : Str) :
    (pyLower s).all pyIsSpace = s.all pyIsSpace := by
  induction s with
  | nil => rfl
  | cons c cs ih => simp [pyLower, List.all_cons, pyIsSpace_pyToLower] at ih ⊢; rw [ih]

lemma not_all_of_dropWhile_ne_nil (p : Char → Bool) (l : Str)
    (h : l.dropWhile p ≠ []) : ¬ (l.dropWhile p).all p = true := by
  induction l with
  | nil => simp at h
  | cons a l ih =>
    by_cases hp : p a = true
    · rw [List.dropWhile_cons_of_pos hp] at h ⊢; exact ih h
    · rw [List.dropWhile_cons_of_neg hp]
      simp [List.all_cons, hp]

lemma not_all_space_of_strip_ne_nil (t : Str) (h : pyStrip t ≠ []) :
    ¬ (pyStrip t).all pyIsSpace = true := by
  unfold pyStrip at h ⊢
  set u := (t.dropWhile pyIsSpace).reverse with hu
  have h2 : u.dropWhile pyIsSpace ≠ [] := by
    intro h3; rw [h3] at h; simp at h
  have h4 := not_all_of_dropWhile_ne_nil pyIsSpace u h2
  intro h5; apply h4
  rw [List.all_eq_true] at h5 ⊢
  intro x hx; exact h5 x (by simpa using hx)

lemma splitGo_ne_nil (s : Str) :
    ∀ acc : Str, (¬ s.all pyIsSpace = true ∨ acc ≠ []) → splitGo s acc ≠ [] := by
  induction s with
  | nil =>
    intro acc h
    rcases h with h | h
    · simp at h
    · simp [splitGo, h]
  | cons c cs ih =>
    intro acc h
    by_cases hc : pyIsSpace c = true
    · by_cases ha : acc = []
      · subst ha
        have hcs : ¬ cs.all pyIsSpace = true := by
          rcases h with h | h
          · intro h2; exact h (by simp [List.all_cons, hc, h2])
          · exact absurd rfl h
        simp only [splitGo, hc, if_true, if_pos rfl]
        exact ih [] (Or.inl hcs)
      · simp [splitGo, hc, ha]
    · have hstep : splitGo (c :: cs) acc = splitGo cs (c :: acc) := by
        simp [splitGo, hc]
      rw [hstep]
      exact ih (c :: acc) (Or.inr (by simp))

lemma pySplit_pyLower_strip_ne_nil (t : Str) (ht : pyStrip t ≠ []) :
    pySplit (pyLower (pyStrip t)) ≠ [] := by
  apply splitGo_ne_nil
  left
  rw [all_pyIsSpace_pyLower]
  exact not_all_space_of_strip_ne_nil t ht

/-- The heuristic agrees with the specification's ladder on every text whose
trimmed form is non-empty. -/
lemma heuristic_eq_ladder (t : Str) (ht : pyStrip t ≠ []) :
    isIncompleteByPattern t = specCompletionLadder t := by
  have hw := pySplit_pyLower_strip_ne_nil t ht
  unfold isIncompleteByPattern specCompletionLadder
  simp only [if_neg ht, if_neg hw]
  split_ifs <;> simp_all

/-! ## `text_processing.py` constants and `detect_question` -/

/-- `QUESTION_WORDS` (text_processing.py lines 39-47). -/
def QUESTION_WORDS : List Str :=
  ([ "qué", "que", "cómo", "como", "cuándo", "cuando", "dónde", "donde",
     "por qué", "quién", "quien", "cuál", "cual", "cuánto", "cuanto",
     "para qué",
     "acaso", "puede", "podría", "sabe", "conoce", "recuerda",
     "entiende", "confirma", "niega", "reconoce", "acepta"
   ] : List String).map str

/-- `QUESTION_PATTERNS` (text_processing.py lines 50-54). -/
def QUESTION_PATTERNS : List Str :=
  ([ "es cierto que", "verdad que", "acaso", "¿",
     "puede indicar", "podría decir", "sabe usted",
     "recuerda usted", "conoce usted"
   ] : List String).map str

/-- `CAPITALIZE_WORDS` (text_processing.py lines 12-36): judicial role nouns
with their canonical capitalization, in insertion order. -/
def CAPITALIZE_WORDS : List (Str × Str) :=
  ([ ("juez", "Juez"), ("fiscal", "Fiscal"), ("doctor", "Doctor"),
     ("doctora", "Doctora"), ("abogado", "Abogado"), ("abogada", "Abogada"),
     ("señor", "Señor"), ("señora", "Señora"), ("señoría", "Señoría"),
     ("magistrado", "Magistrado"), ("magistrada", "Magistrada"),
     ("defensor", "Defensor"), ("defensora", "Defensora"),
     ("procurador", "Procurador"), ("procuradora", "Procuradora"),
     ("perito", "Perito"), ("testigo", "Testigo"),
     ("imputado", "Imputado"), ("imputada", "Imputada"),
     ("acusado", "Acusado"), ("acusada", "Acusada"),
     ("agraviado", "Agraviado"), ("agraviada", "Agraviada")
   ] : List (String × String)).map (fun p => (str p.1, str p.2))

/-- `detect_question` (text_processing.py lines 57-89). -/
def detectQuestion (text : Str) : Bool :=
  if pyStrip text = [] then false
  else if text.contains '?' || text.contains '¿' then true
  else
    let cleanText := pyLower (pyStrip text)
    let firstWord := (pySplit cleanText).headD []
    if firstWord ∈ QUESTION_WORDS then true
    else QUESTION_PATTERNS.any (fun p => p.isPrefixOf cleanText)

/-! ## `real_time_enhancement.py` -/

/-- A previously finalized segment as kept in the sliding context windows
(`previous_segments` entries: speaker, raw text, enhanced text). -/
structure PrevSeg where
  speakerId : Option Str
  textoIa : Str
  textoMejorado : Str
deriving DecidableEq, Repr

/-- The external Claude oracle at the API boundary: each call either returns
usable content (`some`) or fails — raises, times out, or returns output the
service cannot parse (`none`). -/
structure Oracle where
  completeApi : Str → Str → List PrevSeg → Option Bool
  enhanceApi : Str → Option Str → List PrevSeg → Option Str

/-- Connector list of the `is_sentence_complete` fallback
(real_time_enhancement.py line 103). -/
def fallbackIncompleteEndings : List Str :=
  ([ "que", "para", "y", "o", "si", "pero", "cuando", "porque", "a", "de", "con"
   ] : List String).map str

/-- The last word exactly as the fallback computes it (line 104):
`text.strip().split()[-1].lower() if text.strip() else ""`. -/
def fallbackLastWord (text : Str) : Str :=
  if pyStrip text = [] then []
  else pyLower ((pySplit (pyStrip text)).getLastD [])

/-- The `is_sentence_complete` failure fallback (lines 100-112): the verdict
is "incomplete" when some connector is a suffix of the last word
(`last_word.endswith(ending)`). Returns the `is_complete` field. -/
def isSentenceCompleteFallback (text : Str) : Bool :=
  ! fallbackIncompleteEndings.any (fun e => e.isSuffixOf (fallbackLastWord text))

/-- `is_sentence_complete` (lines 32-112), oracle behaviour as a parameter:
a successful call yields the oracle's verdict, any failure is absorbed by the
fallback; the call never raises. Returns the `is_complete` field. -/
def isSentenceComplete (o : Oracle) (text speaker : Str)
    (prev : List PrevSeg) : Bool :=
  match o.completeApi text speaker prev with
  | some b => b
  | none => isSentenceCompleteFallback text

/-- Result dict of `enhance_segment`. -/
structure EnhanceResult where
  original : Str
  enhanced : Str
  isQuestion : Bool
  isStatement : Bool
  confidence : Rat
deriving DecidableEq, Repr

/-- The deterministic local formatter of `enhance_segment`'s failure path
(real_time_enhancement.py lines 176-181): strip, capitalize the first
character when it is not uppercase, append a final period when the text does
not end in `.`, `?` or `!`. -/
def localFallbackFormat (text : Str) : Str :=
  let fb := pyStrip text
  let fb := match fb with
    | [] => ([] : Str)
    | c :: cs => if pyIsUpper c then c :: cs else pyToUpper c :: cs
  if fb = [] then fb
  else if isTerminalPunct (fb.getLastD ' ') then fb
  else fb ++ ['.']

/-- `enhance_segment` (lines 114-189), oracle behaviour as a parameter. A
successful oracle call yields Claude's reply (stripped) plus the
question/statement analysis; any failure is absorbed locally and the
deterministic formatter applied — the function never raises. -/
def enhanceSegment (o : Oracle) (text : Str) (speaker : Option Str)
    (prev : List PrevSeg) : EnhanceResult :=
  match o.enhanceApi text speaker prev with
  | some reply =>
      let enhanced := pyStrip reply
      { original := text, enhanced := enhanced,
        isQuestion := detectQuestion enhanced,
        isStatement := [('.' : Char)].isSuffixOf enhanced,
        confidence := 95 / 100 }
  | none =>
      { original := text, enhanced := localFallbackFormat text,
        isQuestion := false, isStatement := true, confidence := 1 / 2 }

/-- The local formatter exactly as claim C6 words it: first letter
capitalized, a terminal `.` appended exactly when the text does not already
end in `.`, `?` or `!`, content otherwise unchanged. -/
def claimLocalFormatter (text : Str) : Str :=
  let t := match text with
    | [] => ([] : Str)
    | c :: cs => pyToUpper c :: cs
  if t = [] then t
  else if isTerminalPunct (t.getLastD ' ') then t
  else t ++ ['.']

lemma pyToUpper_of_isUpper {c : Char} (h : pyIsUpper c = true) :
    pyToUpper c = c := by
  have hall : upperChars.all (fun c => pyToUpper c == c) = true := by decide
  rw [List.all_eq_true] at hall
  have hm : c ∈ upperChars := by
    simpa [pyIsUpper] using h
  simpa using hall c hm

/-- On texts with no surrounding whitespace the code's fallback formatter is
exactly the formatter described by the claim. -/
lemma localFallbackFormat_eq_claim (t : Str) (h : pyStrip t = t) :
    localFallbackFormat t = claimLocalFormatter t := by
  unfold localFallbackFormat claimLocalFormatter
  rw [h]
  cases t with
  | nil => rfl
  | cons c cs =>
    by_cases hc : pyIsUpper c = true
    · simp [hc, pyToUpper_of_isUpper hc]
    · simp [hc]

/-! ## `transcription_ws.py`: the consolidation state machine -/

/-- One word entry as carried in Deepgram results (`palabras_json`). -/
structure Word where
  word : Str
  start : Rat
  stop : Rat
  confidence : Rat
deriving DecidableEq, Repr

/-- One Deepgram transcript event as delivered to `on_transcript`. -/
structure Chunk where
  speaker : Str
  text : Str
  isFinal : Bool
  start : Rat
  stop : Rat
  confidence : Rat
  words : List Word
deriving DecidableEq, Repr

/-- The consolidation buffer (transcription_ws.py lines 60-66). -/
structure Buffer where
  speakerId : Option Str
  segments : List Str
  timestamps : List (Rat × Rat)
  words : List Word
  lastCheckLength : Nat
deriving DecidableEq, Repr

/-- Per-session mutable state of `transcription_websocket`: the consolidation
buffer, `segment_counter` and the `previous_segments` context window. -/
structure SessionState where
  buffer : Buffer
  segmentCounter : Nat
  previousSegments : List PrevSeg
deriving DecidableEq, Repr

/-- Events sent to the client (finalized ones are also persisted with the same
`orden`): the projection of the JSON payloads of transcription_ws.py lines
206-220 / 224-239, 341-350 and 260 onto the fields the specification
talks about. -/
inductive OutEvent where
  | provisional (speaker : Str) (text : Str) (confidence : Rat)
      (start stop : Rat) (words : List Word)
  | finalized (speaker : Option Str) (rawText : Str) (enhancedText : Str)
      (isQuestion : Bool) (confidence : Rat) (start stop : Rat) (orden : Nat)
deriving DecidableEq, Repr

/-- The buffer as initialized at lines 60-66. -/
def initialBuffer : Buffer := ⟨none, [], [], [], 0⟩

/-- Session state at connection time (lines 55-66). -/
def initialState : SessionState := ⟨initialBuffer, 0, []⟩

/-- `_process_consolidated_segment` (lines 157-248): flush the buffer into one
enhanced segment, emitted once and persisted with the same `orden`; a no-op on
an empty buffer. The buffer is cleared except for its speaker. -/
def processConsolidatedSegment (o : Oracle) (st : SessionState) :
    SessionState × List OutEvent :=
  if st.buffer.segments = [] then (st, [])
  else
    let consolidatedText := sjoin st.buffer.segments
    let speakerId := st.buffer.speakerId
    let startTime := (st.buffer.timestamps.headD (0, 0)).1
    let endTime := (st.buffer.timestamps.getLastD (0, 0)).2
    let allWords := st.buffer.words
    let avgConfidence :=
      if allWords = [] then 1
      else (allWords.map (·.confidence)).sum / allWords.length
    let enh := enhanceSegment o consolidatedText speakerId st.previousSegments
    let prev1 := st.previousSegments ++ [⟨speakerId, consolidatedText, enh.enhanced⟩]
    let prev2 := if 25 < prev1.length then prev1.tail else prev1
    let counter := st.segmentCounter + 1
    ({ buffer := ⟨speakerId, [], [], [], 0⟩,
       segmentCounter := counter,
       previousSegments := prev2 },
     [OutEvent.finalized speakerId consolidatedText enh.enhanced
        enh.isQuestion avgConfidence startTime endTime counter])

/-- Lines 263-280 of `on_transcript`: on a speaker change flush any
accumulated buffer and restart the buffer for the new speaker; on a first
chunk just establish the speaker. -/
def handleSpeakerChange (o : Oracle) (st : SessionState) (cur : Str) :
    SessionState × List OutEvent :=
  if st.buffer.speakerId ≠ none ∧ st.buffer.speakerId ≠ some cur then
    let r :=
      if st.buffer.segments ≠ [] then processConsolidatedSegment o st
      else (st, [])
    ({ r.1 with buffer := ⟨some cur, [], [], [], 0⟩ }, r.2)
  else if st.buffer.speakerId = none then
    ({ st with buffer := { st.buffer with speakerId := some cur } }, [])
  else (st, [])

/-- Lines 283-289: append the chunk's text, time span and (non-empty) word
list to the buffer. -/
def appendChunk (st : SessionState) (c : Chunk) : SessionState :=
  { st with buffer :=
      { st.buffer with
        segments := st.buffer.segments ++ [c.text],
        timestamps := st.buffer.timestamps ++ [(c.start, c.stop)],
        words := if c.words = [] then st.buffer.words
                 else st.buffer.words ++ c.words } }

/-- The provisional JSON of lines 341-350 sent when the buffer is kept. -/
def provisionalOfBuffer (st : SessionState) (c : Chunk) : OutEvent :=
  OutEvent.provisional c.speaker (sjoin st.buffer.segments) c.confidence
    (st.buffer.timestamps.headD (0, 0)).1
    (st.buffer.timestamps.getLastD (0, 0)).2
    st.buffer.words

/-- Lines 291-350: the flush decision ladder evaluated after an append:
length cutoff over 50 words, else heuristic completeness, else a
rate-limited completion check, else keep the buffer and send it as
provisional feedback. -/
def flushDecision (o : Oracle) (st : SessionState) (c : Chunk) :
    SessionState × List OutEvent :=
  let bufferText := sjoin st.buffer.segments
  let wordCount := (pySplit bufferText).length
  if 50 < wordCount then processConsolidatedSegment o st
  else if isIncompleteByPattern bufferText = false then
    processConsolidatedSegment o st
  else if 20 < wordCount ∧ 5 ≤ wordCount - st.buffer.lastCheckLength then
    let verdict := isSentenceComplete o bufferText c.speaker st.previousSegments
    let st1 := { st with buffer := { st.buffer with lastCheckLength := wordCount } }
    if verdict then processConsolidatedSegment o st1
    else (st1, [provisionalOfBuffer st1 c])
  else (st, [provisionalOfBuffer st c])

/-- `on_transcript` (lines 250-353) for one chunk: interim chunks are
forwarded unchanged as provisional events; final chunks go through
speaker-change handling, buffer append and the flush decision. -/
def onTranscript (o : Oracle) (st : SessionState) (c : Chunk) :
    SessionState × List OutEvent :=
  if c.isFinal = false then
    (st, [OutEvent.provisional c.speaker c.text c.confidence c.start c.stop c.words])
  else
    let r1 := handleSpeakerChange o st c.speaker
    let st2 := appendChunk r1.1 c
    let r2 := flushDecision o st2 c
    (r2.1, r1.2 ++ r2.2)

/-- Process a list of chunks in arrival order, collecting all emitted
events. -/
def runChunks (o : Oracle) (st : SessionState) :
    List Chunk → SessionState × List OutEvent
  | [] => (st, [])
  | c :: cs =>
      let r1 := onTranscript o st c
      let r2 := runChunks o r1.1 cs
      (r2.1, r1.2 ++ r2.2)

/-- A whole hearing session: chunks are processed in arrival order; the
cleanup block of `transcription_websocket` (lines 444-469) closes the audio
writer and the Deepgram connection and releases the session WITHOUT flushing
the consolidation buffer, so session end emits no further events. -/
def runSession (o : Oracle) (chunks : List Chunk) : List OutEvent :=
  (runChunks o initialState chunks).2

/-- The `orden` values of the finalized events, in emission order. -/
def ordensOf : List OutEvent → List Nat
  | [] => []
  | OutEvent.finalized _ _ _ _ _ _ _ n :: evs => n :: ordensOf evs
  | OutEvent.provisional _ _ _ _ _ _ :: evs => ordensOf evs

/-- The `raw_text` fields of the finalized events, in emission order. -/
def rawTextsOf : List OutEvent → List Str
  | [] => []
  | OutEvent.finalized _ raw _ _ _ _ _ _ :: evs => raw :: rawTextsOf evs
  | OutEvent.provisional _ _ _ _ _ _ :: evs => rawTextsOf evs

/-- Number of finalized events in an event list. -/
def finalsCount (evs : List OutEvent) : Nat := (ordensOf evs).length

/-- The speaker an emitted event is attributed to. -/
def eventSpeaker : OutEvent → Option Str
  | OutEvent.provisional s _ _ _ _ _ => some s
  | OutEvent.finalized s _ _ _ _ _ _ _ => s

/-- The texts of the final (`is_final == true`) chunks, in arrival order. -/
def finalChunkTexts (cs : List Chunk) : List Str :=
  (cs.filter (·.isFinal)).map (·.text)

/-! ## `legal_dictionary.py` -/

/-- Consonant sound classes of `_soundex_es` (legal_dictionary.py lines
27-34). -/
def soundexMap (c : Char) : Char :=
  match c with
  | 'b' => '1' | 'v' => '1' | 'f' => '1' | 'p' => '1'
  | 'c' => '2' | 'g' => '2' | 'j' => '2' | 'k' => '2' | 'q' => '2'
  | 's' => '2' | 'x' => '2' | 'z' => '2'
  | 'd' => '3' | 't' => '3'
  | 'l' => '4'
  | 'm' => '5' | 'n' => '5' | 'ñ' => '5'
  | 'r' => '6'
  | _ => '0'

/-- The scanning loop of `_soundex_es` (lines 40-46): append a class digit
when it is non-zero and differs from the previous code, stop once the result
reaches 5 characters; zero codes (vowels, unmapped letters) leave the
previous code unchanged. -/
def soundexLoop : Str → Char → Str → Str
  | [], _, acc => acc
  | c :: cs, prev, acc =>
      let code := soundexMap c
      if code ≠ '0' ∧ code ≠ prev then
        let acc2 := acc ++ [code]
        if 5 ≤ acc2.length then acc2
        else soundexLoop cs code acc2
      else soundexLoop cs (if code ≠ '0' then code else prev) acc

/-- `_soundex_es` (lines 14-49): deterministic 5-character Spanish-tuned
phonetic code, first letter kept, right-padded with zeros. -/
def soundexEs (word : Str) : Str :=
  if word = [] then []
  else
    match pyStrip (pyLower word) with
    | [] => []
    | c :: cs =>
        let result := soundexLoop cs (soundexMap c) [pyToUpper c]
        result ++ List.replicate (5 - result.length) '0'

/-- Inner loop of `_levenshtein` (lines 63-70): build the current row past
its leading `i+1`; arguments: remaining `b` characters, `prev_row[j]`
(the diagonal), `prev_row` from position `j+1` on, and the value last
appended to the current row. -/
def levInner (ca : Char) : Str → Nat → List Nat → Nat → List Nat
  | [], _, _, _ => []
  | cb :: bs, diag, aboves, last =>
      let above := aboves.headD 0
      let cost := if pyToLower ca = pyToLower cb then 0 else 1
      let v := min (last + 1) (min (above + 1) (diag + cost))
      v :: levInner ca bs above aboves.tail v

/-- One outer iteration of `_levenshtein`: the current row. -/
def levRow (ca : Char) (prevRow : List Nat) (i : Nat) (b : Str) : List Nat :=
  (i + 1) :: levInner ca b (prevRow.headD 0) prevRow.tail (i + 1)

/-- Core of `_levenshtein` (lines 57-73), run with `len(a) ≥ len(b)`. -/
def levenshteinCore (a b : Str) : Nat :=
  if b.length = 0 then a.length
  else
    ((a.foldl (fun st ca => (levRow ca st.1 st.2 b, st.2 + 1))
        (List.range (b.length + 1), 0)).1).getLastD 0

/-- `_levenshtein` (lines 52-73): case-insensitive Levenshtein distance via
row-reusing dynamic programming; the initial swap keeps the second argument
the shorter one. -/
def levenshteinPy (a b : Str) : Nat :=
  if a.length < b.length then levenshteinCore b a else levenshteinCore a b

/-- One parsed entry of the term list fed to `load_terms`. -/
structure Term where
  correcto : Str
  categoria : Str
  contexto : Str
  variantesError : List Str
deriving DecidableEq, Repr

/-- Value stored in the variant and phonetic indices (the dicts of lines
146-150 and 156-160: canonical form, category, usage note). -/
structure DictEntry where
  correcto : Str
  categoria : Str
  contexto : Str
deriving DecidableEq, Repr

/-- The three indices of `LegalDictionary` (lines 109-111) after
`load_terms`; Python dicts are modelled as insertion-ordered association
lists, the set as a duplicate-free list. -/
structure LegalDict where
  variantMap : List (Str × DictEntry)
  correctSet : List Str
  soundexIndex : List (Str × List DictEntry)
deriving DecidableEq, Repr

/-- Python `dict[k] = v`: overwrite in place, or append a new key. -/
def assocInsert (m : List (Str × DictEntry)) (k : Str) (v : DictEntry) :
    List (Str × DictEntry) :=
  if m.any (fun kv => kv.1 == k) then
    m.map (fun kv => if kv.1 == k then (k, v) else kv)
  else m ++ [(k, v)]

/-- Python `dict.get(k)` on the variant map. -/
def assocLookup (m : List (Str × DictEntry)) (k : Str) : Option DictEntry :=
  (m.find? (fun kv => kv.1 == k)).map (·.2)

/-- Python `set.add`. -/
def setAdd (s : List Str) (x : Str) : List Str :=
  if x ∈ s then s else s ++ [x]

/-- Append an entry to a phonetic bucket, creating the bucket at the end on
first use (lines 153-160). -/
def indexAppend (ix : List (Str × List DictEntry)) (k : Str) (e : DictEntry) :
    List (Str × List DictEntry) :=
  if ix.any (fun kv => kv.1 == k) then
    ix.map (fun kv => if kv.1 == k then (kv.1, kv.2 ++ [e]) else kv)
  else ix ++ [(k, [e])]

/-- Python `self._soundex_index.get(soundex, [])`. -/
def indexLookup (ix : List (Str × List DictEntry)) (k : Str) : List DictEntry :=
  ((ix.find? (fun kv => kv.1 == k)).map (·.2)).getD []

/-- The per-term body of the `load_terms` loop (lines 128-160). -/
def loadTerm (d : LegalDict) (t : Term) : LegalDict :=
  let correctoLower := pyLower t.correcto
  let cset := ((pySplit correctoLower).filter (fun w => decide (4 ≤ w.length))).foldl
    setAdd (setAdd d.correctSet correctoLower)
  let vmap := t.variantesError.foldl (fun m v =>
      let vl := pyLower v
      if vl ≠ correctoLower then
        assocInsert m vl ⟨t.correcto, t.categoria, t.contexto⟩
      else m) d.variantMap
  let sdx := soundexEs ((pySplit correctoLower).headD [])
  { variantMap := vmap, correctSet := cset,
    soundexIndex := indexAppend d.soundexIndex sdx ⟨t.correcto, t.categoria, t.contexto⟩ }

/-- `load_terms` (lines 114-164) applied to an already-parsed term list. -/
def loadTerms (terms : List Term) : LegalDict :=
  terms.foldl loadTerm ⟨[], [], []⟩

/-- A suggested correction (class `Correction`, lines 76-98). -/
structure Correction where
  original : Str
  suggested : Str
  confidence : Rat
  category : Str
  context : Str
  positionStart : Nat
  positionEnd : Nat
deriving DecidableEq, Repr

/-- The candidate-scoring loop of `_fuzzy_find` (lines 251-273): keep the
best candidate whose score `1 - dist/max_len` exceeds both 0.65 and the best
seen so far; candidates with `max_len == 0` are skipped. -/
def bestCandidate (word : Str) :
    List DictEntry → Option (DictEntry × Rat) → Rat → Option (DictEntry × Rat)
  | [], best, _ => best
  | cand :: rest, best, bestConf =>
      let firstWord := (pySplit (pyLower cand.correcto)).headD []
      let maxLen := max word.length firstWord.length
      if maxLen = 0 then bestCandidate word rest best bestConf
      else
        let conf : Rat := 1 - (levenshteinPy word firstWord : Rat) / (maxLen : Rat)
        if 65 / 100 < conf ∧ bestConf < conf then
          bestCandidate word rest (some (cand, conf)) conf
        else bestCandidate word rest best bestConf

/-- `_fuzzy_find` (lines 233-275): candidates come from the word's own
phonetic bucket; only when that bucket is empty are the buckets of codes at
Levenshtein distance ≤ 1 gathered instead (in index insertion order). -/
def fuzzyFind (d : LegalDict) (word : Str) : Option (DictEntry × Rat) :=
  let sdx := soundexEs word
  let own := indexLookup d.soundexIndex sdx
  let candidates :=
    if own = [] then
      (d.soundexIndex.filter (fun kv => decide (levenshteinPy sdx kv.1 ≤ 1))).flatMap (·.2)
    else own
  bestCandidate word candidates none 0

/-- Worker for `_tokenize`: `i` is the current offset, the option holds the
(reversed) current non-whitespace run with its start offset. -/
def tokenizeGo : Str → Nat → Option (Str × Nat) → List (Str × Nat × Nat)
  | [], _, none => []
  | [], i, some (acc, s) => [(acc.reverse, s, i)]
  | c :: cs, i, none =>
      if pyIsSpace c then tokenizeGo cs (i + 1) none
      else tokenizeGo cs (i + 1) (some ([c], i))
  | c :: cs, i, some (acc, s) =>
      if pyIsSpace c then (acc.reverse, s, i) :: tokenizeGo cs (i + 1) none
      else tokenizeGo cs (i + 1) (some (c :: acc, s))

/-- `_tokenize` (lines 226-231): maximal non-whitespace runs with their
offsets (`re.finditer(r'\S+', text)`). -/
def tokenize (text : Str) : List (Str × Nat × Nat) := tokenizeGo text 0 none

/-- The dictionary punctuation literal `'.,;:!?¿¡'` (line 187). -/
def dictPunct : List Char := str ".,;:!?¿¡"

/-- The per-token body of `check_segment`'s loop (lines 186-222): skip short
tokens and canonical tokens, try the exact variant map (confidence 0.95),
then the fuzzy finder. -/
def checkToken (d : LegalDict) (tok : Str × Nat × Nat) : Option Correction :=
  let wordLower := pyRstripSet (pyLower tok.1) dictPunct
  if wordLower.length < 4 then none
  else if wordLower ∈ d.correctSet then none
  else
    match assocLookup d.variantMap wordLower with
    | some m =>
        some ⟨tok.1, m.correcto, 95 / 100, m.categoria, m.contexto, tok.2.1, tok.2.2⟩
    | none =>
        match fuzzyFind d wordLower with
        | some (e, conf) =>
            some ⟨tok.1, e.correcto, conf, e.categoria, e.contexto, tok.2.1, tok.2.2⟩
        | none => none

/-- `check_segment` (lines 171-224). -/
def checkSegment (d : LegalDict) (text : Str) : List Correction :=
  if pyStrip text = [] then []
  else (tokenize text).filterMap (checkToken d)

/-- Candidate gathering exactly as claim C9 words it: the entries of the
token's own phonetic code AND those of every other indexed code within
Levenshtein distance 1 of it. -/
def claimFuzzyGather (d : LegalDict) (word : Str) : List DictEntry :=
  let sdx := soundexEs word
  indexLookup d.soundexIndex sdx ++
    (d.soundexIndex.filter
      (fun kv => decide (levenshteinPy sdx kv.1 ≤ 1 ∧ kv.1 ≠ sdx))).flatMap (·.2)

/-- The fuzzy lookup exactly as claim C9 words it, over the union of both
candidate sources. -/
def claimFuzzyFind (d : LegalDict) (word : Str) : Option (DictEntry × Rat) :=
  bestCandidate word (claimFuzzyGather d word) none 0

/-- The claim's scoring formula `1 - levenshtein(token, first_word)/max(len)`
for a candidate entry. -/
def candScore (word : Str) (e : DictEntry) : Rat :=
  let firstWord := (pySplit (pyLower e.correcto)).headD []
  let maxLen : Nat := max word.length firstWord.length
  1 - (levenshteinPy word firstWord : Rat) / (maxLen : Rat)

/-! ## Lemmas about `sjoin` and the event observers -/

lemma sjoin_singleton (x : Str) : sjoin [x] = x := rfl

lemma sjoin_append_ne_nil (S R : List Str) (hS : S ≠ []) (hR : R ≠ []) :
    sjoin (S ++ R) = sjoin S ++ ' ' :: sjoin R := by
  induction S with
  | nil => exact absurd rfl hS
  | cons x S ih =>
    cases S with
    | nil =>
      cases R with
      | nil => exact absurd rfl hR
      | cons y ys => simp [sjoin]
    | cons s S2 =>
      have h2 : sjoin ((x :: s :: S2) ++ R) = x ++ ' ' :: sjoin ((s :: S2) ++ R) := by
        simp [sjoin]
      rw [h2, ih (by simp)]
      simp [sjoin]

lemma flatten_ne_nil {G : List (List Str)} (hG : G ≠ [])
    (hne : ∀ g ∈ G, g ≠ []) : G.flatten ≠ [] := by
  cases G with
  | nil => exact absurd rfl hG
  | cons g G2 =>
    have hg := hne g (by simp)
    cases g with
    | nil => exact absurd rfl hg
    | cons c cs => simp

lemma sjoin_map_flatten (G : List (List Str)) (B : List Str)
    (hne : ∀ g ∈ G, g ≠ []) :
    sjoin (G.map sjoin ++ B) = sjoin (G.flatten ++ B) := by
  induction G with
  | nil => simp
  | cons g G2 ih =>
    have hg : g ≠ [] := hne g (by simp)
    have hne2 : ∀ x ∈ G2, x ≠ [] := fun x hx => hne x (by simp [hx])
    by_cases hrest : G2.map sjoin ++ B = []
    · have hG2 : G2 = [] := by
        rcases List.append_eq_nil.mp hrest with ⟨h1, _⟩
        simpa using h1
      have hB : B = [] := (List.append_eq_nil.mp hrest).2
      subst hG2; subst hB
      simp [sjoin_singleton]
    · have hflat : G2.flatten ++ B ≠ [] := by
        intro h
        rcases List.append_eq_nil.mp h with ⟨h1, h2⟩
        apply hrest
        subst h2
        simp only [List.append_nil] at *
        cases G2 with
        | nil => rfl
        | cons a G3 => exact absurd h1 (flatten_ne_nil (by simp) hne2)
      calc sjoin ((g :: G2).map sjoin ++ B)
          = sjoin (sjoin g :: (G2.map sjoin ++ B)) := by simp
        _ = sjoin [sjoin g] ++ ' ' :: sjoin (G2.map sjoin ++ B) := by
            rw [← sjoin_append_ne_nil [sjoin g] _ (by simp) hrest]; simp
        _ = sjoin g ++ ' ' :: sjoin (G2.flatten ++ B) := by
            rw [sjoin_singleton, ih hne2]
        _ = sjoin (g ++ (G2.flatten ++ B)) := by
            rw [sjoin_append_ne_nil g _ hg hflat]
        _ = sjoin ((g :: G2).flatten ++ B) := by simp

lemma rawTextsOf_append (a b : List OutEvent) :
    rawTextsOf (a ++ b) = rawTextsOf a ++ rawTextsOf b := by
  induction a with
  | nil => rfl
  | cons e a ih => cases e <;> simp [rawTextsOf, ih]

lemma ordensOf_append (a b : List OutEvent) :
    ordensOf (a ++ b) = ordensOf a ++ ordensOf b := by
  induction a with
  | nil => rfl
  | cons e a ih => cases e <;> simp [ordensOf, ih]

/-! ## Step predicates for the session invariants -/

/-- The sequence-number bookkeeping of one processing step starting from
`st`: the `orden`s emitted are consecutive, starting right after
`st.segmentCounter`, and the counter advances by their number. -/
def StepOrdens (st : SessionState) (r : SessionState × List OutEvent) : Prop :=
  r.1.segmentCounter = st.segmentCounter + (ordensOf r.2).length ∧
  ordensOf r.2 = List.range' (st.segmentCounter + 1) (ordensOf r.2).length

lemma stepOrdens_id (st : SessionState) (evs : List OutEvent)
    (h : ordensOf evs = []) : StepOrdens st (st, evs) := by
  constructor <;> simp [h]

lemma stepOrdens_comp (st : SessionState) (r1 : SessionState × List OutEvent)
    (r2 : SessionState × List OutEvent)
    (h1 : StepOrdens st r1) (h2 : StepOrdens r1.1 r2) :
    StepOrdens st (r2.1, r1.2 ++ r2.2) := by
  obtain ⟨hc1, ho1⟩ := h1
  obtain ⟨hc2, ho2⟩ := h2
  constructor
  · simp only [ordensOf_append, List.length_append]
    omega
  · simp only [ordensOf_append, List.length_append]
    rw [ho1, ho2, hc1]
    have := List.range'_append (st.segmentCounter + 1) (ordensOf r1.2).length
      (ordensOf r2.2).length 1
    simpa [Nat.add_assoc, Nat.add_comm, Nat.add_left_comm] using this

lemma stepOrdens_proc (o : Oracle) (st : SessionState) :
    StepOrdens st (processConsolidatedSegment o st) := by
  by_cases h : st.buffer.segments = []
  · simp [processConsolidatedSegment, h, StepOrdens, ordensOf]
  · simp [processConsolidatedSegment, h, StepOrdens, ordensOf, List.range']

lemma stepOrdens_counter_eq (st : SessionState) (r : SessionState × List OutEvent)
    (h : StepOrdens st r) (st2 : SessionState)
    (hc : st2.segmentCounter = r.1.segmentCounter) :
    StepOrdens st (st2, r.2) := by
  obtain ⟨h1, h2⟩ := h
  exact ⟨by rw [hc]; exact h1, h2⟩

lemma stepOrdens_handleSpeakerChange (o : Oracle) (st : SessionState) (cur : Str) :
    StepOrdens st (handleSpeakerChange o st cur) := by
  unfold handleSpeakerChange
  split_ifs with h1 h2 h3
  · exact stepOrdens_counter_eq st _ (stepOrdens_proc o st) _ rfl
  · exact stepOrdens_counter_eq st _ (stepOrdens_id st [] rfl) _ rfl
  · exact stepOrdens_id st [] rfl
  · exact stepOrdens_id st [] rfl

lemma stepOrdens_flushDecision (o : Oracle) (st : SessionState) (c : Chunk) :
    StepOrdens st (flushDecision o st c) := by
  unfold flushDecision
  dsimp only
  split_ifs with h1 h2 h3 h4
  · exact stepOrdens_proc o st
  · exact stepOrdens_proc o st
  · exact stepOrdens_proc o _
  · exact stepOrdens_id _ _ rfl
  · exact stepOrdens_id st _ rfl

lemma stepOrdens_onTranscript (o : Oracle) (st : SessionState) (c : Chunk) :
    StepOrdens st (onTranscript o st c) := by
  unfold onTranscript
  dsimp only
  split_ifs with h1
  · exact stepOrdens_id st _ rfl
  · exact stepOrdens_comp st _ _ (stepOrdens_handleSpeakerChange o st c.speaker)
      (stepOrdens_flushDecision o _ c)

lemma stepOrdens_runChunks (o : Oracle) :
    ∀ (cs : List Chunk) (st : SessionState), StepOrdens st (runChunks o st cs) := by
  intro cs
  induction cs with
  | nil => intro st; exact stepOrdens_id st [] rfl
  | cons c cs ih =>
    intro st
    have h1 := stepOrdens_onTranscript o st c
    have h2 := ih (onTranscript o st c).1
    simpa [runChunks] using stepOrdens_comp st _ _ h1 h2

/-- The text bookkeeping of one processing step starting from `st`, where
`added` is the list of chunk texts the step appended: the raw texts it emits
are space-joins of non-empty groups which, followed by the remaining buffer
segments, recombine exactly into the previous buffer segments plus `added`:
no text is lost, duplicated or reordered inside a session. -/
def StepTexts (st : SessionState) (r : SessionState × List OutEvent)
    (added : List Str) : Prop :=
  ∃ G : List (List Str),
    rawTextsOf r.2 = G.map sjoin ∧ (∀ g ∈ G, g ≠ []) ∧
    G.flatten ++ r.1.buffer.segments = st.buffer.segments ++ added

lemma stepTexts_comp (st : SessionState) (r1 r2 : SessionState × List OutEvent)
    (a1 a2 : List Str) (h1 : StepTexts st r1 a1) (h2 : StepTexts r1.1 r2 a2) :
    StepTexts st (r2.1, r1.2 ++ r2.2) (a1 ++ a2) := by
  obtain ⟨G1, hm1, hn1, hf1⟩ := h1
  obtain ⟨G2, hm2, hn2, hf2⟩ := h2
  refine ⟨G1 ++ G2, ?_, ?_, ?_⟩
  · rw [rawTextsOf_append, hm1, hm2, List.map_append]
  · intro g hg
    rcases List.mem_append.mp hg with h | h
    exacts [hn1 g h, hn2 g h]
  · rw [List.flatten_append]
    calc G1.flatten ++ G2.flatten ++ r2.1.buffer.segments
        = G1.flatten ++ (G2.flatten ++ r2.1.buffer.segments) := by
          rw [List.append_assoc]
      _ = G1.flatten ++ (r1.1.buffer.segments ++ a2) := by rw [hf2]
      _ = G1.flatten ++ r1.1.buffer.segments ++ a2 := by rw [List.append_assoc]
      _ = st.buffer.segments ++ a1 ++ a2 := by rw [hf1]
      _ = st.buffer.segments ++ (a1 ++ a2) := by rw [List.append_assoc]

lemma stepTexts_proc (o : Oracle) (st : SessionState) :
    StepTexts st (processConsolidatedSegment o st) [] := by
  by_cases h : st.buffer.segments = []
  · exact ⟨[], by simp [processConsolidatedSegment, h, rawTextsOf],
      by simp, by simp [processConsolidatedSegment, h]⟩
  · refine ⟨[st.buffer.segments], ?_, ?_, ?_⟩
    · simp [processConsolidatedSegment, h, rawTextsOf]
    · simpa using h
    · simp [processConsolidatedSegment, h]

lemma stepTexts_handleSpeakerChange (o : Oracle) (st : SessionState) (cur : Str) :
    StepTexts st (handleSpeakerChange o st cur) [] := by
  unfold handleSpeakerChange
  dsimp only
  split_ifs with h1 h2 h3
  · refine ⟨[st.buffer.segments], ?_, ?_, ?_⟩
    · simp [processConsolidatedSegment, h2, rawTextsOf]
    · simpa using h2
    · simp
  · have hseg : st.buffer.segments = [] := by simpa using h2
    exact ⟨[], by simp [rawTextsOf], by simp, by simp [hseg]⟩
  · exact ⟨[], by simp [rawTextsOf], by simp, by simp⟩
  · exact ⟨[], by simp [rawTextsOf], by simp, by simp⟩

lemma stepTexts_flushDecision (o : Oracle) (st : SessionState) (c : Chunk) :
    StepTexts st (flushDecision o st c) [] := by
  unfold flushDecision
  dsimp only
  split_ifs with h1 h2 h3 h4
  · exact stepTexts_proc o st
  · exact stepTexts_proc o st
  · by_cases h : st.buffer.segments = []
    · exact ⟨[], by simp [processConsolidatedSegment, h, rawTextsOf],
        by simp, by simp [processConsolidatedSegment, h]⟩
    · refine ⟨[st.buffer.segments], ?_, ?_, ?_⟩
      · simp [processConsolidatedSegment, h, rawTextsOf]
      · simpa using h
      · simp [processConsolidatedSegment, h]
  · exact ⟨[], by simp [rawTextsOf], by simp, by simp⟩
  · exact ⟨[], by simp [rawTextsOf], by simp, by simp⟩

lemma stepTexts_onTranscript (o : Oracle) (st : SessionState) (c : Chunk) :
    StepTexts st (onTranscript o st c)
      (if c.isFinal then [c.text] else []) := by
  by_cases hfin : c.isFinal = true
  · rw [if_pos hfin]
    unfold onTranscript
    rw [if_neg (by simp [hfin])]
    dsimp only
    have hA := stepTexts_handleSpeakerChange o st c.speaker
    have hB : StepTexts (handleSpeakerChange o st c.speaker).1
        (appendChunk (handleSpeakerChange o st c.speaker).1 c, ([] : List OutEvent))
        [c.text] :=
      ⟨[], by simp [rawTextsOf], by simp, by simp [appendChunk]⟩
    have hC := stepTexts_flushDecision o
      (appendChunk (handleSpeakerChange o st c.speaker).1 c) c
    have hAB := stepTexts_comp st _ _ [] [c.text] hA hB
    have hABC := stepTexts_comp st _ _ ([] ++ [c.text]) [] hAB hC
    simpa using hABC
  · have hf : c.isFinal = false := by simpa using hfin
    rw [if_neg (by simp [hf])]
    unfold onTranscript
    rw [if_pos hf]
    exact ⟨[], by simp [rawTextsOf], by simp, by simp⟩

lemma finalChunkTexts_cons (c : Chunk) (cs : List Chunk) :
    finalChunkTexts (c :: cs) =
      (if c.isFinal then [c.text] else []) ++ finalChunkTexts cs := by
  by_cases h : c.isFinal <;> simp [finalChunkTexts, h]

lemma stepTexts_runChunks (o : Oracle) :
    ∀ (cs : List Chunk) (st : SessionState),
    StepTexts st (runChunks o st cs) (finalChunkTexts cs) := by
  intro cs
  induction cs with
  | nil =>
    intro st
    exact ⟨[], by simp [runChunks, rawTextsOf], by simp,
      by simp [runChunks, finalChunkTexts]⟩
  | cons c cs ih =>
    intro st
    have h1 := stepTexts_onTranscript o st c
    have h2 := ih (onTranscript o st c).1
    have h12 := stepTexts_comp st _ _ _ _ h1 h2
    rw [finalChunkTexts_cons]
    simpa [runChunks] using h12

/-! ## The candidate loop of `_fuzzy_find` -/

lemma bestCandidate_cons (w : Str) (cand : DictEntry) (rest : List DictEntry)
    (best : Option (DictEntry × Rat)) (bc : Rat) :
    bestCandidate w (cand :: rest) best bc =
      if max w.length ((pySplit (pyLower cand.correcto)).headD []).length = 0 then
        bestCandidate w rest best bc
      else if 65 / 100 < candScore w cand ∧ bc < candScore w cand then
        bestCandidate w rest (some (cand, candScore w cand)) (candScore w cand)
      else bestCandidate w rest best bc := by
  conv_lhs => unfold bestCandidate
  rfl

lemma bestCandidate_spec (w : Str) (hw : w ≠ []) :
    ∀ (cands : List DictEntry) (best : Option (DictEntry × Rat)) (bc : Rat),
    (best = none → bc = 0) →
    (∀ p : DictEntry × Rat, best = some p →
      p.2 = bc ∧ 65 / 100 < bc ∧ p.2 = candScore w p.1) →
    (match bestCandidate w cands best bc with
     | some (e, conf) =>
         bc ≤ conf ∧ 65 / 100 < conf ∧ conf = candScore w e ∧
         (∀ e2 ∈ cands, candScore w e2 ≤ conf) ∧
         (best = some (e, conf) ∨ e ∈ cands)
     | none => best = none ∧ ∀ e2 ∈ cands, candScore w e2 ≤ 65 / 100) := by
  intro cands
  induction cands with
  | nil =>
    intro best bc hnone hsome
    cases best with
    | none => simp [bestCandidate]
    | some p =>
      obtain ⟨h1, h2, h3⟩ := hsome p rfl
      obtain ⟨e, conf⟩ := p
      simp only at h1 h3
      show bc ≤ conf ∧ 65 / 100 < conf ∧ conf = candScore w e ∧
        (∀ e2 ∈ ([] : List DictEntry), candScore w e2 ≤ conf) ∧
        (some (e, conf) = some (e, conf) ∨ e ∈ ([] : List DictEntry))
      refine ⟨le_of_eq h1.symm, ?_, h3, by simp, Or.inl rfl⟩
      rw [h1]
      exact h2
  | cons cand rest ih =>
    intro best bc hnone hsome
    have hwlen : w.length ≠ 0 := by simpa using hw
    have hml : ¬ (max w.length ((pySplit (pyLower cand.correcto)).headD []).length = 0) := by
      rw [Nat.max_eq_zero_iff]
      intro h
      exact hwlen h.1
    by_cases hacc : 65 / 100 < candScore w cand ∧ bc < candScore w cand
    · rw [bestCandidate_cons, if_neg hml, if_pos hacc]
      have hIH := ih (some (cand, candScore w cand)) (candScore w cand)
        (by intro h; cases h)
        (by
          intro p hp
          injection hp with hp2
          subst hp2
          exact ⟨rfl, hacc.1, rfl⟩)
      rcases hb2 : bestCandidate w rest (some (cand, candScore w cand))
          (candScore w cand) with _ | ⟨e, conf2⟩
      · rw [hb2] at hIH
        exact absurd hIH.1 (by simp)
      · rw [hb2] at hIH
        obtain ⟨hle, hgt, heq, hall, hmem⟩ := hIH
        refine ⟨le_trans (le_of_lt hacc.2) hle, hgt, heq, ?_, ?_⟩
        · intro e2 he2
          rcases List.mem_cons.mp he2 with h | h
          · subst h; exact hle
          · exact hall e2 h
        · rcases hmem with h | h
          · have hpair : cand = e ∧ candScore w cand = conf2 := by
              simpa using h
            exact Or.inr (by simp [hpair.1])
          · exact Or.inr (by simp [h])
    · rw [bestCandidate_cons, if_neg hml, if_neg hacc]
      have hIH := ih best bc hnone hsome
      rcases hb2 : bestCandidate w rest best bc with _ | ⟨e, conf2⟩
      · rw [hb2] at hIH
        obtain ⟨hbn, hall⟩ := hIH
        refine ⟨hbn, ?_⟩
        intro e2 he2
        rcases List.mem_cons.mp he2 with h | h
        · subst h
          rcases not_and_or.mp hacc with h | h
          · exact le_of_not_lt h
          · have hbc0 := hnone hbn
            rw [hbc0] at h
            exact le_trans (le_of_not_lt h) (by norm_num)
        · exact hall e2 h
      · rw [hb2] at hIH
        obtain ⟨hle, hgt, heq, hall, hmem⟩ := hIH
        refine ⟨hle, hgt, heq, ?_, ?_⟩
        · intro e2 he2
          rcases List.mem_cons.mp he2 with h | h
          · subst h
            rcases not_and_or.mp hacc with h | h
            · exact le_trans (le_of_not_lt h) (le_of_lt hgt)
            · exact le_trans (le_of_not_lt h) hle
          · exact hall e2 h
        · rcases hmem with h | h
          · exact Or.inl h
          · exact Or.inr (by simp [h])

/-! ## Shape lemmas for `check_segment` and the speaker switch -/

lemma checkToken_some (d : LegalDict) (tok : Str × Nat × Nat) (c : Correction)
    (h : checkToken d tok = some c) :
    c.original = tok.1 ∧
    4 ≤ (pyRstripSet (pyLower tok.1) dictPunct).length ∧
    pyRstripSet (pyLower tok.1) dictPunct ∉ d.correctSet := by
  unfold checkToken at h
  dsimp only at h
  by_cases h1 : (pyRstripSet (pyLower tok.1) dictPunct).length < 4
  · rw [if_pos h1] at h; cases h
  · rw [if_neg h1] at h
    by_cases h2 : pyRstripSet (pyLower tok.1) dictPunct ∈ d.correctSet
    · rw [if_pos h2] at h; cases h
    · rw [if_neg h2] at h
      refine ⟨?_, by omega, h2⟩
      rcases hv : assocLookup d.variantMap (pyRstripSet (pyLower tok.1) dictPunct)
          with _ | m
      · rw [hv] at h
        rcases hf : fuzzyFind d (pyRstripSet (pyLower tok.1) dictPunct)
            with _ | ⟨e, conf⟩
        · rw [hf] at h; cases h
        · rw [hf] at h; injection h with h; rw [← h]
      · rw [hv] at h; injection h with h; rw [← h]

lemma checkSegment_mem (d : LegalDict) (text : Str) (c : Correction)
    (hc : c ∈ checkSegment d text) :
    ∃ tok ∈ tokenize text, checkToken d tok = some c := by
  unfold checkSegment at hc
  by_cases h : pyStrip text = []
  · rw [if_pos h] at hc; cases hc
  · rw [if_neg h] at hc
    exact List.mem_filterMap.mp hc

lemma proc_events_speaker (o : Oracle) (st : SessionState) :
    (∀ e ∈ (processConsolidatedSegment o st).2,
      eventSpeaker e = st.buffer.speakerId) ∧
    ((processConsolidatedSegment o st).1.buffer.segments = [] ∨
      (processConsolidatedSegment o st).1.buffer.segments = st.buffer.segments) := by
  by_cases h : st.buffer.segments = []
  · constructor
    · intro e he
      simp [processConsolidatedSegment, h] at he
    · simp [processConsolidatedSegment, h]
  · constructor
    · intro e he
      simp only [processConsolidatedSegment, if_neg h] at he
      simp at he
      subst he
      rfl
    · simp [processConsolidatedSegment, h]

lemma flushDecision_speaker (o : Oracle) (st : SessionState) (c : Chunk)
    (hsp : st.buffer.speakerId = some c.speaker) :
    (∀ e ∈ (flushDecision o st c).2, eventSpeaker e = some c.speaker) ∧
    ((flushDecision o st c).1.buffer.segments = [] ∨
      (flushDecision o st c).1.buffer.segments = st.buffer.segments) := by
  unfold flushDecision
  dsimp only
  split_ifs with h1 h2 h3 h4
  · have h := proc_events_speaker o st
    exact ⟨fun e he => hsp ▸ h.1 e he, h.2⟩
  · have h := proc_events_speaker o st
    exact ⟨fun e he => hsp ▸ h.1 e he, h.2⟩
  · have h := proc_events_speaker o
      { st with buffer := { st.buffer with
          lastCheckLength := (pySplit (sjoin st.buffer.segments)).length } }
    exact ⟨fun e he => hsp ▸ h.1 e he, h.2⟩
  · constructor
    · intro e he
      simp at he
      subst he
      rfl
    · exact Or.inr rfl
  · constructor
    · intro e he
      simp at he
      subst he
      rfl
    · exact Or.inr rfl

lemma onTranscript_speakerSwitch (o : Oracle) (st : SessionState) (c : Chunk)
    (s : Str) (hs : st.buffer.speakerId = some s) (hne : s ≠ c.speaker)
    (hseg : st.buffer.segments ≠ []) (hfin : c.isFinal = true) :
    ∃ (enh : Str) (q : Bool) (conf a b : Rat) (rest : List OutEvent),
      (onTranscript o st c).2 =
        OutEvent.finalized (some s) (sjoin st.buffer.segments) enh q conf a b
          (st.segmentCounter + 1) :: rest ∧
      (∀ e ∈ rest, eventSpeaker e = some c.speaker) ∧
      ((onTranscript o st c).1.buffer.segments = [] ∨
        (onTranscript o st c).1.buffer.segments = [c.text]) := by
  have hcond : st.buffer.speakerId ≠ none ∧ st.buffer.speakerId ≠ some c.speaker := by
    rw [hs]
    exact ⟨by simp, by simpa using hne⟩
  have hhs : handleSpeakerChange o st c.speaker =
      ({ (processConsolidatedSegment o st).1 with
          buffer := ⟨some c.speaker, [], [], [], 0⟩ },
        (processConsolidatedSegment o st).2) := by
    unfold handleSpeakerChange
    rw [if_pos hcond, if_pos hseg]
  have hproc : (processConsolidatedSegment o st).2 =
      [OutEvent.finalized st.buffer.speakerId (sjoin st.buffer.segments)
        (enhanceSegment o (sjoin st.buffer.segments) st.buffer.speakerId
          st.previousSegments).enhanced
        (enhanceSegment o (sjoin st.buffer.segments) st.buffer.speakerId
          st.previousSegments).isQuestion
        (if st.buffer.words = [] then 1
         else (st.buffer.words.map (·.confidence)).sum / st.buffer.words.length)
        (st.buffer.timestamps.headD (0, 0)).1
        (st.buffer.timestamps.getLastD (0, 0)).2
        (st.segmentCounter + 1)] := by
    unfold processConsolidatedSegment
    rw [if_neg hseg]
  have hot : onTranscript o st c =
      ((flushDecision o (appendChunk (handleSpeakerChange o st c.speaker).1 c) c).1,
        (handleSpeakerChange o st c.speaker).2 ++
          (flushDecision o (appendChunk (handleSpeakerChange o st c.speaker).1 c) c).2) := by
    unfold onTranscript
    rw [if_neg (by simp [hfin])]
  have hhs2 : (handleSpeakerChange o st c.speaker).2 =
      (processConsolidatedSegment o st).2 := by rw [hhs]
  have hst1b : (handleSpeakerChange o st c.speaker).1.buffer =
      ⟨some c.speaker, [], [], [], 0⟩ := by rw [hhs]
  have happ : (appendChunk (handleSpeakerChange o st c.speaker).1 c).buffer.segments
        = [c.text] ∧
      (appendChunk (handleSpeakerChange o st c.speaker).1 c).buffer.speakerId
        = some c.speaker := by
    unfold appendChunk
    rw [hst1b]
    exact ⟨rfl, rfl⟩
  have hfd := flushDecision_speaker o
    (appendChunk (handleSpeakerChange o st c.speaker).1 c) c happ.2
  refine ⟨(enhanceSegment o (sjoin st.buffer.segments) st.buffer.speakerId
      st.previousSegments).enhanced,
    (enhanceSegment o (sjoin st.buffer.segments) st.buffer.speakerId
      st.previousSegments).isQuestion,
    (if st.buffer.words = [] then 1
     else (st.buffer.words.map (·.confidence)).sum / st.buffer.words.length),
    (st.buffer.timestamps.headD (0, 0)).1,
    (st.buffer.timestamps.getLastD (0, 0)).2,
    (flushDecision o (appendChunk (handleSpeakerChange o st c.speaker).1 c) c).2,
    ?_, hfd.1, ?_⟩
  · rw [hot]
    dsimp only
    rw [hhs2, hproc, hs]
    rfl
  · rw [hot]
    dsimp only
    rcases hfd.2 with h | h
    · exact Or.inl h
    · rw [happ.1] at h
      exact Or.inr h

/-! ## Concrete sessions and oracles used by the claim theorems -/

/-- An oracle on which every external call fails (raises / times out /
returns unusable output). -/
def failingOracle : Oracle := ⟨fun _ _ _ => none, fun _ _ _ => none⟩

/-- An oracle whose completion checks always deny completeness and whose
enhancement calls always fail. -/
def denyingOracle : Oracle := ⟨fun _ _ _ => some false, fun _ _ _ => none⟩

/-- A final chunk of speaker `sp` with text `t` (unit time span, full
confidence, no word detail). -/
def mkFinalChunk (sp t : String) : Chunk := ⟨str sp, str t, true, 0, 1, 1, []⟩

/-- A session state whose buffer is accumulating the single word "hola" for
speaker A. -/
def accumulatingStateA : SessionState :=
  ⟨⟨some (str "A"), [str "hola"], [(0, 1)], [], 0⟩, 0, []⟩

/-- The candidate set `_fuzzy_find` actually scores: the token's own phonetic
bucket or — only when that bucket is empty — the buckets of the indexed codes
within Levenshtein distance 1. -/
def fuzzyCands (d : LegalDict) (word : Str) : List DictEntry :=
  let sdx := soundexEs word
  let own := indexLookup d.soundexIndex sdx
  if own = [] then
    (d.soundexIndex.filter (fun kv => decide (levenshteinPy sdx kv.1 ≤ 1))).flatMap (·.2)
  else own

lemma fuzzyFind_eq_best (d : LegalDict) (w : Str) :
    fuzzyFind d w = bestCandidate w (fuzzyCands d w) none 0 := rfl

/-- Term list of the C8 scenario: "sobreseimiento" registered with the
erroneous variant "sobresemiento". -/
def c8Terms : List Term :=
  [⟨str "sobreseimiento", str "procesal", str "resolución que pone fin al proceso",
    [str "sobresemiento"]⟩]

/-- Two-term dictionary separating the code's candidate gathering from the
claim's: the token "pala" shares its phonetic code P4000 with "palilolo"
(a poorly scoring match) while "pata" sits at phonetic code P3000, distance 1
(a well-scoring match). -/
def c9Terms : List Term :=
  [⟨str "palilolo", str "c1", str "x1", []⟩,
   ⟨str "pata", str "c2", str "x2", []⟩]

/-! ## Claim theorems -/

/-- C1, in-session part: for every oracle behaviour and every chunk sequence,
the space-joined raw texts of the emitted FinalizedSegments followed by
whatever is still sitting in the consolidation buffer equal the space-joined
input final-chunk texts — no text is lost, duplicated or reordered while the
session runs. The remaining conjuncts evaluate the code at the failing input
of the claim's session-end part: after the final chunk A:"que" the session
ends with the buffer still holding "que", no FinalizedSegment was emitted,
and the claim's equality fails because the terminal flush is missing from the
cleanup path (transcription_ws.py lines 444-469). -/
theorem c1_no_text_loss_requires_terminal_flush :
    (∀ (o : Oracle) (cs : List Chunk),
      sjoin (rawTextsOf (runSession o cs) ++
        (runChunks o initialState cs).1.buffer.segments) =
      sjoin (finalChunkTexts cs)) ∧
    rawTextsOf (runSession failingOracle [mkFinalChunk "A" "que"]) = [] ∧
    (runChunks failingOracle initialState
      [mkFinalChunk "A" "que"]).1.buffer.segments = [str "que"] ∧
    sjoin (rawTextsOf (runSession failingOracle [mkFinalChunk "A" "que"])) ≠
      sjoin (finalChunkTexts [mkFinalChunk "A" "que"]) := by
  refine ⟨?_, by decide, by decide, by decide⟩
  intro o cs
  obtain ⟨G, hm, hn, hf⟩ := stepTexts_runChunks o cs initialState
  have hf2 : G.flatten ++ (runChunks o initialState cs).1.buffer.segments =
      finalChunkTexts cs := by simpa [initialState, initialBuffer] using hf
  rw [runSession, hm, sjoin_map_flatten G _ hn, hf2]

/-- C2 counterexample: the canonical short judicial responses are the Spanish
set of transcription_ws.py lines 80-94; the English "yes" is not among them,
so `looks_incomplete("yes")` is `true`, not `false` as the claim states. -/
theorem c2_counterexample : isIncompleteByPattern (str "yes") = true := by decide

/-- C2 amended: on every text with a non-empty trimmed form the heuristic is
exactly the specification's five-rule ladder evaluated in the stated order,
with the canonical short responses being the code's Spanish set — e.g.
`looks_incomplete("sí")` is `false` (canonical short response),
`looks_incomplete("the witness that")` is `true` (trailing connector rules do
not fire, three unpunctuated words), and `looks_incomplete("I object.")` is
`false`. Being a pure function of its argument, the heuristic is trivially
deterministic. -/
theorem c2_heuristic_equals_spec_ladder :
    (∀ t : Str, pyStrip t ≠ [] →
      isIncompleteByPattern t = specCompletionLadder t) ∧
    isIncompleteByPattern (str "sí") = false ∧
    isIncompleteByPattern (str "the witness that") = true ∧
    isIncompleteByPattern (str "I object.") = false :=
  ⟨heuristic_eq_ladder, by decide, by decide, by decide⟩

/-- Witness for C2: the ladder equality applied at the concrete text "sí". -/
theorem c2_heuristic_equals_spec_ladder_witness :
    pyStrip (str "sí") ≠ [] ∧
    isIncompleteByPattern (str "sí") = specCompletionLadder (str "sí") :=
  ⟨by decide, c2_heuristic_equals_spec_ladder.1 (str "sí") (by decide)⟩

/-- C3: whenever a final chunk arrives while the buffer is accumulating for a
different speaker, the emitted event list starts with exactly the flushed
FinalizedSegment of the old speaker (raw text = the space-joined old buffer,
sequence number = the next counter value), every later event of the step is
attributed to the new speaker, and the new buffer holds at most the new
chunk's own text; in particular the run A:"hello", A:"world.", B:"hi" emits
one segment for A before any item attributed to B. -/
theorem c3_speaker_switch_flush_ordering :
    (∀ (o : Oracle) (st : SessionState) (c : Chunk) (s : Str),
      st.buffer.speakerId = some s → s ≠ c.speaker →
      st.buffer.segments ≠ [] → c.isFinal = true →
      ∃ (enh : Str) (q : Bool) (conf a b : Rat) (rest : List OutEvent),
        (onTranscript o st c).2 =
          OutEvent.finalized (some s) (sjoin st.buffer.segments) enh q conf a b
            (st.segmentCounter + 1) :: rest ∧
        (∀ e ∈ rest, eventSpeaker e = some c.speaker) ∧
        ((onTranscript o st c).1.buffer.segments = [] ∨
          (onTranscript o st c).1.buffer.segments = [c.text])) ∧
    runSession failingOracle
      [mkFinalChunk "A" "hello", mkFinalChunk "A" "world.", mkFinalChunk "B" "hi"] =
      [OutEvent.provisional (str "A") (str "hello") 1 0 1 [],
       OutEvent.finalized (some (str "A")) (str "hello world.")
         (str "Hello world.") false 1 0 1 1,
       OutEvent.provisional (str "B") (str "hi") 1 0 1 []] :=
  ⟨fun o st c s hs hne hseg hfin =>
    onTranscript_speakerSwitch o st c s hs hne hseg hfin, by decide⟩

/-- Witness for C3: the general part applied to a buffer accumulating "hola"
for speaker A hit by a final chunk of speaker B. -/
theorem c3_speaker_switch_flush_ordering_witness :
    ∃ (enh : Str) (q : Bool) (conf a b : Rat) (rest : List OutEvent),
      (onTranscript failingOracle accumulatingStateA (mkFinalChunk "B" "hi")).2 =
        OutEvent.finalized (some (str "A"))
          (sjoin accumulatingStateA.buffer.segments) enh q conf a b
          (accumulatingStateA.segmentCounter + 1) :: rest ∧
      (∀ e ∈ rest, eventSpeaker e = some (mkFinalChunk "B" "hi").speaker) ∧
      ((onTranscript failingOracle accumulatingStateA
          (mkFinalChunk "B" "hi")).1.buffer.segments = [] ∨
        (onTranscript failingOracle accumulatingStateA
          (mkFinalChunk "B" "hi")).1.buffer.segments =
          [(mkFinalChunk "B" "hi").text]) :=
  c3_speaker_switch_flush_ordering.1 failingOracle accumulatingStateA
    (mkFinalChunk "B" "hi") (str "A") (by decide) (by decide) (by decide)
    (by decide)

/-- C4: for every oracle behaviour and chunk sequence, the `orden` values
attached to the emitted (and identically persisted) FinalizedSegments are
exactly 1, 2, 3, … in emission order — strictly increasing, gapless, no
repeats, assigned at flush time from the per-session counter. -/
theorem c4_sequence_numbers_gapless (o : Oracle) (cs : List Chunk) :
    ordensOf (runSession o cs) =
      List.range' 1 (finalsCount (runSession o cs)) := by
  obtain ⟨h1, h2⟩ := stepOrdens_runChunks o cs initialState
  simpa [runSession, finalsCount, initialState] using h2

/-- C5 counterexample: 51 one-word final chunks "hola" (no terminal
punctuation) from one speaker produce THREE flushes — the heuristic's
more-than-15-words rule declares the buffer complete at words 16, 32 and 48 —
not exactly one flush at word 51 as the claim states. -/
theorem c5_counterexample :
    finalsCount (runSession denyingOracle
      (List.replicate 51 (mkFinalChunk "A" "hola"))) = 3 := by decide

/-- C5 amended: when the 51 one-word chunks are a trailing connector ("que"),
so that the heuristic reports incomplete at every intermediate size, and the
completion oracle never confirms, the hard length cutoff alone fires: exactly
one flush over the whole feed, none within the first 50 chunks, and exactly
one while the 51st chunk is processed. -/
theorem c5_length_cutoff_with_connector_words :
    finalsCount (runSession denyingOracle
      (List.replicate 51 (mkFinalChunk "A" "que"))) = 1 ∧
    finalsCount (runSession denyingOracle
      (List.replicate 50 (mkFinalChunk "A" "que"))) = 0 ∧
    finalsCount (onTranscript denyingOracle
      (runChunks denyingOracle initialState
        (List.replicate 50 (mkFinalChunk "A" "que"))).1
      (mkFinalChunk "A" "que")).2 = 1 :=
  ⟨by decide, by decide, by decide⟩

/-- C6: when the oracle call inside `enhance` fails, `enhance_segment` still
returns (no exception escapes — the failure is absorbed by its own
`try/except`), its `enhanced` field is the deterministic local formatter
applied to the raw text; on whitespace-trimmed texts that formatter is
exactly the claim's description (first letter capitalized, terminal `.`
appended exactly when the text does not already end in `.`, `?` or `!`,
content otherwise unchanged); and a flush under a failing oracle still emits
exactly one FinalizedSegment whose `enhanced_text` is the formatter applied
to the raw buffer text. -/
theorem c6_enhance_failure_local_formatter :
    (∀ (o : Oracle) (text : Str) (sp : Option Str) (prev : List PrevSeg),
      o.enhanceApi text sp prev = none →
      (enhanceSegment o text sp prev).enhanced = localFallbackFormat text) ∧
    (∀ t : Str, pyStrip t = t →
      localFallbackFormat t = claimLocalFormatter t) ∧
    (∀ (o : Oracle) (st : SessionState),
      (∀ t sp p, o.enhanceApi t sp p = none) →
      st.buffer.segments ≠ [] →
      ∃ (q : Bool) (conf a b : Rat),
        (processConsolidatedSegment o st).2 =
          [OutEvent.finalized st.buffer.speakerId (sjoin st.buffer.segments)
            (localFallbackFormat (sjoin st.buffer.segments)) q conf a b
            (st.segmentCounter + 1)]) := by
  have hpart1 : ∀ (o : Oracle) (text : Str) (sp : Option Str)
      (prev : List PrevSeg), o.enhanceApi text sp prev = none →
      (enhanceSegment o text sp prev).enhanced = localFallbackFormat text := by
    intro o text sp prev h
    unfold enhanceSegment
    rw [h]
  refine ⟨hpart1, localFallbackFormat_eq_claim, ?_⟩
  intro o st hfail hseg
  refine ⟨(enhanceSegment o (sjoin st.buffer.segments) st.buffer.speakerId
      st.previousSegments).isQuestion,
    (if st.buffer.words = [] then 1
     else (st.buffer.words.map (·.confidence)).sum / st.buffer.words.length),
    (st.buffer.timestamps.headD (0, 0)).1,
    (st.buffer.timestamps.getLastD (0, 0)).2, ?_⟩
  have h1 := hpart1 o (sjoin st.buffer.segments) st.buffer.speakerId
    st.previousSegments (hfail _ _ _)
  unfold processConsolidatedSegment
  rw [if_neg hseg]
  dsimp only
  rw [h1]

/-- Witness for C6: the three parts applied at the failing oracle, the text
"hola" and a buffer accumulating "hola" for speaker A. -/
theorem c6_enhance_failure_local_formatter_witness :
    (enhanceSegment failingOracle (str "hola") none []).enhanced =
      localFallbackFormat (str "hola") ∧
    localFallbackFormat (str "hola") = claimLocalFormatter (str "hola") ∧
    ∃ (q : Bool) (conf a b : Rat),
      (processConsolidatedSegment failingOracle accumulatingStateA).2 =
        [OutEvent.finalized accumulatingStateA.buffer.speakerId
          (sjoin accumulatingStateA.buffer.segments)
          (localFallbackFormat (sjoin accumulatingStateA.buffer.segments))
          q conf a b (accumulatingStateA.segmentCounter + 1)] :=
  ⟨c6_enhance_failure_local_formatter.1 failingOracle (str "hola") none [] rfl,
   c6_enhance_failure_local_formatter.2.1 (str "hola") (by decide),
   c6_enhance_failure_local_formatter.2.2 failingOracle accumulatingStateA
     (fun _ _ _ => rfl) (by decide)⟩

/-- C7 counterexample: on oracle failure at the buffer text "la casa" the
fallback verdict is "incomplete" (`is_complete = false`) although the last
word "casa" is NOT a member of the connector set — `endswith` performs suffix
matching ("casa" ends with the connector "a"), not set membership as the
claim states. -/
theorem c7_counterexample :
    isSentenceComplete failingOracle (str "la casa") (str "A") [] = false ∧
    fallbackLastWord (str "la casa") = str "casa" ∧
    str "casa" ∉ fallbackIncompleteEndings :=
  ⟨by decide, by decide, by decide⟩

/-- C7 amended: when the oracle call of `is_sentence_complete` fails, the
verdict is "incomplete" exactly when some connector of the fallback list is a
SUFFIX of the buffer text's last (lowercased) word. -/
theorem c7_fallback_suffix_rule (o : Oracle) (text speaker : Str)
    (prev : List PrevSeg) (h : o.completeApi text speaker prev = none) :
    isSentenceComplete o text speaker prev = false ↔
      ∃ e ∈ fallbackIncompleteEndings, e.isSuffixOf (fallbackLastWord text) := by
  unfold isSentenceComplete
  rw [h]
  unfold isSentenceCompleteFallback
  simp [List.any_eq_true]

/-- Witness for C7: the suffix rule applied at the failing oracle and the
text "la casa", whose last word "casa" ends with the connector "a". -/
theorem c7_fallback_suffix_rule_witness :
    (isSentenceComplete failingOracle (str "la casa") (str "A") [] = false ↔
      ∃ e ∈ fallbackIncompleteEndings,
        e.isSuffixOf (fallbackLastWord (str "la casa"))) ∧
    isSentenceComplete failingOracle (str "la casa") (str "A") [] = false :=
  ⟨c7_fallback_suffix_rule failingOracle (str "la casa") (str "A") [] rfl,
   by decide⟩

/-- C8: with "sobresemiento" registered as an erroneous variant of
"sobreseimiento", `check("El sobresemiento fue aprobado")` returns exactly
one correction — original "sobresemiento", suggested "sobreseimiento",
confidence exactly 0.95 — and, in general, every correction returned by
`check_segment` stems from a token whose punctuation-stripped form has at
least 4 characters and is not in the canonical set (short and canonical
tokens yield no correction). -/
theorem c8_dictionary_correction :
    (checkSegment (loadTerms c8Terms) (str "El sobresemiento fue aprobado") =
      [⟨str "sobresemiento", str "sobreseimiento", 95 / 100, str "procesal",
        str "resolución que pone fin al proceso", 3, 16⟩]) ∧
    (∀ (d : LegalDict) (text : Str) (c : Correction),
      c ∈ checkSegment d text →
      ∃ tok ∈ tokenize text, c.original = tok.1 ∧
        4 ≤ (pyRstripSet (pyLower tok.1) dictPunct).length ∧
        pyRstripSet (pyLower tok.1) dictPunct ∉ d.correctSet) := by
  constructor
  · rfl
  · intro d text c hc
    obtain ⟨tok, htok, hsome⟩ := checkSegment_mem d text c hc
    exact ⟨tok, htok, checkToken_some d tok c hsome⟩

/-- Witness for C8: the general skip property applied to the concrete
correction of the scenario. -/
theorem c8_dictionary_correction_witness :
    ∃ tok ∈ tokenize (str "El sobresemiento fue aprobado"),
      (⟨str "sobresemiento", str "sobreseimiento", 95 / 100, str "procesal",
        str "resolución que pone fin al proceso", 3, 16⟩ : Correction).original
        = tok.1 ∧
      4 ≤ (pyRstripSet (pyLower tok.1) dictPunct).length ∧
      pyRstripSet (pyLower tok.1) dictPunct ∉ (loadTerms c8Terms).correctSet :=
  c8_dictionary_correction.2 (loadTerms c8Terms)
    (str "El sobresemiento fue aprobado") _
    (by rw [c8_dictionary_correction.1]; exact List.mem_singleton.mpr rfl)

/-- C9 counterexample: in the two-term dictionary `c9Terms` the token "pala"
has a non-empty own phonetic bucket holding only the poorly scoring
"palilolo" (score 3/8), so `_fuzzy_find` returns nothing — while the claim's
gathering, which also takes the distance-1 bucket holding "pata"
(score 3/4 > 0.65), would return the "pata" correction. -/
theorem c9_counterexample :
    fuzzyFind (loadTerms c9Terms) (str "pala") = none ∧
    claimFuzzyFind (loadTerms c9Terms) (str "pala") =
      some (⟨str "pata", str "c2", str "x2"⟩, 3 / 4) ∧
    (⟨str "pata", str "c2", str "x2"⟩ : DictEntry) ∈
      claimFuzzyGather (loadTerms c9Terms) (str "pala") ∧
    65 / 100 < candScore (str "pala") ⟨str "pata", str "c2", str "x2"⟩ := by
  have hcs1 : candScore (str "pala") ⟨str "palilolo", str "c1", str "x1"⟩ =
      1 - (5 : Rat) / 8 := by
    unfold candScore
    dsimp only
    rw [show levenshteinPy (str "pala")
          ((pySplit (pyLower (str "palilolo"))).headD []) = 5 by decide,
        show max (str "pala").length
          ((pySplit (pyLower (str "palilolo"))).headD []).length = 8 by decide]
    norm_num
  have hcs2 : candScore (str "pala") ⟨str "pata", str "c2", str "x2"⟩ =
      1 - (1 : Rat) / 4 := by
    unfold candScore
    dsimp only
    rw [show levenshteinPy (str "pala")
          ((pySplit (pyLower (str "pata"))).headD []) = 1 by decide,
        show max (str "pala").length
          ((pySplit (pyLower (str "pata"))).headD []).length = 4 by decide]
    norm_num
  have hml1 : ¬ (max (str "pala").length
      ((pySplit (pyLower (str "palilolo"))).headD []).length = 0) := by decide
  have hml2 : ¬ (max (str "pala").length
      ((pySplit (pyLower (str "pata"))).headD []).length = 0) := by decide
  have hrej1 : ∀ bc : Rat, 0 ≤ bc →
      ¬ (65 / 100 < candScore (str "pala") ⟨str "palilolo", str "c1", str "x1"⟩ ∧
         bc < candScore (str "pala") ⟨str "palilolo", str "c1", str "x1"⟩) := by
    intro bc _
    rw [hcs1]
    intro h
    have := h.1
    norm_num at this
  refine ⟨?_, ?_, by decide, ?_⟩
  · rw [fuzzyFind_eq_best,
      show fuzzyCands (loadTerms c9Terms) (str "pala") =
        [⟨str "palilolo", str "c1", str "x1"⟩] from rfl,
      bestCandidate_cons, if_neg hml1, if_neg (hrej1 0 le_rfl)]
    rfl
  · rw [show claimFuzzyFind (loadTerms c9Terms) (str "pala") =
        bestCandidate (str "pala")
          [⟨str "palilolo", str "c1", str "x1"⟩, ⟨str "pata", str "c2", str "x2"⟩]
          none 0 from rfl,
      bestCandidate_cons, if_neg hml1, if_neg (hrej1 0 le_rfl),
      bestCandidate_cons, if_neg hml2, if_pos ?hacc]
    case hacc =>
      rw [hcs2]
      constructor <;> norm_num
    rw [show bestCandidate (str "pala") []
        (some (⟨str "pata", str "c2", str "x2"⟩,
          candScore (str "pala") ⟨str "pata", str "c2", str "x2"⟩))
        (candScore (str "pala") ⟨str "pata", str "c2", str "x2"⟩) =
        some (⟨str "pata", str "c2", str "x2"⟩,
          candScore (str "pala") ⟨str "pata", str "c2", str "x2"⟩) from rfl,
      hcs2]
    norm_num
  · rw [hcs2]
    norm_num

/-- C9 amended: for a non-empty token, `_fuzzy_find` scores the candidates of
the token's own phonetic bucket — consulting the distance-≤1 buckets only
when the own bucket is empty — by `1 - levenshtein/max(len)`, and returns a
best-scoring such candidate exactly when its score exceeds 0.65; hence every
returned fuzzy confidence is strictly greater than 0.65. -/
theorem c9_fuzzy_lookup_characterization (d : LegalDict) (w : Str)
    (hw : w ≠ []) :
    (match fuzzyFind d w with
     | some (e, conf) =>
         65 / 100 < conf ∧ conf = candScore w e ∧
         (∀ e2 ∈ fuzzyCands d w, candScore w e2 ≤ conf) ∧ e ∈ fuzzyCands d w
     | none => ∀ e2 ∈ fuzzyCands d w, candScore w e2 ≤ 65 / 100) := by
  have h := bestCandidate_spec w hw (fuzzyCands d w) none 0 (fun _ => rfl)
    (by intro p hp; cases hp)
  rw [fuzzyFind_eq_best]
  rcases hb : bestCandidate w (fuzzyCands d w) none 0 with _ | ⟨e, conf⟩
  · rw [hb] at h
    exact h.2
  · rw [hb] at h
    obtain ⟨_, hgt, heq, hall, hmem⟩ := h
    refine ⟨hgt, heq, hall, ?_⟩
    rcases hmem with h2 | h2
    · cases h2
    · exact h2

/-- Witness for C9: the characterization applied to the token "pata" in the
`c9Terms` dictionary, whose own bucket holds an exact match of score 1. -/
theorem c9_fuzzy_lookup_characterization_witness :
    (match fuzzyFind (loadTerms c9Terms) (str "pata") with
     | some (e, conf) =>
         65 / 100 < conf ∧ conf = candScore (str "pata") e ∧
         (∀ e2 ∈ fuzzyCands (loadTerms c9Terms) (str "pata"),
           candScore (str "pata") e2 ≤ conf) ∧
         e ∈ fuzzyCands (loadTerms c9Terms) (str "pata")
     | none => ∀ e2 ∈ fuzzyCands (loadTerms c9Terms) (str "pata"),
         candScore (str "pata") e2 ≤ 65 / 100) :=
  c9_fuzzy_lookup_characterization (loadTerms c9Terms) (str "pata") (by decide)

/-! ## `text_processing.clean_transcript` (lines 92-138) -/

/-- The lowercase character class `[a-záéíóúñ]` of the step-3 regex. -/
def lowerClassChar (c : Char) : Bool :=
  (str "abcdefghijklmnopqrstuvwxyzáéíóúñ").contains c

/-- Python `\w` (word character) for the texts this system handles. -/
def isWordChar (c : Char) : Bool :=
  c.isAlpha || c.isDigit || c = '_' || (str "áéíóúñüÁÉÍÓÚÑÜ").contains c

/-- State transition of the step-3 scanner: how much of a
`[.?!]\\s+` prefix immediately precedes the next position. -/
def capNext (c : Char) (state : Nat) : Nat :=
  if isTerminalPunct c then 1
  else if pyIsSpace c ∧ (state = 1 ∨ state = 2) then 2
  else 0

/-- Single pass implementing the global non-overlapping substitution
`re.sub(r'([.?!]\s+)([a-záéíóúñ])', punct+spaces+upper, text)` of step 3.
The state records how much of a pattern precedes the current position:
1 = a terminal punctuation mark, 2 = terminal punctuation followed by at
least one whitespace character, 0 = neither. -/
def capAfterPunctGo : Str → Nat → Str
  | [], _ => []
  | c :: cs, state =>
      if state = 2 ∧ lowerClassChar c then pyToUpper c :: capAfterPunctGo cs 0
      else c :: capAfterPunctGo cs (capNext c state)

/-- Step 3: capitalize a lowercase letter following sentence-ending
punctuation and whitespace. -/
def capAfterPunct (l : Str) : Str := capAfterPunctGo l 0

/-- The replacement of one maximal word-character run for step 4: a run whose
lowercased form equals one of the `CAPITALIZE_WORDS` keys (the `\b`-delimited
case-insensitive match) becomes the canonical capitalization. -/
def roleReplace (run : Str) : Str :=
  match CAPITALIZE_WORDS.find? (fun p => pyLower run == p.1) with
  | some p => p.2
  | none => run

/-- Step 4: the sequence of 23 substitutions
`re.sub(r'\b' + word + r'\b', cap, text, flags=IGNORECASE)`: every maximal
word-character run equal (case-insensitively) to a key is replaced by its
canonical capitalization; separators pass through. -/
def capitalizeRoles : Str → Str
  | [] => []
  | c :: cs =>
      if isWordChar c then
        (roleReplace (c :: cs.takeWhile isWordChar)) ++
          capitalizeRoles (cs.drop (cs.takeWhile isWordChar).length)
      else c :: capitalizeRoles cs
termination_by l => l.length
decreasing_by
  · simp only [List.length_drop, List.length_cons]
    have := (List.takeWhile_sublist isWordChar (l := cs)).length_le
    omega
  · simp

/-- Step 5: prepend an opening question mark when the text ends in `?`, does
not already start with `¿` and starts with a recognized interrogative word. -/
def addQuestionMark (l : Str) : Str :=
  if l.getLastD ' ' = '?' ∧ l.headD ' ' ≠ '¿' then
    if pyLower ((pySplit l).headD []) ∈ QUESTION_WORDS then '¿' :: l else l
  else l

/-- Step 6: prepend an opening exclamation mark when the text ends in `!`
and does not already start with `¡`. -/
def addExclamationMark (l : Str) : Str :=
  if l.getLastD ' ' = '!' ∧ l.headD ' ' ≠ '¡' then '¡' :: l else l

/-- Leading whitespace run and remainder (used to model the `\s+` lookahead
of the step-7 regexes). -/
def spanSpaces : Str → Str × Str
  | [] => ([], [])
  | c :: cs =>
      if pyIsSpace c then ((c :: (spanSpaces cs).1), (spanSpaces cs).2)
      else ([], c :: cs)

lemma spanSpaces_snd_le (l : Str) : (spanSpaces l).2.length ≤ l.length := by
  induction l with
  | nil => simp [spanSpaces]
  | cons c cs ih =>
    by_cases h : pyIsSpace c = true
    · simp only [spanSpaces, h, if_true]
      simp
      omega
    · simp [spanSpaces, h]

/-- Step 7a: `re.sub(r'([,;:])\s*', r'\1 ', text)` — one space after each
comma, semicolon or colon, absorbing any whitespace that followed it. -/
def punctSpaceA : Str → Str
  | [] => []
  | c :: cs =>
      if c = ',' ∨ c = ';' ∨ c = ':' then
        c :: ' ' :: punctSpaceA (cs.dropWhile pyIsSpace)
      else c :: punctSpaceA cs
termination_by l => l.length
decreasing_by
  · have := (List.dropWhile_sublist pyIsSpace (l := cs)).length_le
    simp
    omega
  · simp

/-- The character class `[,;:.?!]` of the step-7b regex. -/
def punctTail (c : Char) : Bool := (str ",;:.?!").contains c

/-- Step 7b: `re.sub(r'\s+([,;:.?!])', r'\1', text)` — drop whitespace that
precedes punctuation. -/
def punctSpaceB : Str → Str
  | [] => []
  | c :: cs =>
      if pyIsSpace c then
        match hs : (spanSpaces (c :: cs)).2 with
        | p :: rest => if punctTail p then p :: punctSpaceB rest
                       else c :: punctSpaceB cs
        | [] => c :: punctSpaceB cs
      else c :: punctSpaceB cs
termination_by l => l.length
decreasing_by
  · have h1 := spanSpaces_snd_le cs
    have h2 : (spanSpaces (c :: cs)).2 = (spanSpaces cs).2 := by
      simp_all [spanSpaces]
    rw [h2] at hs
    have : rest.length < (spanSpaces cs).2.length := by rw [hs]; simp
    simp
    omega
  · simp
  · simp
  · simp

/-- `clean_transcript` (text_processing.py lines 92-138): the deterministic
post-formatter. Step 1 (`re.sub(r'\s+', ' ', text.strip())`) is modelled as
splitting into words and joining with single spaces, which is that
substitution's effect. -/
def cleanTranscript (text : Str) : Str :=
  if text = [] then text
  else
    let t1 := sjoin (pySplit text)
    let t2 := match t1 with
      | [] => ([] : Str)
      | c :: cs => pyToUpper c :: cs
    let t3 := capAfterPunct t2
    let t4 := capitalizeRoles t3
    let t5 := addQuestionMark t4
    let t6 := addExclamationMark t5
    pyStrip (punctSpaceB (punctSpaceA t6))

/-! ## Idempotence of `clean_transcript`: character-level facts -/

/-- The characters moved by `pyToUpper` (the modelled lowercase alphabet). -/
def lowerAlpha : List Char := str "abcdefghijklmnopqrstuvwxyzáéíóúñü"

lemma contains_mem {l : List Char} {c : Char} (h : l.contains c = true) :
    c ∈ l := List.mem_of_elem_eq_true h

lemma all_mem {α : Type} {l : List α} {p : α → Bool} (hall : l.all p = true)
    {c : α} (hc : c ∈ l) : p c = true :=
  List.all_eq_true.mp hall c hc

lemma pyIsSpace_pyToUpper (c : Char) : pyIsSpace (pyToUpper c) = pyIsSpace c := by
  unfold pyToUpper; split <;> rfl

lemma pyToUpper_eq_self {c : Char} (h : lowerAlpha.contains c = false) :
    pyToUpper c = c := by
  unfold pyToUpper; split <;> first | rfl | (exact absurd h (by decide))

lemma pyToUpper_exits_lower {c : Char} (h : lowerAlpha.contains c = true) :
    lowerAlpha.contains (pyToUpper c) = false := by
  have := all_mem (p := fun d => !(lowerAlpha.contains (pyToUpper d)))
    (l := lowerAlpha) (by decide) (contains_mem h)
  simpa using this

lemma pyToUpper_idem (c : Char) : pyToUpper (pyToUpper c) = pyToUpper c := by
  by_cases h : lowerAlpha.contains c = true
  · exact pyToUpper_eq_self (pyToUpper_exits_lower h)
  · rw [pyToUpper_eq_self (Bool.eq_false_iff.mpr h),
        pyToUpper_eq_self (Bool.eq_false_iff.mpr h)]

lemma pyIsSpace_cases {c : Char} (h : pyIsSpace c = true) :
    c = ' ' ∨ c = '\t' ∨ c = '\n' ∨ c = '\r' ∨ c = '\x0b' ∨ c = '\x0c' := by
  simpa [pyIsSpace, or_assoc] using h

lemma punctTail_cases {c : Char} (h : punctTail c = true) :
    c = ',' ∨ c = ';' ∨ c = ':' ∨ c = '.' ∨ c = '?' ∨ c = '!' := by
  have hm := contains_mem (h ▸ rfl : (str ",;:.?!").contains c = true)
  have he : str ",;:.?!" = [',', ';', ':', '.', '?', '!'] := rfl
  rw [he] at hm
  simpa using hm

lemma wordChar_not_space {c : Char} (h : isWordChar c = true) :
    pyIsSpace c = false := by
  by_cases hs : pyIsSpace c = true
  · rcases pyIsSpace_cases hs with h'|h'|h'|h'|h'|h' <;> subst h' <;>
      exact absurd h (by decide)
  · exact Bool.eq_false_iff.mpr hs

lemma wordChar_not_punctTail {c : Char} (h : isWordChar c = true) :
    punctTail c = false := by
  by_cases hp : punctTail c = true
  · rcases punctTail_cases hp with h'|h'|h'|h'|h'|h' <;> subst h' <;>
      exact absurd h (by decide)
  · exact Bool.eq_false_iff.mpr hp

lemma space_not_punctTail {c : Char} (h : pyIsSpace c = true) :
    punctTail c = false := by
  rcases pyIsSpace_cases h with h'|h'|h'|h'|h'|h' <;> subst h' <;> decide

lemma punctTail_not_space {c : Char} (h : punctTail c = true) :
    pyIsSpace c = false := by
  rcases punctTail_cases h with h'|h'|h'|h'|h'|h' <;> subst h' <;> decide

lemma punctTail_not_wordChar {c : Char} (h : punctTail c = true) :
    isWordChar c = false := by
  rcases punctTail_cases h with h'|h'|h'|h'|h'|h' <;> subst h' <;> decide

lemma classChar_not_space {c : Char} (h : lowerClassChar c = true) :
    pyIsSpace c = false := by
  have := all_mem (p := fun d => !(pyIsSpace d))
    (l := str "abcdefghijklmnopqrstuvwxyzáéíóúñ") (by decide) (contains_mem h)
  simpa using this

lemma classChar_upper_not_class {c : Char} (h : lowerClassChar c = true) :
    lowerClassChar (pyToUpper c) = false := by
  have := all_mem (p := fun d => !(lowerClassChar (pyToUpper d)))
    (l := str "abcdefghijklmnopqrstuvwxyzáéíóúñ") (by decide) (contains_mem h)
  simpa using this

lemma classChar_upper_not_space {c : Char} (h : lowerClassChar c = true) :
    pyIsSpace (pyToUpper c) = false := by
  have := all_mem (p := fun d => !(pyIsSpace (pyToUpper d)))
    (l := str "abcdefghijklmnopqrstuvwxyzáéíóúñ") (by decide) (contains_mem h)
  simpa using this

lemma classChar_not_terminal {c : Char} (h : lowerClassChar c = true) :
    isTerminalPunct c = false := by
  have := all_mem (p := fun d => !(isTerminalPunct d))
    (l := str "abcdefghijklmnopqrstuvwxyzáéíóúñ") (by decide) (contains_mem h)
  simpa using this

lemma classChar_upper_not_terminal {c : Char} (h : lowerClassChar c = true) :
    isTerminalPunct (pyToUpper c) = false := by
  have := all_mem (p := fun d => !(isTerminalPunct (pyToUpper d)))
    (l := str "abcdefghijklmnopqrstuvwxyzáéíóúñ") (by decide) (contains_mem h)
  simpa using this

lemma classChar_word {c : Char} (h : lowerClassChar c = true) :
    isWordChar c = true := by
  have := all_mem (p := fun d => isWordChar d)
    (l := str "abcdefghijklmnopqrstuvwxyzáéíóúñ") (by decide) (contains_mem h)
  simpa using this

lemma classChar_upper_word {c : Char} (h : lowerClassChar c = true) :
    isWordChar (pyToUpper c) = true := by
  have := all_mem (p := fun d => isWordChar (pyToUpper d))
    (l := str "abcdefghijklmnopqrstuvwxyzáéíóúñ") (by decide) (contains_mem h)
  simpa using this

lemma terminal_punctTail {c : Char} (h : isTerminalPunct c = true) :
    punctTail c = true := by
  have : (c = '.' ∨ c = '?') ∨ c = '!' := by simpa [isTerminalPunct] using h
  rcases this with (h'|h')|h' <;> subst h' <;> decide

/-! ### Normal form of step 1 (`re.sub(r'\s+', ' ', text.strip())`) -/

/-- Every whitespace character of the scanned text is a single `' '`
followed by a non-space character (no runs, no trailing whitespace). -/
def normTail : Str → Bool
  | [] => true
  | c :: cs =>
      (if pyIsSpace c then
        (c = ' ' : Bool) && (match cs with | [] => false | d :: _ => !(pyIsSpace d))
       else true) && normTail cs

/-- Step-1 normal form: empty, or non-space head plus `normTail`. -/
def normB (l : Str) : Bool :=
  (match l with | [] => true | c :: _ => !(pyIsSpace c)) && normTail l

lemma normTail_tail {c : Char} {cs : Str} (h : normTail (c :: cs) = true) :
    normTail cs = true := by
  simp only [normTail, Bool.and_eq_true] at h
  exact h.2

lemma normB_head {c : Char} {cs : Str} (h : normB (c :: cs) = true) :
    pyIsSpace c = false := by
  simp only [normB, Bool.and_eq_true] at h
  simpa using h.1

lemma normB_tail' {l : Str} (h : normB l = true) : normTail l = true := by
  simp only [normB, Bool.and_eq_true] at h
  exact h.2

lemma normB_of_parts {c : Char} {cs : Str} (h1 : pyIsSpace c = false)
    (h2 : normTail (c :: cs) = true) : normB (c :: cs) = true := by
  simp [normB, h1, h2]

lemma splitGo_words (l : Str) : ∀ (acc : Str),
    (∀ c ∈ acc, pyIsSpace c = false) →
    ∀ w ∈ splitGo l acc, w ≠ [] ∧ ∀ c ∈ w, pyIsSpace c = false := by
  induction l with
  | nil =>
    intro acc hacc w hw
    by_cases ha : acc = []
    · simp [splitGo, ha] at hw
    · simp only [splitGo, if_neg ha, List.mem_singleton] at hw
      subst hw
      refine ⟨by simpa using ha, fun c hc => hacc c (List.mem_reverse.mp hc)⟩
  | cons c cs ih =>
    intro acc hacc w hw
    by_cases hc : pyIsSpace c = true
    · by_cases ha : acc = []
      · rw [show splitGo (c :: cs) acc = splitGo cs [] by simp [splitGo, hc, ha]] at hw
        exact ih [] (by simp) w hw
      · rw [show splitGo (c :: cs) acc = acc.reverse :: splitGo cs [] by
              simp [splitGo, hc, ha]] at hw
        rcases List.mem_cons.mp hw with h' | h'
        · subst h'
          refine ⟨by simpa using ha, fun d hd => hacc d (List.mem_reverse.mp hd)⟩
        · exact ih [] (by simp) w h'
    · rw [show splitGo (c :: cs) acc = splitGo cs (c :: acc) by simp [splitGo, hc]] at hw
      refine ih (c :: acc) ?_ w hw
      intro d hd
      rcases List.mem_cons.mp hd with h' | h'
      · subst h'; exact Bool.eq_false_iff.mpr hc
      · exact hacc d h'

lemma pySplit_words (l : Str) :
    ∀ w ∈ pySplit l, w ≠ [] ∧ ∀ c ∈ w, pyIsSpace c = false :=
  splitGo_words l [] (by simp)

lemma normTail_nospace {w : Str} (h : ∀ c ∈ w, pyIsSpace c = false) :
    normTail w = true := by
  induction w with
  | nil => rfl
  | cons c cs ih =>
    have hc := h c (List.mem_cons_self c cs)
    simp only [normTail, hc, Bool.false_eq_true, if_false, Bool.true_and]
    exact ih fun d hd => h d (List.mem_cons_of_mem c hd)

lemma normTail_word_append {w S : Str} (hw : ∀ c ∈ w, pyIsSpace c = false)
    (hS : normTail S = true) : normTail (w ++ S) = true := by
  induction w with
  | nil => simpa using hS
  | cons c cs ih =>
    have hc := hw c (List.mem_cons_self c cs)
    simp only [List.cons_append, normTail, hc, Bool.false_eq_true, if_false,
      Bool.true_and]
    exact ih fun d hd => hw d (List.mem_cons_of_mem c hd)

lemma sjoin_cons_ne {x : Str} {L : List Str} (h : L ≠ []) :
    sjoin (x :: L) = x ++ ' ' :: sjoin L := by
  cases L with
  | nil => exact absurd rfl h
  | cons y ys => rfl

lemma sjoin_words_norm : ∀ (ws : List Str),
    (∀ w ∈ ws, w ≠ [] ∧ ∀ c ∈ w, pyIsSpace c = false) →
    normB (sjoin ws) = true := by
  intro ws
  induction ws with
  | nil => intro _; rfl
  | cons w ws ih =>
    intro h
    obtain ⟨hwne, hwsp⟩ := h w (List.mem_cons_self w ws)
    have hrest : ∀ w2 ∈ ws, w2 ≠ [] ∧ ∀ c ∈ w2, pyIsSpace c = false :=
      fun w2 hw2 => h w2 (List.mem_cons_of_mem w hw2)
    cases ws with
    | nil =>
      rw [sjoin_singleton]
      cases w with
      | nil => exact absurd rfl hwne
      | cons c cs =>
        exact normB_of_parts (hwsp c (List.mem_cons_self c cs)) (normTail_nospace hwsp)
    | cons w2 ws2 =>
      rw [sjoin_cons_ne (by simp)]
      have hS := ih hrest
      obtain ⟨hw2ne, _⟩ := hrest w2 (List.mem_cons_self w2 ws2)
      have hSne : sjoin (w2 :: ws2) ≠ [] := by
        cases ws2 with
        | nil => simpa [sjoin_singleton] using hw2ne
        | cons w3 ws3 =>
          rw [sjoin_cons_ne (by simp)]
          intro hcontra
          exact hw2ne (List.append_eq_nil.mp hcontra).1
      have hShead : pyIsSpace ((sjoin (w2 :: ws2)).headD ' ') = false := by
        cases hS2 : sjoin (w2 :: ws2) with
        | nil => exact absurd hS2 hSne
        | cons d r =>
          rw [hS2] at hS
          simpa using normB_head hS
      have htailS : normTail (' ' :: sjoin (w2 :: ws2)) = true := by
        cases hS2 : sjoin (w2 :: ws2) with
        | nil => exact absurd hS2 hSne
        | cons d r =>
          rw [hS2] at hS hShead
          simp only [List.headD_cons] at hShead
          show ((if pyIsSpace ' ' then
                  ((' ' = ' ' : Bool)) && !(pyIsSpace d)
                 else true) && normTail (d :: r)) = true
          rw [if_pos (by decide : pyIsSpace ' ' = true)]
          simp [hShead, normB_tail' hS]
      cases w with
      | nil => exact absurd rfl hwne
      | cons c cs =>
        refine normB_of_parts (hwsp c (List.mem_cons_self c cs)) ?_
        exact normTail_word_append hwsp htailS

lemma normB_t1 (t : Str) : normB (sjoin (pySplit t)) = true :=
  sjoin_words_norm (pySplit t) (pySplit_words t)

lemma splitGo_reconstruct : ∀ (l acc : Str), normTail l = true →
    (l ≠ [] → pyIsSpace (l.headD ' ') = true → acc ≠ []) →
    sjoin (splitGo l acc) = acc.reverse ++ l := by
  intro l
  induction l with
  | nil =>
    intro acc _ _
    by_cases ha : acc = []
    · simp [splitGo, ha, sjoin]
    · simp [splitGo, ha, sjoin_singleton]
  | cons c cs ih =>
    intro acc htail hhead
    by_cases hc : pyIsSpace c = true
    · have ha : acc ≠ [] := hhead (by simp) (by simpa using hc)
      rw [show splitGo (c :: cs) acc = acc.reverse :: splitGo cs [] by
            simp [splitGo, hc, ha]]
      simp only [normTail, hc, if_true, Bool.and_eq_true, decide_eq_true_eq] at htail
      obtain ⟨⟨hcsp, hnext⟩, htcs⟩ := htail
      cases cs with
      | nil => simp at hnext
      | cons d r =>
        simp only [Bool.not_eq_eq_eq_not, Bool.not_true] at hnext
        have hne : splitGo (d :: r) [] ≠ [] := by
          apply splitGo_ne_nil
          left
          simp [List.all_cons, hnext]
        rw [sjoin_cons_ne hne]
        rw [ih [] htcs (fun _ hsp => by simp [hnext] at hsp)]
        simp [hcsp]
    · rw [show splitGo (c :: cs) acc = splitGo cs (c :: acc) by simp [splitGo, hc]]
      rw [ih (c :: acc) (normTail_tail htail) (fun _ _ => by simp)]
      simp

lemma sjoin_pySplit_fix {l : Str} (h : normB l = true) : sjoin (pySplit l) = l := by
  cases l with
  | nil => rfl
  | cons c cs =>
    have hc := normB_head h
    have := splitGo_reconstruct (c :: cs) [] (normB_tail' h)
      (fun _ hsp => by simp [hc] at hsp)
    simpa using this

/-! ### Step-3 scanner invariant -/

/-- True iff scanning from `state` meets no `[.?!]\s+[a-záéíóúñ]` site, i.e.
step 3 replaces nothing. -/
def noCapPat : Str → Nat → Bool
  | [], _ => true
  | c :: cs, state =>
      if state = 2 ∧ lowerClassChar c then false
      else noCapPat cs (capNext c state)

/-- Scanner state after consuming a prefix. -/
def capStateAfter : Str → Nat → Nat
  | [], s => s
  | c :: cs, s => capStateAfter cs (capNext c s)

lemma noCapPat_cons (c : Char) (cs : Str) (s : Nat) :
    noCapPat (c :: cs) s =
      if s = 2 ∧ lowerClassChar c = true then false
      else noCapPat cs (capNext c s) := rfl

lemma capGo_cons (c : Char) (cs : Str) (s : Nat) :
    capAfterPunctGo (c :: cs) s =
      if s = 2 ∧ lowerClassChar c = true then
        pyToUpper c :: capAfterPunctGo cs 0
      else c :: capAfterPunctGo cs (capNext c s) := rfl

lemma capNext_eq_zero {c : Char} (s : Nat) (h1 : isTerminalPunct c = false)
    (h2 : pyIsSpace c = false) : capNext c s = 0 := by
  unfold capNext
  rw [if_neg (by simp [h1]), if_neg (by simp [h2])]

lemma wordChar_not_terminal {c : Char} (h : isWordChar c = true) :
    isTerminalPunct c = false := by
  by_cases ht : isTerminalPunct c = true
  · have hp := terminal_punctTail ht
    rw [wordChar_not_punctTail h] at hp
    exact absurd hp (by simp)
  · exact Bool.eq_false_iff.mpr ht

lemma capGo_fix : ∀ (l : Str) (s : Nat), noCapPat l s = true →
    capAfterPunctGo l s = l := by
  intro l
  induction l with
  | nil => intro s _; rfl
  | cons c cs ih =>
    intro s h
    rw [noCapPat_cons] at h
    by_cases hc : s = 2 ∧ lowerClassChar c = true
    · rw [if_pos hc] at h; exact absurd h (by simp)
    · rw [if_neg hc] at h
      rw [capGo_cons, if_neg hc, ih _ h]

lemma noCapPat_capGo : ∀ (l : Str) (s : Nat),
    noCapPat (capAfterPunctGo l s) s = true := by
  intro l
  induction l with
  | nil => intro s; rfl
  | cons c cs ih =>
    intro s
    rw [capGo_cons]
    by_cases hc : s = 2 ∧ lowerClassChar c = true
    · rw [if_pos hc, noCapPat_cons]
      have hup := classChar_upper_not_class hc.2
      rw [if_neg (fun hcon => by rw [hup] at hcon; exact Bool.false_ne_true hcon.2)]
      rw [capNext_eq_zero s (classChar_upper_not_terminal hc.2)
            (classChar_upper_not_space hc.2)]
      exact ih 0
    · rw [if_neg hc, noCapPat_cons, if_neg hc]
      exact ih (capNext c s)

lemma noCapPat_append (x z : Str) : ∀ s, noCapPat (x ++ z) s =
    (noCapPat x s && noCapPat z (capStateAfter x s)) := by
  induction x with
  | nil => intro s; simp [noCapPat, capStateAfter]
  | cons c cs ih =>
    intro s
    simp only [List.cons_append, noCapPat_cons]
    by_cases hc : s = 2 ∧ lowerClassChar c = true
    · rw [if_pos hc, if_pos hc]; simp
    · rw [if_neg hc, if_neg hc, ih]
      rfl

lemma capStateAfter_words_zero {r : Str} (hr : ∀ c ∈ r, isWordChar c = true) :
    capStateAfter r 0 = 0 := by
  induction r with
  | nil => rfl
  | cons c cs ih =>
    show capStateAfter cs (capNext c 0) = 0
    rw [capNext_eq_zero 0 (wordChar_not_terminal (hr c (List.mem_cons_self c cs)))
          (wordChar_not_space (hr c (List.mem_cons_self c cs)))]
    exact ih fun d hd => hr d (List.mem_cons_of_mem c hd)

lemma capStateAfter_run {c : Char} {r : Str}
    (hr : ∀ d ∈ c :: r, isWordChar d = true) (s : Nat) :
    capStateAfter (c :: r) s = 0 := by
  show capStateAfter r (capNext c s) = 0
  rw [capNext_eq_zero s (wordChar_not_terminal (hr c (List.mem_cons_self c r)))
        (wordChar_not_space (hr c (List.mem_cons_self c r)))]
  exact capStateAfter_words_zero fun d hd => hr d (List.mem_cons_of_mem c hd)

lemma noCapPat_words_zero {r : Str} (hr : ∀ c ∈ r, isWordChar c = true) :
    noCapPat r 0 = true := by
  induction r with
  | nil => rfl
  | cons c cs ih =>
    rw [noCapPat_cons, if_neg (by simp)]
    rw [capNext_eq_zero 0 (wordChar_not_terminal (hr c (List.mem_cons_self c cs)))
          (wordChar_not_space (hr c (List.mem_cons_self c cs)))]
    exact ih fun d hd => hr d (List.mem_cons_of_mem c hd)

lemma noCapPat_run {c : Char} {r : Str}
    (hr : ∀ d ∈ c :: r, isWordChar d = true) (s : Nat)
    (hs : ¬(s = 2 ∧ lowerClassChar c = true)) : noCapPat (c :: r) s = true := by
  rw [noCapPat_cons, if_neg hs]
  rw [capNext_eq_zero s (wordChar_not_terminal (hr c (List.mem_cons_self c r)))
        (wordChar_not_space (hr c (List.mem_cons_self c r)))]
  exact noCapPat_words_zero fun d hd => hr d (List.mem_cons_of_mem c hd)

/-! ### Step-4 scanner invariant -/

lemma capitalizeRoles_sep {c : Char} {cs : Str} (h : isWordChar c = false) :
    capitalizeRoles (c :: cs) = c :: capitalizeRoles cs := by
  rw [capitalizeRoles]
  rw [if_neg (by simp [h])]

lemma capitalizeRoles_word {c : Char} {cs : Str} (h : isWordChar c = true) :
    capitalizeRoles (c :: cs) =
      roleReplace (c :: cs.takeWhile isWordChar) ++
        capitalizeRoles (cs.drop (cs.takeWhile isWordChar).length) := by
  rw [capitalizeRoles]
  rw [if_pos h]

/-- True iff every maximal word-character run is already its canonical
capitalization, i.e. step 4 replaces nothing. -/
def rolesFixed : Str → Bool
  | [] => true
  | c :: cs =>
      if isWordChar c then
        (roleReplace (c :: cs.takeWhile isWordChar) == c :: cs.takeWhile isWordChar)
          && rolesFixed (cs.drop (cs.takeWhile isWordChar).length)
      else rolesFixed cs
termination_by l => l.length
decreasing_by
  · simp only [List.length_drop, List.length_cons]
    have := (List.takeWhile_sublist isWordChar (l := cs)).length_le
    omega
  · simp

lemma rolesFixed_sep {c : Char} {cs : Str} (h : isWordChar c = false) :
    rolesFixed (c :: cs) = rolesFixed cs := by
  rw [rolesFixed]
  rw [if_neg (by simp [h])]

lemma rolesFixed_word {c : Char} {cs : Str} (h : isWordChar c = true) :
    rolesFixed (c :: cs) =
      ((roleReplace (c :: cs.takeWhile isWordChar) == c :: cs.takeWhile isWordChar)
        && rolesFixed (cs.drop (cs.takeWhile isWordChar).length)) := by
  rw [rolesFixed]
  rw [if_pos h]

lemma takeWhile_word_append {r rest : Str} (hr : ∀ c ∈ r, isWordChar c = true)
    (hrest : rest = [] ∨ isWordChar (rest.headD ' ') = false) :
    (r ++ rest).takeWhile isWordChar = r := by
  induction r with
  | nil =>
    rcases hrest with h | h
    · simp [h]
    · cases rest with
      | nil => rfl
      | cons d rs =>
        simp only [List.headD_cons] at h
        simp [List.takeWhile_cons, h]
  | cons c cs ih =>
    simp only [List.cons_append, List.takeWhile_cons,
      hr c (List.mem_cons_self c cs), if_true]
    rw [ih fun d hd => hr d (List.mem_cons_of_mem c hd)]

lemma drop_word_append {r rest : Str} :
    (r ++ rest).drop r.length = rest := by
  simp

lemma capitalizeRoles_run {r rest : Str} (hne : r ≠ [])
    (hr : ∀ c ∈ r, isWordChar c = true)
    (hrest : rest = [] ∨ isWordChar (rest.headD ' ') = false) :
    capitalizeRoles (r ++ rest) = roleReplace r ++ capitalizeRoles rest := by
  cases r with
  | nil => exact absurd rfl hne
  | cons c r' =>
    rw [List.cons_append, capitalizeRoles_word (hr c (List.mem_cons_self c r'))]
    have ht : (r' ++ rest).takeWhile isWordChar = r' :=
      takeWhile_word_append (fun d hd => hr d (List.mem_cons_of_mem c hd)) hrest
    rw [ht, drop_word_append]

lemma rolesFixed_run {r rest : Str} (hne : r ≠ [])
    (hr : ∀ c ∈ r, isWordChar c = true)
    (hrest : rest = [] ∨ isWordChar (rest.headD ' ') = false) :
    rolesFixed (r ++ rest) = ((roleReplace r == r) && rolesFixed rest) := by
  cases r with
  | nil => exact absurd rfl hne
  | cons c r' =>
    rw [List.cons_append, rolesFixed_word (hr c (List.mem_cons_self c r'))]
    have ht : (r' ++ rest).takeWhile isWordChar = r' :=
      takeWhile_word_append (fun d hd => hr d (List.mem_cons_of_mem c hd)) hrest
    rw [ht, drop_word_append]

lemma roleReplace_idem (r : Str) : roleReplace (roleReplace r) = roleReplace r := by
  unfold roleReplace
  cases hf : CAPITALIZE_WORDS.find? (fun p => pyLower r == p.1) with
  | none => rw [hf]
  | some p =>
    have hmem := List.mem_of_find?_eq_some hf
    have := all_mem (l := CAPITALIZE_WORDS)
      (p := fun q => roleReplace q.2 == q.2) (by decide) hmem
    have heq : roleReplace p.2 = p.2 := by simpa using this
    unfold roleReplace at heq
    cases hg : CAPITALIZE_WORDS.find? (fun q => pyLower p.2 == q.1) with
    | none => rfl
    | some q => rw [hg] at heq; exact heq

lemma roleReplace_words {r : Str} (hr : ∀ c ∈ r, isWordChar c = true) :
    ∀ c ∈ roleReplace r, isWordChar c = true := by
  unfold roleReplace
  cases hf : CAPITALIZE_WORDS.find? (fun p => pyLower r == p.1) with
  | none => exact hr
  | some p =>
    have hmem := List.mem_of_find?_eq_some hf
    have := all_mem (l := CAPITALIZE_WORDS)
      (p := fun q => q.2.all isWordChar) (by decide) hmem
    intro c hc
    exact all_mem this hc

lemma roleReplace_ne_nil {r : Str} (hne : r ≠ []) : roleReplace r ≠ [] := by
  unfold roleReplace
  cases hf : CAPITALIZE_WORDS.find? (fun p => pyLower r == p.1) with
  | none => exact hne
  | some p =>
    have hmem := List.mem_of_find?_eq_some hf
    have := all_mem (l := CAPITALIZE_WORDS)
      (p := fun q => !(q.2.isEmpty)) (by decide) hmem
    simpa [List.isEmpty_iff] using this

lemma roleReplace_length (r : Str) : (roleReplace r).length = r.length := by
  unfold roleReplace
  cases hf : CAPITALIZE_WORDS.find? (fun p => pyLower r == p.1) with
  | none => rfl
  | some p =>
    have hmem := List.mem_of_find?_eq_some hf
    have hpred := List.find?_some hf
    have hkey : pyLower r = p.1 := by simpa using hpred
    have hlen := all_mem (l := CAPITALIZE_WORDS)
      (p := fun q => q.2.length == q.1.length) (by decide) hmem
    have h2 : p.2.length = p.1.length := by simpa using hlen
    have h1 : r.length = p.1.length := by
      rw [← hkey]; simp [pyLower]
    rw [h2, h1]

lemma dropWhile_head_false {p : Char → Bool} :
    ∀ (l : Str) {c r}, l.dropWhile p = c :: r → p c = false := by
  intro l
  induction l with
  | nil => intro c r h; simp at h
  | cons a as ih =>
    intro c r h
    by_cases ha : p a = true
    · rw [List.dropWhile_cons_of_pos ha] at h
      exact ih h
    · rw [List.dropWhile_cons_of_neg ha] at h
      cases h
      exact Bool.eq_false_iff.mpr ha

lemma capitalizeRoles_nil : capitalizeRoles [] = [] := by
  rw [capitalizeRoles]

lemma rolesFixed_nil : rolesFixed [] = true := by
  rw [rolesFixed]

lemma drop_takeWhile_eq_dropWhile (p : Char → Bool) (l : Str) :
    l.drop (l.takeWhile p).length = l.dropWhile p := by
  have h := List.takeWhile_append_dropWhile (p := p) (l := l)
  rw [show List.drop (List.takeWhile p l).length l
        = List.drop (List.takeWhile p l).length
            (List.takeWhile p l ++ List.dropWhile p l) from by rw [h]]
  exact List.drop_left _ _

lemma capRoles_fix_aux : ∀ (n : Nat) (l : Str), l.length ≤ n →
    rolesFixed l = true → capitalizeRoles l = l := by
  intro n
  induction n with
  | zero =>
    intro l hl _
    cases l with
    | nil => exact capitalizeRoles_nil
    | cons c cs => simp at hl
  | succ n ih =>
    intro l hl h
    cases l with
    | nil => exact capitalizeRoles_nil
    | cons c cs =>
      by_cases hw : isWordChar c = true
      · rw [rolesFixed_word hw, Bool.and_eq_true, beq_iff_eq] at h
        rw [capitalizeRoles_word hw, h.1]
        rw [ih (cs.drop (cs.takeWhile isWordChar).length) ?_ h.2]
        · rw [List.cons_append, drop_takeWhile_eq_dropWhile,
              List.takeWhile_append_dropWhile]
        · simp only [List.length_drop]
          simp only [List.length_cons] at hl
          omega
      · have hw' : isWordChar c = false := Bool.eq_false_iff.mpr hw
        rw [rolesFixed_sep hw'] at h
        rw [capitalizeRoles_sep hw']
        rw [ih cs (by simp only [List.length_cons] at hl; omega) h]

lemma capRoles_fix {l : Str} (h : rolesFixed l = true) : capitalizeRoles l = l :=
  capRoles_fix_aux l.length l le_rfl h

lemma rolesFixed_capRoles_aux : ∀ (n : Nat) (l : Str), l.length ≤ n →
    rolesFixed (capitalizeRoles l) = true := by
  intro n
  induction n with
  | zero =>
    intro l hl
    cases l with
    | nil => rw [capitalizeRoles_nil]; exact rolesFixed_nil
    | cons c cs => simp at hl
  | succ n ih =>
    intro l hl
    cases l with
    | nil => rw [capitalizeRoles_nil]; exact rolesFixed_nil
    | cons c cs =>
      by_cases hw : isWordChar c = true
      · rw [capitalizeRoles_word hw, drop_takeWhile_eq_dropWhile]
        have hrun : ∀ d ∈ (c :: cs.takeWhile isWordChar), isWordChar d = true := by
          intro d hd
          rcases List.mem_cons.mp hd with h' | h'
          · subst h'; exact hw
          · exact List.mem_takeWhile_imp h'
        have hV : ∀ d ∈ roleReplace (c :: cs.takeWhile isWordChar),
            isWordChar d = true := roleReplace_words hrun
        have hVne : roleReplace (c :: cs.takeWhile isWordChar) ≠ [] :=
          roleReplace_ne_nil (by simp)
        have hT : capitalizeRoles (cs.dropWhile isWordChar) = [] ∨
            isWordChar ((capitalizeRoles (cs.dropWhile isWordChar)).headD ' ')
              = false := by
          cases hr2 : cs.dropWhile isWordChar with
          | nil => left; exact capitalizeRoles_nil
          | cons d r2 =>
            have hd : isWordChar d = false := dropWhile_head_false _ hr2
            right
            rw [capitalizeRoles_sep hd]
            simpa using hd
        rw [rolesFixed_run hVne hV hT, Bool.and_eq_true, beq_iff_eq]
        refine ⟨roleReplace_idem _, ih (cs.dropWhile isWordChar) ?_⟩
        have := (List.dropWhile_sublist isWordChar (l := cs)).length_le
        simp only [List.length_cons] at hl
        omega
      · have hw' : isWordChar c = false := Bool.eq_false_iff.mpr hw
        rw [capitalizeRoles_sep hw', rolesFixed_sep hw']
        exact ih cs (by simp only [List.length_cons] at hl; omega)

lemma rolesFixed_capRoles (l : Str) : rolesFixed (capitalizeRoles l) = true :=
  rolesFixed_capRoles_aux l.length l le_rfl

/-! ### Step-7 machinery: equations and the one-pass normal form -/

lemma sep_not_space {c : Char} (h : c = ',' ∨ c = ';' ∨ c = ':') :
    pyIsSpace c = false := by
  rcases h with h|h|h <;> subst h <;> decide

lemma sep_punctTail {c : Char} (h : c = ',' ∨ c = ';' ∨ c = ':') :
    punctTail c = true := by
  rcases h with h|h|h <;> subst h <;> decide

lemma space_not_sep {c : Char} (h : pyIsSpace c = true) :
    ¬(c = ',' ∨ c = ';' ∨ c = ':') := by
  intro hc
  rw [sep_not_space hc] at h
  exact absurd h (by simp)

lemma punctSpaceA_nil : punctSpaceA [] = [] := by rw [punctSpaceA]

lemma punctSpaceA_sep {c : Char} {cs : Str} (h : c = ',' ∨ c = ';' ∨ c = ':') :
    punctSpaceA (c :: cs) = c :: ' ' :: punctSpaceA (cs.dropWhile pyIsSpace) := by
  rw [punctSpaceA]
  rw [if_pos h]

lemma punctSpaceA_other {c : Char} {cs : Str} (h : ¬(c = ',' ∨ c = ';' ∨ c = ':')) :
    punctSpaceA (c :: cs) = c :: punctSpaceA cs := by
  rw [punctSpaceA]
  rw [if_neg h]

lemma punctSpaceA_head (e : Char) (r2 : Str) :
    ∃ Z, punctSpaceA (e :: r2) = e :: Z := by
  by_cases h : e = ',' ∨ e = ';' ∨ e = ':'
  · exact ⟨' ' :: punctSpaceA (r2.dropWhile pyIsSpace), punctSpaceA_sep h⟩
  · exact ⟨punctSpaceA r2, punctSpaceA_other h⟩

lemma spanSpaces_cons_space {c : Char} {cs : Str} (h : pyIsSpace c = true) :
    spanSpaces (c :: cs) = (c :: (spanSpaces cs).1, (spanSpaces cs).2) := by
  simp [spanSpaces, h]

lemma spanSpaces_cons_nonspace {c : Char} {cs : Str} (h : pyIsSpace c = false) :
    spanSpaces (c :: cs) = ([], c :: cs) := by
  simp [spanSpaces, h]

lemma punctSpaceB_nil : punctSpaceB [] = [] := by rw [punctSpaceB]

lemma punctSpaceB_nonspace {c : Char} {cs : Str} (h : pyIsSpace c = false) :
    punctSpaceB (c :: cs) = c :: punctSpaceB cs := by
  rw [punctSpaceB]
  rw [if_neg (by simp [h])]

lemma punctSpaceB_space_punct {c d : Char} {Z : Str} (hc : pyIsSpace c = true)
    (hd : pyIsSpace d = false) (hp : punctTail d = true) :
    punctSpaceB (c :: d :: Z) = d :: punctSpaceB Z := by
  rw [punctSpaceB]
  rw [if_pos hc]
  split
  · rename_i p rest heq
    rw [spanSpaces_cons_space hc, spanSpaces_cons_nonspace hd] at heq
    simp only at heq
    injection heq with h1 h2
    subst h1; subst h2
    rw [if_pos hp]
  · rename_i heq
    rw [spanSpaces_cons_space hc, spanSpaces_cons_nonspace hd] at heq
    simp at heq

lemma punctSpaceB_space_nopunct {c d : Char} {Z : Str} (hc : pyIsSpace c = true)
    (hd : pyIsSpace d = false) (hp : punctTail d = false) :
    punctSpaceB (c :: d :: Z) = c :: punctSpaceB (d :: Z) := by
  rw [punctSpaceB]
  rw [if_pos hc]
  split
  · rename_i p rest heq
    rw [spanSpaces_cons_space hc, spanSpaces_cons_nonspace hd] at heq
    simp only at heq
    injection heq with h1 h2
    subst h1; subst h2
    rw [if_neg (by simp [hp])]
  · rfl

lemma punctSpaceB_single_space : punctSpaceB [' '] = [' '] := by
  rw [punctSpaceB]
  rw [if_pos (by decide : pyIsSpace ' ' = true)]
  split
  · rename_i p rest heq
    rw [spanSpaces_cons_space (by decide)] at heq
    simp [spanSpaces] at heq
  · rw [punctSpaceB_nil]

lemma normTail_cons (c : Char) (cs : Str) :
    normTail (c :: cs) =
      ((if pyIsSpace c then
        ((c = ' ' : Bool)) &&
          (match cs with | [] => false | d :: _ => !(pyIsSpace d))
       else true) && normTail cs) := rfl

lemma normTail_space_shape {d : Char} {cs : Str} (h : normTail (d :: cs) = true)
    (hd : pyIsSpace d = true) :
    d = ' ' ∧ ∃ e r2, cs = e :: r2 ∧ pyIsSpace e = false := by
  rw [normTail_cons, if_pos hd, Bool.and_eq_true, Bool.and_eq_true] at h
  obtain ⟨⟨h1, h2⟩, _⟩ := h
  refine ⟨by simpa using h1, ?_⟩
  cases cs with
  | nil => simp at h2
  | cons e r2 =>
    simp only [Bool.not_eq_eq_eq_not, Bool.not_true] at h2
    exact ⟨e, r2, rfl, h2⟩

/-- Does the text end in `,`, `;` or `:` (so that step 7a appends a space
that the final strip removes)? -/
def lastSep (l : Str) : Bool :=
  match l.getLast? with
  | some c => c = ',' || c = ';' || c = ':'
  | none => false

lemma lastSep_cons {x : Char} {l : Str} (h : l ≠ []) :
    lastSep (x :: l) = lastSep l := by
  unfold lastSep
  cases l with
  | nil => exact absurd rfl h
  | cons y ys => rw [List.getLast?_cons_cons]

lemma lastSep_single (c : Char) :
    lastSep [c] = (c = ',' || c = ';' || c = ':') := rfl

/-- One-pass normal form of steps 7a+7b+strip on a step-1-normalized text:
inserts one space after `,;:` unless followed by tail punctuation or the end,
and deletes a space standing before tail punctuation. -/
def sevenNorm : Str → Str
  | [] => []
  | c :: cs =>
      if c = ',' ∨ c = ';' ∨ c = ':' then
        match cs with
        | [] => [c]
        | d :: r =>
            if pyIsSpace d then
              match r with
              | [] => [c]
              | e :: r2 =>
                  if punctTail e then c :: sevenNorm (e :: r2)
                  else c :: ' ' :: sevenNorm (e :: r2)
            else if punctTail d then c :: sevenNorm (d :: r)
            else c :: ' ' :: sevenNorm (d :: r)
      else if pyIsSpace c then
        match cs with
        | [] => []
        | d :: r => if punctTail d then sevenNorm (d :: r) else c :: sevenNorm (d :: r)
      else c :: sevenNorm cs
termination_by l => l.length
decreasing_by all_goals simp

lemma sevenNorm_nil : sevenNorm [] = [] := by rw [sevenNorm.eq_def]

lemma sevenNorm_sep_nil {c : Char} (h : c = ',' ∨ c = ';' ∨ c = ':') :
    sevenNorm [c] = [c] := by
  rw [sevenNorm.eq_def]
  dsimp only
  rw [if_pos h]

lemma sevenNorm_sep_sp_nil {c d : Char} (h : c = ',' ∨ c = ';' ∨ c = ':')
    (hd : pyIsSpace d = true) : sevenNorm [c, d] = [c] := by
  rw [sevenNorm.eq_def]
  dsimp only
  rw [if_pos h, if_pos hd]

lemma sevenNorm_sep_sp_punct {c d e : Char} {r2 : Str}
    (h : c = ',' ∨ c = ';' ∨ c = ':') (hd : pyIsSpace d = true)
    (he : punctTail e = true) :
    sevenNorm (c :: d :: e :: r2) = c :: sevenNorm (e :: r2) := by
  rw [sevenNorm.eq_def]
  dsimp only
  rw [if_pos h, if_pos hd, if_pos he]

lemma sevenNorm_sep_sp_nopunct {c d e : Char} {r2 : Str}
    (h : c = ',' ∨ c = ';' ∨ c = ':') (hd : pyIsSpace d = true)
    (he : punctTail e = false) :
    sevenNorm (c :: d :: e :: r2) = c :: ' ' :: sevenNorm (e :: r2) := by
  rw [sevenNorm.eq_def]
  dsimp only
  rw [if_pos h, if_pos hd, if_neg (by simp [he])]

lemma sevenNorm_sep_punct {c d : Char} {r : Str}
    (h : c = ',' ∨ c = ';' ∨ c = ':') (hd : pyIsSpace d = false)
    (hp : punctTail d = true) :
    sevenNorm (c :: d :: r) = c :: sevenNorm (d :: r) := by
  rw [sevenNorm.eq_def]
  dsimp only
  rw [if_pos h, if_neg (by simp [hd]), if_pos hp]

lemma sevenNorm_sep_nopunct {c d : Char} {r : Str}
    (h : c = ',' ∨ c = ';' ∨ c = ':') (hd : pyIsSpace d = false)
    (hp : punctTail d = false) :
    sevenNorm (c :: d :: r) = c :: ' ' :: sevenNorm (d :: r) := by
  rw [sevenNorm.eq_def]
  dsimp only
  rw [if_pos h, if_neg (by simp [hd]), if_neg (by simp [hp])]

lemma sevenNorm_space_nil {c : Char} (hns : ¬(c = ',' ∨ c = ';' ∨ c = ':'))
    (hc : pyIsSpace c = true) : sevenNorm [c] = [] := by
  rw [sevenNorm.eq_def]
  dsimp only
  rw [if_neg hns, if_pos hc]

lemma sevenNorm_space_punct {c d : Char} {r : Str}
    (hns : ¬(c = ',' ∨ c = ';' ∨ c = ':')) (hc : pyIsSpace c = true)
    (hp : punctTail d = true) :
    sevenNorm (c :: d :: r) = sevenNorm (d :: r) := by
  rw [sevenNorm.eq_def]
  dsimp only
  rw [if_neg hns, if_pos hc, if_pos hp]

lemma sevenNorm_space_nopunct {c d : Char} {r : Str}
    (hns : ¬(c = ',' ∨ c = ';' ∨ c = ':')) (hc : pyIsSpace c = true)
    (hp : punctTail d = false) :
    sevenNorm (c :: d :: r) = c :: sevenNorm (d :: r) := by
  rw [sevenNorm.eq_def]
  dsimp only
  rw [if_neg hns, if_pos hc, if_neg (by simp [hp])]

lemma sevenNorm_other {c : Char} {cs : Str}
    (hns : ¬(c = ',' ∨ c = ';' ∨ c = ':')) (hc : pyIsSpace c = false) :
    sevenNorm (c :: cs) = c :: sevenNorm cs := by
  rw [sevenNorm.eq_def]
  dsimp only
  rw [if_neg hns, if_neg (by simp [hc])]

lemma BA_eq_sevenNorm : ∀ (n : Nat) (l : Str), l.length ≤ n → normB l = true →
    punctSpaceB (punctSpaceA l) =
      sevenNorm l ++ (if lastSep l = true then [' '] else []) := by
  intro n
  induction n with
  | zero =>
    intro l hl _
    cases l with
    | nil =>
      rw [punctSpaceA_nil, punctSpaceB_nil, sevenNorm_nil]
      rfl
    | cons c cs => simp at hl
  | succ n ih =>
    intro l hl hnB
    cases l with
    | nil =>
      rw [punctSpaceA_nil, punctSpaceB_nil, sevenNorm_nil]
      rfl
    | cons c cs =>
      have hcns : pyIsSpace c = false := normB_head hnB
      have htl : normTail (c :: cs) = true := normB_tail' hnB
      have htcs : normTail cs = true := normTail_tail htl
      by_cases hsep : c = ',' ∨ c = ';' ∨ c = ':'
      · rw [punctSpaceA_sep hsep]
        cases cs with
        | nil =>
          rw [show List.dropWhile pyIsSpace ([] : Str) = [] from rfl, punctSpaceA_nil]
          rw [punctSpaceB_nonspace hcns, punctSpaceB_single_space]
          rw [sevenNorm_sep_nil hsep, lastSep_single]
          rw [if_pos (by rcases hsep with h|h|h <;> subst h <;> rfl)]
          rfl
        | cons d r =>
          by_cases hd : pyIsSpace d = true
          · obtain ⟨hd', e, r2, hr, hens⟩ := normTail_space_shape htcs hd
            subst hd'
            subst hr
            have hdw : (' ' :: e :: r2).dropWhile pyIsSpace = e :: r2 := by
              rw [List.dropWhile_cons_of_pos (by decide),
                  List.dropWhile_cons_of_neg (by simp [hens])]
            rw [hdw]
            obtain ⟨Z, hZ⟩ := punctSpaceA_head e r2
            rw [hZ, punctSpaceB_nonspace hcns]
            have hnBe : normB (e :: r2) = true :=
              normB_of_parts hens (normTail_tail htcs)
            have hlen : (e :: r2).length ≤ n := by
              simp only [List.length_cons] at hl ⊢
              omega
            have hIH := ih (e :: r2) hlen hnBe
            rw [hZ] at hIH
            rw [lastSep_cons (by simp), lastSep_cons (by simp)]
            by_cases hpe : punctTail e = true
            · rw [punctSpaceB_space_punct (by decide) hens hpe]
              rw [punctSpaceB_nonspace hens] at hIH
              rw [sevenNorm_sep_sp_punct hsep (by decide) hpe, List.cons_append]
              exact congrArg (c :: ·) hIH
            · have hpe' : punctTail e = false := Bool.eq_false_iff.mpr hpe
              rw [punctSpaceB_space_nopunct (by decide) hens hpe']
              rw [hIH]
              rw [sevenNorm_sep_sp_nopunct hsep (by decide) hpe']
              simp
          · have hdns : pyIsSpace d = false := Bool.eq_false_iff.mpr hd
            have hdw : (d :: r).dropWhile pyIsSpace = d :: r :=
              List.dropWhile_cons_of_neg (by simp [hdns])
            rw [hdw]
            obtain ⟨Z, hZ⟩ := punctSpaceA_head d r
            rw [hZ, punctSpaceB_nonspace hcns]
            have hnBd : normB (d :: r) = true :=
              normB_of_parts hdns (normTail_tail htl)
            have hlen : (d :: r).length ≤ n := by
              simp only [List.length_cons] at hl ⊢
              omega
            have hIH := ih (d :: r) hlen hnBd
            rw [hZ] at hIH
            rw [lastSep_cons (by simp)]
            by_cases hpd : punctTail d = true
            · rw [punctSpaceB_space_punct (by decide) hdns hpd]
              rw [punctSpaceB_nonspace hdns] at hIH
              rw [sevenNorm_sep_punct hsep hdns hpd, List.cons_append]
              exact congrArg (c :: ·) hIH
            · have hpd' : punctTail d = false := Bool.eq_false_iff.mpr hpd
              rw [punctSpaceB_space_nopunct (by decide) hdns hpd']
              rw [hIH]
              rw [sevenNorm_sep_nopunct hsep hdns hpd']
              simp
      · rw [punctSpaceA_other hsep, punctSpaceB_nonspace hcns]
        rw [sevenNorm_other hsep hcns]
        cases cs with
        | nil =>
          rw [punctSpaceA_nil, punctSpaceB_nil, sevenNorm_nil, lastSep_single]
          rw [if_neg (by
            simp only [Bool.or_eq_true, decide_eq_true_eq, or_assoc]
            exact hsep)]
          rfl
        | cons d r =>
          by_cases hd : pyIsSpace d = true
          · obtain ⟨hd', e, r2, hr, hens⟩ := normTail_space_shape htcs hd
            subst hd'
            subst hr
            rw [punctSpaceA_other (space_not_sep (by decide))]
            obtain ⟨Z, hZ⟩ := punctSpaceA_head e r2
            rw [hZ]
            have hnBe : normB (e :: r2) = true :=
              normB_of_parts hens (normTail_tail htcs)
            have hlen : (e :: r2).length ≤ n := by
              simp only [List.length_cons] at hl ⊢
              omega
            have hIH := ih (e :: r2) hlen hnBe
            rw [hZ] at hIH
            rw [lastSep_cons (by simp), lastSep_cons (by simp)]
            by_cases hpe : punctTail e = true
            · rw [punctSpaceB_space_punct (by decide) hens hpe]
              rw [punctSpaceB_nonspace hens] at hIH
              rw [sevenNorm_space_punct (space_not_sep (by decide)) (by decide) hpe,
                  List.cons_append]
              exact congrArg (c :: ·) hIH
            · have hpe' : punctTail e = false := Bool.eq_false_iff.mpr hpe
              rw [punctSpaceB_space_nopunct (by decide) hens hpe']
              rw [hIH]
              rw [sevenNorm_space_nopunct (space_not_sep (by decide)) (by decide) hpe']
              simp
          · have hdns : pyIsSpace d = false := Bool.eq_false_iff.mpr hd
            have hnBd : normB (d :: r) = true :=
              normB_of_parts hdns (normTail_tail htl)
            have hlen : (d :: r).length ≤ n := by
              simp only [List.length_cons] at hl ⊢
              omega
            have hIH := ih (d :: r) hlen hnBd
            rw [show lastSep (c :: d :: r) = lastSep (d :: r) from
                  lastSep_cons (by simp)]
            rw [hIH]
            simp

lemma normTail_last : ∀ {l : Str} {c : Char}, normTail l = true →
    l.getLast? = some c → pyIsSpace c = false := by
  intro l
  induction l with
  | nil => intro c _ h; simp at h
  | cons a as ih =>
    intro c h hl
    cases as with
    | nil =>
      simp only [List.getLast?_singleton, Option.some.injEq] at hl
      rw [← hl]
      by_cases hsp : pyIsSpace a = true
      · rw [normTail_cons, if_pos hsp] at h
        simp at h
      · exact Bool.eq_false_iff.mpr hsp
    | cons b bs =>
      rw [List.getLast?_cons_cons] at hl
      exact ih (normTail_tail h) hl

lemma dropWhile_eq_self_of_head {l : Str}
    (h : l = [] ∨ pyIsSpace (l.headD ' ') = false) :
    l.dropWhile pyIsSpace = l := by
  cases l with
  | nil => rfl
  | cons c cs =>
    rcases h with h | h
    · simp at h
    · simp only [List.headD_cons] at h
      exact List.dropWhile_cons_of_neg (by simp [h])

lemma pyStrip_eq_self {l : Str} (h : normB l = true) : pyStrip l = l := by
  unfold pyStrip
  have h1 : l.dropWhile pyIsSpace = l := by
    refine dropWhile_eq_self_of_head ?_
    cases l with
    | nil => exact Or.inl rfl
    | cons c cs => exact Or.inr (by simpa using normB_head h)
  rw [h1]
  have h2 : l.reverse.dropWhile pyIsSpace = l.reverse := by
    refine dropWhile_eq_self_of_head ?_
    cases hr : l.reverse with
    | nil => exact Or.inl rfl
    | cons c cs =>
      right
      have hlast : l.getLast? = some c := by
        rw [List.getLast?_eq_head?_reverse, hr]
        rfl
      simpa using normTail_last (normB_tail' h) hlast
  rw [h2, List.reverse_reverse]

lemma pyStrip_append_space {l : Str} (h : normB l = true) :
    pyStrip (l ++ [' ']) = l := by
  cases l with
  | nil => rfl
  | cons c cs =>
    unfold pyStrip
    have h1 : ((c :: cs) ++ [' ']).dropWhile pyIsSpace = (c :: cs) ++ [' '] := by
      rw [List.cons_append]
      exact List.dropWhile_cons_of_neg (by simp [normB_head h])
    rw [h1]
    have h2 : ((c :: cs) ++ [' ']).reverse = ' ' :: (c :: cs).reverse := by
      simp
    rw [h2]
    rw [List.dropWhile_cons_of_pos (by decide)]
    have h3 : (c :: cs).reverse.dropWhile pyIsSpace = (c :: cs).reverse := by
      refine dropWhile_eq_self_of_head ?_
      cases hr : (c :: cs).reverse with
      | nil => exact Or.inl rfl
      | cons d ds =>
        right
        have hlast : (c :: cs).getLast? = some d := by
          rw [List.getLast?_eq_head?_reverse, hr]
          rfl
        simpa using normTail_last (normB_tail' h) hlast
    rw [h3, List.reverse_reverse]

lemma normB_single {c : Char} (h : pyIsSpace c = false) : normB [c] = true := by
  refine normB_of_parts h ?_
  rw [normTail_cons, if_neg (by simp [h])]
  rfl

lemma normB_cons {c : Char} {X : Str} (hc : pyIsSpace c = false)
    (hX : normB X = true) : normB (c :: X) = true := by
  refine normB_of_parts hc ?_
  rw [normTail_cons, if_neg (by simp [hc])]
  simpa using normB_tail' hX

lemma normB_cons_space {c d : Char} {X : Str} (hc : pyIsSpace c = false)
    (hX : normB (d :: X) = true) : normB (c :: ' ' :: d :: X) = true := by
  refine normB_of_parts hc ?_
  rw [normTail_cons, if_neg (by simp [hc])]
  simp only [Bool.true_and]
  rw [normTail_cons, if_pos (by decide)]
  have hd := normB_head hX
  simp only [hd]
  simpa using normB_tail' hX

lemma sevenNorm_head_cons {c : Char} {cs : Str} (h : normB (c :: cs) = true) :
    ∃ X, sevenNorm (c :: cs) = c :: X := by
  have hcns : pyIsSpace c = false := normB_head h
  by_cases hsep : c = ',' ∨ c = ';' ∨ c = ':'
  · cases cs with
    | nil => exact ⟨[], sevenNorm_sep_nil hsep⟩
    | cons d r =>
      by_cases hd : pyIsSpace d = true
      · obtain ⟨hd', e, r2, hr, hens⟩ :=
          normTail_space_shape (normTail_tail (normB_tail' h)) hd
        subst hd'
        subst hr
        by_cases hpe : punctTail e = true
        · exact ⟨_, sevenNorm_sep_sp_punct hsep (by decide) hpe⟩
        · exact ⟨_, sevenNorm_sep_sp_nopunct hsep (by decide)
            (Bool.eq_false_iff.mpr hpe)⟩
      · have hdns : pyIsSpace d = false := Bool.eq_false_iff.mpr hd
        by_cases hpd : punctTail d = true
        · exact ⟨_, sevenNorm_sep_punct hsep hdns hpd⟩
        · exact ⟨_, sevenNorm_sep_nopunct hsep hdns (Bool.eq_false_iff.mpr hpd)⟩
  · exact ⟨_, sevenNorm_other hsep hcns⟩

lemma sevenNorm_normB : ∀ (n : Nat) (l : Str), l.length ≤ n → normB l = true →
    normB (sevenNorm l) = true := by
  intro n
  induction n with
  | zero =>
    intro l hl _
    cases l with
    | nil => rw [sevenNorm_nil]; rfl
    | cons c cs => simp at hl
  | succ n ih =>
    intro l hl hnB
    cases l with
    | nil => rw [sevenNorm_nil]; rfl
    | cons c cs =>
      have hcns : pyIsSpace c = false := normB_head hnB
      have htcs : normTail cs = true := normTail_tail (normB_tail' hnB)
      by_cases hsep : c = ',' ∨ c = ';' ∨ c = ':'
      · cases cs with
        | nil => rw [sevenNorm_sep_nil hsep]; exact normB_single hcns
        | cons d r =>
          by_cases hd : pyIsSpace d = true
          · obtain ⟨hd', e, r2, hr, hens⟩ := normTail_space_shape htcs hd
            subst hd'
            subst hr
            have hnBe : normB (e :: r2) = true :=
              normB_of_parts hens (normTail_tail htcs)
            have hlen : (e :: r2).length ≤ n := by
              simp only [List.length_cons] at hl ⊢
              omega
            have h7 := ih (e :: r2) hlen hnBe
            obtain ⟨X, hX⟩ := sevenNorm_head_cons hnBe
            by_cases hpe : punctTail e = true
            · rw [sevenNorm_sep_sp_punct hsep (by decide) hpe]
              exact normB_cons hcns h7
            · rw [sevenNorm_sep_sp_nopunct hsep (by decide)
                    (Bool.eq_false_iff.mpr hpe)]
              rw [hX]
              rw [hX] at h7
              exact normB_cons_space hcns h7
          · have hdns : pyIsSpace d = false := Bool.eq_false_iff.mpr hd
            have hnBd : normB (d :: r) = true :=
              normB_of_parts hdns (normTail_tail (normB_tail' hnB))
            have hlen : (d :: r).length ≤ n := by
              simp only [List.length_cons] at hl ⊢
              omega
            have h7 := ih (d :: r) hlen hnBd
            obtain ⟨X, hX⟩ := sevenNorm_head_cons hnBd
            by_cases hpd : punctTail d = true
            · rw [sevenNorm_sep_punct hsep hdns hpd]
              exact normB_cons hcns h7
            · rw [sevenNorm_sep_nopunct hsep hdns (Bool.eq_false_iff.mpr hpd)]
              rw [hX]
              rw [hX] at h7
              exact normB_cons_space hcns h7
      · rw [sevenNorm_other hsep hcns]
        cases cs with
        | nil => rw [sevenNorm_nil]; exact normB_single hcns
        | cons d r =>
          by_cases hd : pyIsSpace d = true
          · obtain ⟨hd', e, r2, hr, hens⟩ := normTail_space_shape htcs hd
            subst hd'
            subst hr
            have hnBe : normB (e :: r2) = true :=
              normB_of_parts hens (normTail_tail htcs)
            have hlen : (e :: r2).length ≤ n := by
              simp only [List.length_cons] at hl ⊢
              omega
            have h7 := ih (e :: r2) hlen hnBe
            obtain ⟨X, hX⟩ := sevenNorm_head_cons hnBe
            by_cases hpe : punctTail e = true
            · rw [sevenNorm_space_punct (space_not_sep (by decide)) (by decide) hpe]
              exact normB_cons hcns h7
            · rw [sevenNorm_space_nopunct (space_not_sep (by decide)) (by decide)
                    (Bool.eq_false_iff.mpr hpe)]
              rw [hX]
              rw [hX] at h7
              exact normB_cons_space hcns h7
          · have hdns : pyIsSpace d = false := Bool.eq_false_iff.mpr hd
            have hnBd : normB (d :: r) = true :=
              normB_of_parts hdns (normTail_tail (normB_tail' hnB))
            have hlen : (d :: r).length ≤ n := by
              simp only [List.length_cons] at hl ⊢
              omega
            exact normB_cons hcns (ih (d :: r) hlen hnBd)

lemma stripBA_eq_sevenNorm {l : Str} (h : normB l = true) :
    pyStrip (punctSpaceB (punctSpaceA l)) = sevenNorm l := by
  rw [BA_eq_sevenNorm l.length l le_rfl h]
  have h7 : normB (sevenNorm l) = true := sevenNorm_normB l.length l le_rfl h
  by_cases hl : lastSep l = true
  · rw [if_pos hl]
    exact pyStrip_append_space h7
  · rw [if_neg hl]
    rw [List.append_nil]
    exact pyStrip_eq_self h7

lemma sep_not_class {c : Char} (h : c = ',' ∨ c = ';' ∨ c = ':') :
    lowerClassChar c = false := by
  rcases h with h|h|h <;> subst h <;> decide

lemma sep_not_terminal {c : Char} (h : c = ',' ∨ c = ';' ∨ c = ':') :
    isTerminalPunct c = false := by
  rcases h with h|h|h <;> subst h <;> decide

lemma punctTail_not_class {c : Char} (h : punctTail c = true) :
    lowerClassChar c = false := by
  rcases punctTail_cases h with h'|h'|h'|h'|h'|h' <;> subst h' <;> decide

lemma space_not_class {c : Char} (h : pyIsSpace c = true) :
    lowerClassChar c = false := by
  rcases pyIsSpace_cases h with h'|h'|h'|h'|h'|h' <;> subst h' <;> decide

lemma capNext_nonspace_const {c : Char} (h : pyIsSpace c = false) (s s' : Nat) :
    capNext c s = capNext c s' := by
  unfold capNext
  by_cases ht : isTerminalPunct c = true
  · rw [if_pos ht, if_pos ht]
  · rw [if_neg ht, if_neg ht, if_neg (by simp [h]), if_neg (by simp [h])]

lemma noCapPat_cons_elim {c : Char} {cs : Str} {s : Nat}
    (h : noCapPat (c :: cs) s = true) :
    ¬(s = 2 ∧ lowerClassChar c = true) ∧ noCapPat cs (capNext c s) = true := by
  rw [noCapPat_cons] at h
  by_cases hc : s = 2 ∧ lowerClassChar c = true
  · rw [if_pos hc] at h
    exact absurd h (by simp)
  · rw [if_neg hc] at h
    exact ⟨hc, h⟩

lemma noCapPat_cons_intro {c : Char} {cs : Str} {s : Nat}
    (h1 : ¬(s = 2 ∧ lowerClassChar c = true))
    (h2 : noCapPat cs (capNext c s) = true) : noCapPat (c :: cs) s = true := by
  rw [noCapPat_cons, if_neg h1]
  exact h2

lemma sevenNorm_noCapPat : ∀ (n : Nat) (l : Str), l.length ≤ n →
    normB l = true → ∀ s, noCapPat l s = true →
    noCapPat (sevenNorm l) s = true := by
  intro n
  induction n with
  | zero =>
    intro l hl _ s _
    cases l with
    | nil => rw [sevenNorm_nil]; rfl
    | cons c cs => simp at hl
  | succ n ih =>
    intro l hl hnB s hpat
    cases l with
    | nil => rw [sevenNorm_nil]; rfl
    | cons c cs =>
      have hcns : pyIsSpace c = false := normB_head hnB
      have htcs : normTail cs = true := normTail_tail (normB_tail' hnB)
      obtain ⟨hcond, hrest⟩ := noCapPat_cons_elim hpat
      by_cases hsep : c = ',' ∨ c = ';' ∨ c = ':'
      · have hs1 : capNext c s = 0 :=
          capNext_eq_zero s (sep_not_terminal hsep) (sep_not_space hsep)
        rw [hs1] at hrest
        cases cs with
        | nil =>
          rw [sevenNorm_sep_nil hsep]
          exact noCapPat_cons_intro hcond (by rfl)
        | cons d r =>
          by_cases hd : pyIsSpace d = true
          · obtain ⟨hd', e, r2, hr, hens⟩ := normTail_space_shape htcs hd
            subst hd'
            subst hr
            obtain ⟨hcond2, hrest2⟩ := noCapPat_cons_elim hrest
            rw [show capNext ' ' 0 = 0 from rfl] at hrest2
            have hnBe : normB (e :: r2) = true :=
              normB_of_parts hens (normTail_tail htcs)
            have hlen : (e :: r2).length ≤ n := by
              simp only [List.length_cons] at hl ⊢
              omega
            have h7 := ih (e :: r2) hlen hnBe 0 hrest2
            by_cases hpe : punctTail e = true
            · rw [sevenNorm_sep_sp_punct hsep (by decide) hpe]
              refine noCapPat_cons_intro hcond ?_
              rw [hs1]
              exact h7
            · rw [sevenNorm_sep_sp_nopunct hsep (by decide)
                    (Bool.eq_false_iff.mpr hpe)]
              refine noCapPat_cons_intro hcond ?_
              rw [hs1]
              refine noCapPat_cons_intro (by simp) ?_
              rw [show capNext ' ' 0 = 0 from rfl]
              exact h7
          · have hdns : pyIsSpace d = false := Bool.eq_false_iff.mpr hd
            obtain ⟨_, hrest2⟩ := noCapPat_cons_elim hrest
            have hnBd : normB (d :: r) = true :=
              normB_of_parts hdns (normTail_tail (normB_tail' hnB))
            have hlen : (d :: r).length ≤ n := by
              simp only [List.length_cons] at hl ⊢
              omega
            have h7 : noCapPat (sevenNorm (d :: r)) 0 = true := by
              refine ih (d :: r) hlen hnBd 0 ?_
              refine noCapPat_cons_intro (by simp) ?_
              rw [capNext_nonspace_const hdns 0 0]
              have := noCapPat_cons_elim hrest
              rw [capNext_nonspace_const hdns 0 0] at this
              exact this.2
            by_cases hpd : punctTail d = true
            · rw [sevenNorm_sep_punct hsep hdns hpd]
              refine noCapPat_cons_intro hcond ?_
              rw [hs1]
              exact h7
            · rw [sevenNorm_sep_nopunct hsep hdns (Bool.eq_false_iff.mpr hpd)]
              refine noCapPat_cons_intro hcond ?_
              rw [hs1]
              refine noCapPat_cons_intro (by simp) ?_
              rw [show capNext ' ' 0 = 0 from rfl]
              exact h7
      · rw [sevenNorm_other hsep hcns]
        cases cs with
        | nil =>
          rw [sevenNorm_nil]
          exact noCapPat_cons_intro hcond (by rfl)
        | cons d r =>
          by_cases hd : pyIsSpace d = true
          · obtain ⟨hd', e, r2, hr, hens⟩ := normTail_space_shape htcs hd
            subst hd'
            subst hr
            obtain ⟨hcond2, hrest2⟩ := noCapPat_cons_elim hrest
            have hnBe : normB (e :: r2) = true :=
              normB_of_parts hens (normTail_tail htcs)
            have hlen : (e :: r2).length ≤ n := by
              simp only [List.length_cons] at hl ⊢
              omega
            have h7 := ih (e :: r2) hlen hnBe _ hrest2
            by_cases hpe : punctTail e = true
            · rw [sevenNorm_space_punct (space_not_sep (by decide)) (by decide) hpe]
              refine noCapPat_cons_intro hcond ?_
              obtain ⟨X7, hX7⟩ := sevenNorm_head_cons hnBe
              rw [hX7]
              rw [hX7] at h7
              obtain ⟨_, h7t⟩ := noCapPat_cons_elim h7
              refine noCapPat_cons_intro ?_ ?_
              · intro hcon
                rw [punctTail_not_class hpe] at hcon
                exact Bool.false_ne_true hcon.2
              · rw [capNext_nonspace_const (punctTail_not_space hpe)
                      (capNext c s) (capNext ' ' (capNext c s))]
                exact h7t
            · rw [sevenNorm_space_nopunct (space_not_sep (by decide)) (by decide)
                    (Bool.eq_false_iff.mpr hpe)]
              refine noCapPat_cons_intro hcond ?_
              exact noCapPat_cons_intro
                (fun hcon => absurd hcon.2 (by decide)) h7
          · have hdns : pyIsSpace d = false := Bool.eq_false_iff.mpr hd
            have hnBd : normB (d :: r) = true :=
              normB_of_parts hdns (normTail_tail (normB_tail' hnB))
            have hlen : (d :: r).length ≤ n := by
              simp only [List.length_cons] at hl ⊢
              omega
            exact noCapPat_cons_intro hcond (ih (d :: r) hlen hnBd _ hrest)

lemma wordChar_not_sep {c : Char} (h : isWordChar c = true) :
    ¬(c = ',' ∨ c = ';' ∨ c = ':') := by
  intro hs
  have hp := sep_punctTail hs
  rw [wordChar_not_punctTail h] at hp
  exact absurd hp (by simp)

lemma sep_not_wordChar {c : Char} (h : c = ',' ∨ c = ';' ∨ c = ':') :
    isWordChar c = false :=
  punctTail_not_wordChar (sep_punctTail h)

lemma space_not_wordChar {c : Char} (h : pyIsSpace c = true) :
    isWordChar c = false := by
  by_cases hw : isWordChar c = true
  · rw [wordChar_not_space hw] at h
    exact absurd h (by simp)
  · exact Bool.eq_false_iff.mpr hw

lemma normTail_drop_front : ∀ (x l : Str), normTail (x ++ l) = true →
    normTail l = true := by
  intro x
  induction x with
  | nil => intro l h; exact h
  | cons a as ih =>
    intro l h
    exact ih l (normTail_tail h)

lemma sevenNorm_word_run : ∀ (r rest : Str), (∀ c ∈ r, isWordChar c = true) →
    sevenNorm (r ++ rest) = r ++ sevenNorm rest := by
  intro r
  induction r with
  | nil => intro rest _; simp
  | cons c cs ih =>
    intro rest hr
    have hcw := hr c (List.mem_cons_self c cs)
    rw [List.cons_append, sevenNorm_other (wordChar_not_sep hcw)
          (wordChar_not_space hcw)]
    rw [ih rest fun d hd => hr d (List.mem_cons_of_mem c hd)]
    rfl

lemma sevenNorm_head_nonword {rest : Str} (ht : normTail rest = true)
    (hh : rest = [] ∨ isWordChar (rest.headD ' ') = false) :
    sevenNorm rest = [] ∨ isWordChar ((sevenNorm rest).headD ' ') = false := by
  cases rest with
  | nil => left; exact sevenNorm_nil
  | cons d r =>
    have hdw : isWordChar d = false := by
      rcases hh with h | h
      · simp at h
      · simpa using h
    by_cases hd : pyIsSpace d = true
    · obtain ⟨hd', e, r2, hr, hens⟩ := normTail_space_shape ht hd
      subst hd'
      subst hr
      by_cases hpe : punctTail e = true
      · rw [sevenNorm_space_punct (space_not_sep (by decide)) (by decide) hpe]
        obtain ⟨X, hX⟩ :=
          sevenNorm_head_cons (normB_of_parts hens (normTail_tail ht))
        rw [hX]
        right
        simpa using punctTail_not_wordChar hpe
      · rw [sevenNorm_space_nopunct (space_not_sep (by decide)) (by decide)
              (Bool.eq_false_iff.mpr hpe)]
        right
        simp only [List.headD_cons]
        decide
    · have hdns : pyIsSpace d = false := Bool.eq_false_iff.mpr hd
      obtain ⟨X, hX⟩ := sevenNorm_head_cons (normB_of_parts hdns ht)
      rw [hX]
      right
      simpa using hdw

lemma sevenNorm_rolesFixed : ∀ (n : Nat) (l : Str), l.length ≤ n →
    normTail l = true → rolesFixed l = true →
    rolesFixed (sevenNorm l) = true := by
  intro n
  induction n with
  | zero =>
    intro l hl _ _
    cases l with
    | nil => rw [sevenNorm_nil]; exact rolesFixed_nil
    | cons c cs => simp at hl
  | succ n ih =>
    intro l hl ht hRF
    cases l with
    | nil => rw [sevenNorm_nil]; exact rolesFixed_nil
    | cons c cs =>
      have htcs : normTail cs = true := normTail_tail ht
      by_cases hw : isWordChar c = true
      · have hsplit : c :: cs =
            (c :: cs.takeWhile isWordChar) ++ cs.dropWhile isWordChar := by
          rw [List.cons_append, List.takeWhile_append_dropWhile]
        have hrun : ∀ d ∈ c :: cs.takeWhile isWordChar, isWordChar d = true := by
          intro d hd
          rcases List.mem_cons.mp hd with h' | h'
          · subst h'; exact hw
          · exact List.mem_takeWhile_imp h'
        have hdw_nt : normTail (cs.dropWhile isWordChar) = true := by
          refine normTail_drop_front (c :: cs.takeWhile isWordChar) _ ?_
          rw [← hsplit]
          exact ht
        have hdw_hd : cs.dropWhile isWordChar = [] ∨
            isWordChar ((cs.dropWhile isWordChar).headD ' ') = false := by
          cases hdd : cs.dropWhile isWordChar with
          | nil => left; rfl
          | cons d r' =>
            right
            simp only [List.headD_cons]
            exact dropWhile_head_false _ hdd
        rw [show sevenNorm (c :: cs) =
              sevenNorm ((c :: cs.takeWhile isWordChar) ++ cs.dropWhile isWordChar)
            from by rw [← hsplit]]
        rw [sevenNorm_word_run _ _ hrun]
        rw [rolesFixed_run (by simp) hrun (sevenNorm_head_nonword hdw_nt hdw_hd)]
        rw [rolesFixed_word hw, Bool.and_eq_true] at hRF
        rw [drop_takeWhile_eq_dropWhile] at hRF
        rw [Bool.and_eq_true]
        refine ⟨hRF.1, ?_⟩
        refine ih (cs.dropWhile isWordChar) ?_ hdw_nt hRF.2
        have := (List.dropWhile_sublist isWordChar (l := cs)).length_le
        simp only [List.length_cons] at hl
        omega
      · have hw' : isWordChar c = false := Bool.eq_false_iff.mpr hw
        rw [rolesFixed_sep hw'] at hRF
        by_cases hsp : pyIsSpace c = true
        · obtain ⟨hc', e, r2, hr, hens⟩ := normTail_space_shape ht hsp
          subst hc'
          subst hr
          have hlen : (e :: r2).length ≤ n := by
            simp only [List.length_cons] at hl ⊢
            omega
          by_cases hpe : punctTail e = true
          · rw [sevenNorm_space_punct (space_not_sep (by decide)) (by decide) hpe]
            exact ih (e :: r2) hlen htcs hRF
          · rw [sevenNorm_space_nopunct (space_not_sep (by decide)) (by decide)
                  (Bool.eq_false_iff.mpr hpe)]
            rw [rolesFixed_sep (by decide)]
            exact ih (e :: r2) hlen htcs hRF
        · have hcns : pyIsSpace c = false := Bool.eq_false_iff.mpr hsp
          by_cases hsep : c = ',' ∨ c = ';' ∨ c = ':'
          · cases cs with
            | nil =>
              rw [sevenNorm_sep_nil hsep, rolesFixed_sep hw']
              exact rolesFixed_nil
            | cons d r =>
              by_cases hd : pyIsSpace d = true
              · obtain ⟨hd', e, r2, hr, hens⟩ := normTail_space_shape htcs hd
                subst hd'
                subst hr
                have hRF2 : rolesFixed (e :: r2) = true := by
                  rw [rolesFixed_sep (by decide)] at hRF
                  exact hRF
                have hlen : (e :: r2).length ≤ n := by
                  simp only [List.length_cons] at hl ⊢
                  omega
                by_cases hpe : punctTail e = true
                · rw [sevenNorm_sep_sp_punct hsep (by decide) hpe,
                      rolesFixed_sep hw']
                  exact ih (e :: r2) hlen (normTail_tail htcs) hRF2
                · rw [sevenNorm_sep_sp_nopunct hsep (by decide)
                        (Bool.eq_false_iff.mpr hpe),
                      rolesFixed_sep hw', rolesFixed_sep (by decide)]
                  exact ih (e :: r2) hlen (normTail_tail htcs) hRF2
              · have hdns : pyIsSpace d = false := Bool.eq_false_iff.mpr hd
                have hlen : (d :: r).length ≤ n := by
                  simp only [List.length_cons] at hl ⊢
                  omega
                by_cases hpd : punctTail d = true
                · rw [sevenNorm_sep_punct hsep hdns hpd, rolesFixed_sep hw']
                  exact ih (d :: r) hlen htcs hRF
                · rw [sevenNorm_sep_nopunct hsep hdns (Bool.eq_false_iff.mpr hpd),
                      rolesFixed_sep hw', rolesFixed_sep (by decide)]
                  exact ih (d :: r) hlen htcs hRF
          · rw [sevenNorm_other hsep hcns, rolesFixed_sep hw']
            refine ih cs ?_ htcs hRF
            simp only [List.length_cons] at hl
            omega

lemma getLast?_cons_ne {a : Char} {l : Str} (h : l ≠ []) :
    (a :: l).getLast? = l.getLast? := by
  cases l with
  | nil => exact absurd rfl h
  | cons b bs => rw [List.getLast?_cons_cons]

lemma sevenNorm_last : ∀ (n : Nat) (l : Str), l.length ≤ n →
    normTail l = true → l ≠ [] →
    sevenNorm l ≠ [] ∧ (sevenNorm l).getLast? = l.getLast? := by
  intro n
  induction n with
  | zero =>
    intro l hl _ hne
    cases l with
    | nil => exact absurd rfl hne
    | cons c cs => simp at hl
  | succ n ih =>
    intro l hl ht hne
    cases l with
    | nil => exact absurd rfl hne
    | cons c cs =>
      have htcs : normTail cs = true := normTail_tail ht
      by_cases hsp : pyIsSpace c = true
      · obtain ⟨hc', e, r2, hr, hens⟩ := normTail_space_shape ht hsp
        subst hc'
        subst hr
        have hlen : (e :: r2).length ≤ n := by
          simp only [List.length_cons] at hl ⊢
          omega
        obtain ⟨h7ne, h7l⟩ := ih (e :: r2) hlen htcs (by simp)
        by_cases hpe : punctTail e = true
        · rw [sevenNorm_space_punct (space_not_sep (by decide)) (by decide) hpe]
          exact ⟨h7ne, by rw [h7l, getLast?_cons_ne (l := e :: r2) (by simp)]⟩
        · rw [sevenNorm_space_nopunct (space_not_sep (by decide)) (by decide)
                (Bool.eq_false_iff.mpr hpe)]
          refine ⟨by simp, ?_⟩
          rw [getLast?_cons_ne h7ne, h7l, getLast?_cons_ne (l := e :: r2) (by simp)]
      · have hcns : pyIsSpace c = false := Bool.eq_false_iff.mpr hsp
        by_cases hsep : c = ',' ∨ c = ';' ∨ c = ':'
        · cases cs with
          | nil => rw [sevenNorm_sep_nil hsep]; exact ⟨by simp, rfl⟩
          | cons d r =>
            by_cases hd : pyIsSpace d = true
            · obtain ⟨hd', e, r2, hr, hens⟩ := normTail_space_shape htcs hd
              subst hd'
              subst hr
              have hlen : (e :: r2).length ≤ n := by
                simp only [List.length_cons] at hl ⊢
                omega
              obtain ⟨h7ne, h7l⟩ := ih (e :: r2) hlen (normTail_tail htcs) (by simp)
              by_cases hpe : punctTail e = true
              · rw [sevenNorm_sep_sp_punct hsep (by decide) hpe]
                refine ⟨by simp, ?_⟩
                rw [getLast?_cons_ne h7ne, h7l,
                    getLast?_cons_ne (l := ' ' :: e :: r2) (by simp),
                    getLast?_cons_ne (l := e :: r2) (by simp)]
              · rw [sevenNorm_sep_sp_nopunct hsep (by decide)
                      (Bool.eq_false_iff.mpr hpe)]
                refine ⟨by simp, ?_⟩
                rw [getLast?_cons_ne (l := ' ' :: sevenNorm (e :: r2)) (by simp),
                    getLast?_cons_ne h7ne,
                    h7l, getLast?_cons_ne (l := ' ' :: e :: r2) (by simp),
                    getLast?_cons_ne (l := e :: r2) (by simp)]
            · have hdns : pyIsSpace d = false := Bool.eq_false_iff.mpr hd
              have hlen : (d :: r).length ≤ n := by
                simp only [List.length_cons] at hl ⊢
                omega
              obtain ⟨h7ne, h7l⟩ := ih (d :: r) hlen htcs (by simp)
              by_cases hpd : punctTail d = true
              · rw [sevenNorm_sep_punct hsep hdns hpd]
                refine ⟨by simp, ?_⟩
                rw [getLast?_cons_ne h7ne, h7l,
                    getLast?_cons_ne (l := d :: r) (by simp)]
              · rw [sevenNorm_sep_nopunct hsep hdns (Bool.eq_false_iff.mpr hpd)]
                refine ⟨by simp, ?_⟩
                rw [getLast?_cons_ne (l := ' ' :: sevenNorm (d :: r)) (by simp),
                    getLast?_cons_ne h7ne,
                    h7l, getLast?_cons_ne (l := d :: r) (by simp)]
        · rw [sevenNorm_other hsep hcns]
          cases cs with
          | nil => rw [sevenNorm_nil]; exact ⟨by simp, rfl⟩
          | cons d r =>
            have hlen : (d :: r).length ≤ n := by
              simp only [List.length_cons] at hl ⊢
              omega
            obtain ⟨h7ne, h7l⟩ := ih (d :: r) hlen htcs (by simp)
            refine ⟨by simp, ?_⟩
            rw [getLast?_cons_ne h7ne, h7l,
                getLast?_cons_ne (l := d :: r) (by simp)]

/-- True iff steps 7a and 7b (followed by the final strip) change nothing:
each `,;:` is followed by a space and a non-punctuation character, by tail
punctuation, or ends the text, and no whitespace precedes tail punctuation. -/
def tailOk : Str → Bool
  | [] => true
  | [_] => true
  | a :: b :: r =>
      (if a = ',' ∨ a = ';' ∨ a = ':' then
        (if pyIsSpace b then
          ((b = ' ' : Bool)) &&
            (match r with
             | [] => false
             | e :: _ => !(pyIsSpace e) && !(punctTail e))
         else punctTail b)
       else if pyIsSpace a then !(punctTail b)
       else true) && tailOk (b :: r)

lemma tailOk_nil : tailOk [] = true := rfl

lemma tailOk_single (a : Char) : tailOk [a] = true := rfl

lemma tailOk_cons2 (a b : Char) (r : Str) :
    tailOk (a :: b :: r) =
      ((if a = ',' ∨ a = ';' ∨ a = ':' then
        (if pyIsSpace b then
          ((b = ' ' : Bool)) &&
            (match r with
             | [] => false
             | e :: _ => !(pyIsSpace e) && !(punctTail e))
         else punctTail b)
       else if pyIsSpace a then !(punctTail b)
       else true) && tailOk (b :: r)) := rfl

lemma tailOk_tail {a : Char} {l : Str} (h : tailOk (a :: l) = true) :
    tailOk l = true := by
  cases l with
  | nil => rfl
  | cons b r =>
    rw [tailOk_cons2, Bool.and_eq_true] at h
    exact h.2

lemma sevenNorm_tailOk : ∀ (n : Nat) (l : Str), l.length ≤ n →
    normTail l = true → tailOk (sevenNorm l) = true := by
  intro n
  induction n with
  | zero =>
    intro l hl _
    cases l with
    | nil => rw [sevenNorm_nil]; rfl
    | cons c cs => simp at hl
  | succ n ih =>
    intro l hl ht
    cases l with
    | nil => rw [sevenNorm_nil]; rfl
    | cons c cs =>
      have htcs : normTail cs = true := normTail_tail ht
      by_cases hsp : pyIsSpace c = true
      · obtain ⟨hc', e, r2, hr, hens⟩ := normTail_space_shape ht hsp
        subst hc'
        subst hr
        have hlen : (e :: r2).length ≤ n := by
          simp only [List.length_cons] at hl ⊢
          omega
        obtain ⟨X, hX⟩ := sevenNorm_head_cons (normB_of_parts hens htcs)
        by_cases hpe : punctTail e = true
        · rw [sevenNorm_space_punct (space_not_sep (by decide)) (by decide) hpe]
          exact ih (e :: r2) hlen htcs
        · rw [sevenNorm_space_nopunct (space_not_sep (by decide)) (by decide)
                (Bool.eq_false_iff.mpr hpe)]
          rw [hX, tailOk_cons2, Bool.and_eq_true]
          constructor
          · rw [if_neg (space_not_sep (by decide)), if_pos (by decide)]
            simp [Bool.eq_false_iff.mpr hpe]
          · rw [← hX]
            exact ih (e :: r2) hlen htcs
      · have hcns : pyIsSpace c = false := Bool.eq_false_iff.mpr hsp
        by_cases hsep : c = ',' ∨ c = ';' ∨ c = ':'
        · cases cs with
          | nil => rw [sevenNorm_sep_nil hsep]; exact tailOk_single c
          | cons d r =>
            by_cases hd : pyIsSpace d = true
            · obtain ⟨hd', e, r2, hr, hens⟩ := normTail_space_shape htcs hd
              subst hd'
              subst hr
              have hlen : (e :: r2).length ≤ n := by
                simp only [List.length_cons] at hl ⊢
                omega
              obtain ⟨X, hX⟩ :=
                sevenNorm_head_cons (normB_of_parts hens (normTail_tail htcs))
              by_cases hpe : punctTail e = true
              · rw [sevenNorm_sep_sp_punct hsep (by decide) hpe]
                rw [hX, tailOk_cons2, Bool.and_eq_true]
                constructor
                · rw [if_pos hsep, if_neg (by simp [hens])]
                  exact hpe
                · rw [← hX]
                  exact ih (e :: r2) hlen (normTail_tail htcs)
              · rw [sevenNorm_sep_sp_nopunct hsep (by decide)
                      (Bool.eq_false_iff.mpr hpe)]
                rw [hX, tailOk_cons2, Bool.and_eq_true]
                constructor
                · rw [if_pos hsep, if_pos (by decide)]
                  simp [hens, Bool.eq_false_iff.mpr hpe]
                · rw [tailOk_cons2, Bool.and_eq_true]
                  constructor
                  · rw [if_neg (space_not_sep (by decide)), if_pos (by decide)]
                    simp [Bool.eq_false_iff.mpr hpe]
                  · rw [← hX]
                    exact ih (e :: r2) hlen (normTail_tail htcs)
            · have hdns : pyIsSpace d = false := Bool.eq_false_iff.mpr hd
              have hlen : (d :: r).length ≤ n := by
                simp only [List.length_cons] at hl ⊢
                omega
              obtain ⟨X, hX⟩ := sevenNorm_head_cons (normB_of_parts hdns htcs)
              by_cases hpd : punctTail d = true
              · rw [sevenNorm_sep_punct hsep hdns hpd]
                rw [hX, tailOk_cons2, Bool.and_eq_true]
                constructor
                · rw [if_pos hsep, if_neg (by simp [hdns])]
                  exact hpd
                · rw [← hX]
                  exact ih (d :: r) hlen htcs
              · rw [sevenNorm_sep_nopunct hsep hdns (Bool.eq_false_iff.mpr hpd)]
                rw [hX, tailOk_cons2, Bool.and_eq_true]
                constructor
                · rw [if_pos hsep, if_pos (by decide)]
                  simp [hdns, Bool.eq_false_iff.mpr hpd]
                · rw [tailOk_cons2, Bool.and_eq_true]
                  constructor
                  · rw [if_neg (space_not_sep (by decide)), if_pos (by decide)]
                    simp [Bool.eq_false_iff.mpr hpd]
                  · rw [← hX]
                    exact ih (d :: r) hlen htcs
        · rw [sevenNorm_other hsep hcns]
          cases cs with
          | nil => rw [sevenNorm_nil]; exact tailOk_single c
          | cons d r =>
            have hlen : (d :: r).length ≤ n := by
              simp only [List.length_cons] at hl ⊢
              omega
            obtain ⟨h7ne, _⟩ :=
              sevenNorm_last (d :: r).length (d :: r) le_rfl htcs (by simp)
            cases h7 : sevenNorm (d :: r) with
            | nil => exact absurd h7 h7ne
            | cons y Y =>
              rw [tailOk_cons2, Bool.and_eq_true]
              constructor
              · rw [if_neg hsep, if_neg (by simp [hcns])]
              · rw [← h7]
                exact ih (d :: r) hlen htcs

lemma sevenNorm_fixed : ∀ (n : Nat) (l : Str), l.length ≤ n →
    normTail l = true → tailOk l = true → sevenNorm l = l := by
  intro n
  induction n with
  | zero =>
    intro l hl _ _
    cases l with
    | nil => exact sevenNorm_nil
    | cons c cs => simp at hl
  | succ n ih =>
    intro l hl ht htok
    cases l with
    | nil => exact sevenNorm_nil
    | cons c cs =>
      have htcs : normTail cs = true := normTail_tail ht
      by_cases hsp : pyIsSpace c = true
      · obtain ⟨hc', e, r2, hr, hens⟩ := normTail_space_shape ht hsp
        subst hc'
        subst hr
        rw [tailOk_cons2, Bool.and_eq_true] at htok
        obtain ⟨hcond, htail⟩ := htok
        rw [if_neg (space_not_sep (by decide)), if_pos (by decide)] at hcond
        have hpe : punctTail e = false := by simpa using hcond
        have hlen : (e :: r2).length ≤ n := by
          simp only [List.length_cons] at hl ⊢
          omega
        rw [sevenNorm_space_nopunct (space_not_sep (by decide)) (by decide) hpe]
        rw [ih (e :: r2) hlen htcs htail]
      · have hcns : pyIsSpace c = false := Bool.eq_false_iff.mpr hsp
        by_cases hsep : c = ',' ∨ c = ';' ∨ c = ':'
        · cases cs with
          | nil => exact sevenNorm_sep_nil hsep
          | cons d r =>
            rw [tailOk_cons2, Bool.and_eq_true] at htok
            obtain ⟨hcond, htail⟩ := htok
            rw [if_pos hsep] at hcond
            by_cases hd : pyIsSpace d = true
            · obtain ⟨hd', e, r2, hr, hens⟩ := normTail_space_shape htcs hd
              subst hd'
              subst hr
              rw [if_pos (by decide)] at hcond
              simp only [Bool.and_eq_true, Bool.not_eq_eq_eq_not,
                Bool.not_true] at hcond
              have hpe : punctTail e = false := hcond.2.2
              have hlen : (e :: r2).length ≤ n := by
                simp only [List.length_cons] at hl ⊢
                omega
              rw [sevenNorm_sep_sp_nopunct hsep (by decide) hpe]
              rw [ih (e :: r2) hlen (normTail_tail htcs) (tailOk_tail htail)]
            · have hdns : pyIsSpace d = false := Bool.eq_false_iff.mpr hd
              rw [if_neg (by simp [hdns])] at hcond
              have hlen : (d :: r).length ≤ n := by
                simp only [List.length_cons] at hl ⊢
                omega
              rw [sevenNorm_sep_punct hsep hdns hcond]
              rw [ih (d :: r) hlen htcs htail]
        · rw [sevenNorm_other hsep hcns]
          have hlen : cs.length ≤ n := by
            simp only [List.length_cons] at hl
            omega
          rw [ih cs hlen htcs (tailOk_tail htok)]

lemma splitGo_first : ∀ (l acc : Str), acc ≠ [] →
    (splitGo l acc).headD [] =
      acc.reverse ++ l.takeWhile (fun c => !(pyIsSpace c)) := by
  intro l
  induction l with
  | nil =>
    intro acc hacc
    simp [splitGo, hacc]
  | cons c cs ih =>
    intro acc hacc
    by_cases hc : pyIsSpace c = true
    · rw [show splitGo (c :: cs) acc = acc.reverse :: splitGo cs [] by
            simp [splitGo, hc, hacc]]
      rw [List.takeWhile_cons_of_neg (by simp [hc])]
      simp
    · rw [show splitGo (c :: cs) acc = splitGo cs (c :: acc) by simp [splitGo, hc]]
      rw [ih (c :: acc) (by simp)]
      rw [List.takeWhile_cons_of_pos (by simp [hc])]
      simp

lemma pySplit_headD {c : Char} {cs : Str} (h : pyIsSpace c = false) :
    (pySplit (c :: cs)).headD [] =
      (c :: cs).takeWhile (fun c => !(pyIsSpace c)) := by
  unfold pySplit
  rw [show splitGo (c :: cs) [] = splitGo cs [c] by simp [splitGo, h]]
  rw [splitGo_first cs [c] (by simp)]
  rw [List.takeWhile_cons_of_pos (by simp [h])]
  rfl

lemma sevenNorm_firstWord : ∀ (n : Nat) (l : Str), l.length ≤ n →
    normTail l = true →
    (sevenNorm l).takeWhile (fun c => !(pyIsSpace c)) =
        l.takeWhile (fun c => !(pyIsSpace c)) ∨
      ∃ c ∈ (sevenNorm l).takeWhile (fun c => !(pyIsSpace c)),
        punctTail c = true := by
  intro n
  induction n with
  | zero =>
    intro l hl _
    cases l with
    | nil => left; rw [sevenNorm_nil]
    | cons c cs => simp at hl
  | succ n ih =>
    intro l hl ht
    cases l with
    | nil => left; rw [sevenNorm_nil]
    | cons c cs =>
      have htcs : normTail cs = true := normTail_tail ht
      by_cases hsp : pyIsSpace c = true
      · obtain ⟨hc', e, r2, hr, hens⟩ := normTail_space_shape ht hsp
        subst hc'
        subst hr
        by_cases hpe : punctTail e = true
        · rw [sevenNorm_space_punct (space_not_sep (by decide)) (by decide) hpe]
          obtain ⟨X, hX⟩ := sevenNorm_head_cons (normB_of_parts hens htcs)
          right
          rw [hX, List.takeWhile_cons_of_pos (by simp [hens])]
          exact ⟨e, List.mem_cons_self e _, hpe⟩
        · rw [sevenNorm_space_nopunct (space_not_sep (by decide)) (by decide)
                (Bool.eq_false_iff.mpr hpe)]
          left
          rw [List.takeWhile_cons_of_neg (by decide),
              List.takeWhile_cons_of_neg (by decide)]
      · have hcns : pyIsSpace c = false := Bool.eq_false_iff.mpr hsp
        by_cases hsep : c = ',' ∨ c = ';' ∨ c = ':'
        · obtain ⟨X, hX⟩ := sevenNorm_head_cons (normB_of_parts hcns ht)
          right
          rw [hX, List.takeWhile_cons_of_pos (by simp [hcns])]
          exact ⟨c, List.mem_cons_self c _, sep_punctTail hsep⟩
        · rw [sevenNorm_other hsep hcns]
          rw [List.takeWhile_cons_of_pos (by simp [hcns]),
              List.takeWhile_cons_of_pos (by simp [hcns])]
          have hlen : cs.length ≤ n := by
            simp only [List.length_cons] at hl
            omega
          rcases ih cs hlen htcs with h | ⟨c', hc', hp'⟩
          · left; rw [h]
          · right
            exact ⟨c', List.mem_cons_of_mem c hc', hp'⟩

/-- Pointwise relation preserving step-1 normality: equal characters or both
non-whitespace (capitalization changes letters only). -/
def chR (a b : Char) : Prop :=
  a = b ∨ (pyIsSpace a = false ∧ pyIsSpace b = false)

lemma chR_space {a b : Char} (h : chR a b) : pyIsSpace a = pyIsSpace b := by
  rcases h with h | ⟨h1, h2⟩
  · rw [h]
  · rw [h1, h2]

lemma chR_refl (l : Str) : List.Forall₂ chR l l := by
  induction l with
  | nil => exact List.Forall₂.nil
  | cons c cs ih => exact List.Forall₂.cons (Or.inl rfl) ih

lemma normTail_congr : ∀ {x y : Str}, List.Forall₂ chR x y →
    normTail x = normTail y := by
  intro x y h
  induction h with
  | nil => rfl
  | cons hab htail ih =>
    rename_i a b as bs
    rw [normTail_cons, normTail_cons, ih]
    congr 1
    by_cases hsa : pyIsSpace a = true
    · have hsb : pyIsSpace b = true := by rw [← chR_space hab]; exact hsa
      have hab' : a = b := by
        rcases hab with h' | ⟨h1, _⟩
        · exact h'
        · rw [hsa] at h1; exact absurd h1 (by simp)
      rw [if_pos hsa, if_pos hsb, hab']
      congr 1
      cases htail with
      | nil => rfl
      | cons hcd _ =>
        simp only
        rw [chR_space hcd]
    · have hsb : ¬(pyIsSpace b = true) := by rw [← chR_space hab]; exact hsa
      rw [if_neg hsa, if_neg hsb]

lemma normB_congr : ∀ {x y : Str}, List.Forall₂ chR x y → normB x = normB y := by
  intro x y h
  unfold normB
  rw [normTail_congr h]
  congr 1
  cases h with
  | nil => rfl
  | cons hab _ =>
    simp only
    rw [chR_space hab]

lemma capGo_chR : ∀ (l : Str) (s : Nat),
    List.Forall₂ chR l (capAfterPunctGo l s) := by
  intro l
  induction l with
  | nil => intro s; exact List.Forall₂.nil
  | cons c cs ih =>
    intro s
    rw [capGo_cons]
    by_cases hc : s = 2 ∧ lowerClassChar c = true
    · rw [if_pos hc]
      exact List.Forall₂.cons
        (Or.inr ⟨classChar_not_space hc.2, classChar_upper_not_space hc.2⟩) (ih 0)
    · rw [if_neg hc]
      exact List.Forall₂.cons (Or.inl rfl) (ih _)

lemma forall₂_chR_of_nospace : ∀ {x y : Str}, x.length = y.length →
    (∀ a ∈ x, pyIsSpace a = false) → (∀ b ∈ y, pyIsSpace b = false) →
    List.Forall₂ chR x y := by
  intro x
  induction x with
  | nil =>
    intro y h _ _
    cases y with
    | nil => exact List.Forall₂.nil
    | cons b bs => simp at h
  | cons a as ih =>
    intro y h hx hy
    cases y with
    | nil => simp at h
    | cons b bs =>
      refine List.Forall₂.cons
        (Or.inr ⟨hx a (List.mem_cons_self a as), hy b (List.mem_cons_self b bs)⟩)
        (ih ?_ ?_ ?_)
      · simpa using h
      · intro a' ha'; exact hx a' (List.mem_cons_of_mem a ha')
      · intro b' hb'; exact hy b' (List.mem_cons_of_mem b hb')

lemma forall₂_chR_append : ∀ {x1 y1 x2 y2 : Str}, List.Forall₂ chR x1 y1 →
    List.Forall₂ chR x2 y2 → List.Forall₂ chR (x1 ++ x2) (y1 ++ y2) := by
  intro x1 y1 x2 y2 h1 h2
  induction h1 with
  | nil => exact h2
  | cons hab _ ih => exact List.Forall₂.cons hab ih

lemma roles_chR : ∀ (n : Nat) (l : Str), l.length ≤ n →
    List.Forall₂ chR l (capitalizeRoles l) := by
  intro n
  induction n with
  | zero =>
    intro l hl
    cases l with
    | nil => rw [capitalizeRoles_nil]; exact List.Forall₂.nil
    | cons c cs => simp at hl
  | succ n ih =>
    intro l hl
    cases l with
    | nil => rw [capitalizeRoles_nil]; exact List.Forall₂.nil
    | cons c cs =>
      by_cases hw : isWordChar c = true
      · have hsplit : c :: cs =
            (c :: cs.takeWhile isWordChar) ++ cs.dropWhile isWordChar := by
          rw [List.cons_append, List.takeWhile_append_dropWhile]
        have hrun : ∀ d ∈ c :: cs.takeWhile isWordChar, isWordChar d = true := by
          intro d hd
          rcases List.mem_cons.mp hd with h' | h'
          · subst h'; exact hw
          · exact List.mem_takeWhile_imp h'
        rw [capitalizeRoles_word hw, drop_takeWhile_eq_dropWhile]
        rw [show (c :: cs : Str) = (c :: cs.takeWhile isWordChar) ++
              cs.dropWhile isWordChar from hsplit]
        refine forall₂_chR_append ?_ ?_
        · refine forall₂_chR_of_nospace (roleReplace_length _).symm ?_ ?_
          · intro a ha; exact wordChar_not_space (hrun a ha)
          · intro b hb; exact wordChar_not_space (roleReplace_words hrun b hb)
        · refine ih (cs.dropWhile isWordChar) ?_
          have := (List.dropWhile_sublist isWordChar (l := cs)).length_le
          simp only [List.length_cons] at hl
          omega
      · have hw' : isWordChar c = false := Bool.eq_false_iff.mpr hw
        rw [capitalizeRoles_sep hw']
        refine List.Forall₂.cons (Or.inl rfl) (ih cs ?_)
        simp only [List.length_cons] at hl
        omega

lemma roleReplace_headD {r : Str} (hup : pyToUpper (r.headD ' ') = r.headD ' ') :
    pyToUpper ((roleReplace r).headD ' ') = (roleReplace r).headD ' ' := by
  unfold roleReplace
  cases hf : CAPITALIZE_WORDS.find? (fun p => pyLower r == p.1) with
  | none => exact hup
  | some p =>
    have := all_mem (l := CAPITALIZE_WORDS)
      (p := fun q => pyToUpper (q.2.headD ' ') == q.2.headD ' ') (by decide)
      (List.mem_of_find?_eq_some hf)
    simpa using this

lemma capRoles_headD : ∀ {l : Str},
    pyToUpper (l.headD ' ') = l.headD ' ' →
    pyToUpper ((capitalizeRoles l).headD ' ') = (capitalizeRoles l).headD ' ' := by
  intro l hup
  cases l with
  | nil => rw [capitalizeRoles_nil]; exact hup
  | cons c cs =>
    by_cases hw : isWordChar c = true
    · rw [capitalizeRoles_word hw]
      have hh := roleReplace_headD (r := c :: cs.takeWhile isWordChar)
        (by simpa using hup)
      cases hr : roleReplace (c :: cs.takeWhile isWordChar) with
      | nil => exact absurd hr (roleReplace_ne_nil (by simp))
      | cons v V =>
        rw [hr] at hh
        simpa using hh
    · rw [capitalizeRoles_sep (Bool.eq_false_iff.mpr hw)]
      exact hup

lemma roleReplace_head_not_class {r : Str} {s : Nat}
    (h : ¬(s = 2 ∧ lowerClassChar (r.headD ' ') = true)) :
    ¬(s = 2 ∧ lowerClassChar ((roleReplace r).headD ' ') = true) := by
  unfold roleReplace
  cases hf : CAPITALIZE_WORDS.find? (fun p => pyLower r == p.1) with
  | none => exact h
  | some p =>
    intro hcon
    have := all_mem (l := CAPITALIZE_WORDS)
      (p := fun q => !(lowerClassChar (q.2.headD ' '))) (by decide)
      (List.mem_of_find?_eq_some hf)
    simp only [Bool.not_eq_eq_eq_not, Bool.not_true] at this
    rw [this] at hcon
    exact Bool.false_ne_true hcon.2

lemma roles_noCapPat : ∀ (n : Nat) (l : Str), l.length ≤ n → ∀ s,
    noCapPat l s = true → noCapPat (capitalizeRoles l) s = true := by
  intro n
  induction n with
  | zero =>
    intro l hl s _
    cases l with
    | nil => rw [capitalizeRoles_nil]; rfl
    | cons c cs => simp at hl
  | succ n ih =>
    intro l hl s hpat
    cases l with
    | nil => rw [capitalizeRoles_nil]; rfl
    | cons c cs =>
      by_cases hw : isWordChar c = true
      · have hsplit : c :: cs =
            (c :: cs.takeWhile isWordChar) ++ cs.dropWhile isWordChar := by
          rw [List.cons_append, List.takeWhile_append_dropWhile]
        have hrun : ∀ d ∈ c :: cs.takeWhile isWordChar, isWordChar d = true := by
          intro d hd
          rcases List.mem_cons.mp hd with h' | h'
          · subst h'; exact hw
          · exact List.mem_takeWhile_imp h'
        rw [hsplit, noCapPat_append, Bool.and_eq_true] at hpat
        obtain ⟨h1, h2⟩ := hpat
        rw [capStateAfter_run hrun s] at h2
        rw [capitalizeRoles_word hw, drop_takeWhile_eq_dropWhile]
        rw [noCapPat_append, Bool.and_eq_true]
        constructor
        · have hcond := (noCapPat_cons_elim h1).1
          have hcond' := roleReplace_head_not_class
            (r := c :: cs.takeWhile isWordChar) (by simpa using hcond)
          cases hv : roleReplace (c :: cs.takeWhile isWordChar) with
          | nil => exact absurd hv (roleReplace_ne_nil (by simp))
          | cons v V =>
            rw [hv] at hcond'
            refine noCapPat_run ?_ s (by simpa using hcond')
            intro d hd
            rw [← hv] at hd
            exact roleReplace_words hrun d hd
        · cases hv : roleReplace (c :: cs.takeWhile isWordChar) with
          | nil => exact absurd hv (roleReplace_ne_nil (by simp))
          | cons v V =>
            have hVw : ∀ d ∈ v :: V, isWordChar d = true := by
              intro d hd
              rw [← hv] at hd
              exact roleReplace_words hrun d hd
            rw [capStateAfter_run hVw s]
            refine ih (cs.dropWhile isWordChar) ?_ 0 h2
            have := (List.dropWhile_sublist isWordChar (l := cs)).length_le
            simp only [List.length_cons] at hl
            omega
      · have hw' : isWordChar c = false := Bool.eq_false_iff.mpr hw
        rw [capitalizeRoles_sep hw']
        obtain ⟨hcond, hrest⟩ := noCapPat_cons_elim hpat
        refine noCapPat_cons_intro hcond ?_
        refine ih cs ?_ _ hrest
        simp only [List.length_cons] at hl
        omega

lemma punctTail_lower_fixed {c : Char} (h : punctTail c = true) :
    pyToLower c = c := by
  rcases punctTail_cases h with h'|h'|h'|h'|h'|h' <;> subst h' <;> decide

lemma getLastD_cons_ne {a : Char} {l : Str} (h : l ≠ []) :
    (a :: l).getLastD ' ' = l.getLastD ' ' := by
  rw [List.getLastD_eq_getLast?, List.getLastD_eq_getLast?, getLast?_cons_ne h]

lemma cleanTranscript_nil : cleanTranscript [] = [] := by
  unfold cleanTranscript
  rw [if_pos rfl]

lemma cleanTranscript_eq {t : Str} (h : t ≠ []) :
    cleanTranscript t =
      pyStrip (punctSpaceB (punctSpaceA
        (addExclamationMark (addQuestionMark (capitalizeRoles (capAfterPunct
          (match sjoin (pySplit t) with
           | [] => ([] : Str)
           | c :: cs => pyToUpper c :: cs))))))) := by
  unfold cleanTranscript
  rw [if_neg h]

lemma addQuestionMark_cases (l : Str) :
    addQuestionMark l = l ∨ addQuestionMark l = '¿' :: l := by
  unfold addQuestionMark
  by_cases h1 : l.getLastD ' ' = '?' ∧ l.headD ' ' ≠ '¿'
  · rw [if_pos h1]
    by_cases h2 : pyLower ((pySplit l).headD []) ∈ QUESTION_WORDS
    · rw [if_pos h2]; right; rfl
    · rw [if_neg h2]; left; rfl
  · rw [if_neg h1]; left; rfl

lemma addExclamationMark_cases (l : Str) :
    addExclamationMark l = l ∨ addExclamationMark l = '¡' :: l := by
  unfold addExclamationMark
  by_cases h1 : l.getLastD ' ' = '!' ∧ l.headD ' ' ≠ '¡'
  · rw [if_pos h1]; right; rfl
  · rw [if_neg h1]; left; rfl

lemma clean_pipeline_invariants (u u3 u4 u5 u6 y : Str)
    (hB : normB u = true) (hhd : pyToUpper (u.headD ' ') = u.headD ' ')
    (h3 : u3 = capAfterPunct u) (h4 : u4 = capitalizeRoles u3)
    (h5 : u5 = addQuestionMark u4) (h6 : u6 = addExclamationMark u5)
    (hy : y = pyStrip (punctSpaceB (punctSpaceA u6))) :
    normB y = true ∧ pyToUpper (y.headD ' ') = y.headD ' ' ∧
    noCapPat y 0 = true ∧ rolesFixed y = true ∧ tailOk y = true ∧
    addQuestionMark y = y ∧ addExclamationMark y = y := by
  have hB3 : normB u3 = true := by
    rw [h3]
    show normB (capAfterPunctGo u 0) = true
    rw [← normB_congr (capGo_chR u 0)]
    exact hB
  have hB4 : normB u4 = true := by
    rw [h4]
    rw [← normB_congr (roles_chR u3.length u3 le_rfl)]
    exact hB3
  have hB5 : normB u5 = true := by
    rcases addQuestionMark_cases u4 with h | h
    · rw [h5, h]; exact hB4
    · rw [h5, h]; exact normB_cons (by decide) hB4
  have hB6 : normB u6 = true := by
    rcases addExclamationMark_cases u5 with h | h
    · rw [h6, h]; exact hB5
    · rw [h6, h]; exact normB_cons (by decide) hB5
  have hy7 : y = sevenNorm u6 := by
    rw [hy]
    exact stripBA_eq_sevenNorm hB6
  have hBy : normB y = true := by
    rw [hy7]
    exact sevenNorm_normB u6.length u6 le_rfl hB6
  by_cases hy0 : y = []
  · subst hy0
    refine ⟨rfl, by decide, rfl, rolesFixed_nil, rfl, by decide, by decide⟩
  · have hu6ne : u6 ≠ [] := by
      intro h6e
      apply hy0
      rw [hy7, h6e, sevenNorm_nil]
    -- head transfers
    have hh3 : pyToUpper (u3.headD ' ') = u3.headD ' ' := by
      cases hu : u with
      | nil => rw [h3, hu]; decide
      | cons a as =>
        rw [h3, hu]
        show pyToUpper ((capAfterPunctGo (a :: as) 0).headD ' ') = _
        rw [capGo_cons, if_neg (by simp)]
        simp only [List.headD_cons]
        rw [hu] at hhd
        simpa using hhd
    have hh4 : pyToUpper (u4.headD ' ') = u4.headD ' ' := by
      rw [h4]
      exact capRoles_headD hh3
    have hh5 : pyToUpper (u5.headD ' ') = u5.headD ' ' := by
      rcases addQuestionMark_cases u4 with h | h
      · rw [h5, h]; exact hh4
      · rw [h5, h]
        simp only [List.headD_cons]
        decide
    have hh6 : pyToUpper (u6.headD ' ') = u6.headD ' ' := by
      rcases addExclamationMark_cases u5 with h | h
      · rw [h6, h]; exact hh5
      · rw [h6, h]
        simp only [List.headD_cons]
        decide
    have hyhead : y.headD ' ' = u6.headD ' ' := by
      cases h6c : u6 with
      | nil => exact absurd h6c hu6ne
      | cons v V =>
        obtain ⟨X, hX⟩ := sevenNorm_head_cons (h6c ▸ hB6)
        rw [hy7, h6c, hX]
        rfl
    have hhy : pyToUpper (y.headD ' ') = y.headD ' ' := by
      rw [hyhead]
      exact hh6
    -- noCapPat chain
    have hc3 : noCapPat u3 0 = true := by
      rw [h3]
      exact noCapPat_capGo u 0
    have hc4 : noCapPat u4 0 = true := by
      rw [h4]
      exact roles_noCapPat u3.length u3 le_rfl 0 hc3
    have hc5 : noCapPat u5 0 = true := by
      rcases addQuestionMark_cases u4 with h | h
      · rw [h5, h]; exact hc4
      · rw [h5, h]
        refine noCapPat_cons_intro (by simp) ?_
        rw [show capNext '¿' 0 = 0 from rfl]
        exact hc4
    have hc6 : noCapPat u6 0 = true := by
      rcases addExclamationMark_cases u5 with h | h
      · rw [h6, h]; exact hc5
      · rw [h6, h]
        refine noCapPat_cons_intro (by simp) ?_
        rw [show capNext '¡' 0 = 0 from rfl]
        exact hc5
    have hcy : noCapPat y 0 = true := by
      rw [hy7]
      exact sevenNorm_noCapPat u6.length u6 le_rfl hB6 0 hc6
    -- rolesFixed chain
    have hr4 : rolesFixed u4 = true := by
      rw [h4]
      exact rolesFixed_capRoles u3
    have hr5 : rolesFixed u5 = true := by
      rcases addQuestionMark_cases u4 with h | h
      · rw [h5, h]; exact hr4
      · rw [h5, h, rolesFixed_sep (by decide)]; exact hr4
    have hr6 : rolesFixed u6 = true := by
      rcases addExclamationMark_cases u5 with h | h
      · rw [h6, h]; exact hr5
      · rw [h6, h, rolesFixed_sep (by decide)]; exact hr5
    have hry : rolesFixed y = true := by
      rw [hy7]
      exact sevenNorm_rolesFixed u6.length u6 le_rfl (normB_tail' hB6) hr6
    -- tailOk
    have hty : tailOk y = true := by
      rw [hy7]
      exact sevenNorm_tailOk u6.length u6 le_rfl (normB_tail' hB6)
    -- last transfer
    have hylast : y.getLastD ' ' = u6.getLastD ' ' := by
      rw [List.getLastD_eq_getLast?, List.getLastD_eq_getLast?, hy7]
      rw [(sevenNorm_last u6.length u6 le_rfl (normB_tail' hB6) hu6ne).2]
    -- question mark fixed
    have hqy : addQuestionMark y = y := by
      unfold addQuestionMark
      by_cases hcon : y.getLastD ' ' = '?' ∧ y.headD ' ' ≠ '¿'
      · rw [if_pos hcon]
        have h6last : u6.getLastD ' ' = '?' := by
          rw [← hylast]
          exact hcon.1
        have h65 : u6 = u5 := by
          rw [h6]
          unfold addExclamationMark
          by_cases hx5 : u5.getLastD ' ' = '!' ∧ u5.headD ' ' ≠ '¡'
          · exfalso
            have hu5ne : u5 ≠ [] := by
              intro h5e
              rw [h5e] at hx5
              exact absurd hx5.1 (by decide)
            rw [h6] at h6last
            unfold addExclamationMark at h6last
            rw [if_pos hx5] at h6last
            rw [getLastD_cons_ne hu5ne] at h6last
            rw [h6last] at hx5
            exact absurd hx5.1 (by decide)
          · rw [if_neg hx5]
        have h5last : u5.getLastD ' ' = '?' := by
          rw [← h65]
          exact h6last
        have h54 := h5
        unfold addQuestionMark at h54
        by_cases hq4 : u4.getLastD ' ' = '?' ∧ u4.headD ' ' ≠ '¿'
        · rw [if_pos hq4] at h54
          by_cases hqw : pyLower ((pySplit u4).headD []) ∈ QUESTION_WORDS
          · exfalso
            rw [if_pos hqw] at h54
            apply hcon.2
            rw [hyhead, h65, h54]
            rfl
          · rw [if_neg hqw] at h54
            rw [if_neg ?_]
            intro hmem
            have hy74 : y = sevenNorm u4 := by
              rw [hy7, h65, h54]
            have hu4ne : u4 ≠ [] := by
              intro h4e
              apply hy0
              rw [hy74, h4e, sevenNorm_nil]
            obtain ⟨c4, cs4, h4c⟩ : ∃ c cs, u4 = c :: cs := by
              cases h4c : u4 with
              | nil => exact absurd h4c hu4ne
              | cons c cs => exact ⟨c, cs, rfl⟩
            obtain ⟨cy, csy, hyc⟩ : ∃ c cs, y = c :: cs := by
              cases hyc : y with
              | nil => exact absurd hyc hy0
              | cons c cs => exact ⟨c, cs, rfl⟩
            have hfw_y : (pySplit y).headD [] =
                y.takeWhile (fun c => !(pyIsSpace c)) := by
              rw [hyc]
              exact pySplit_headD (normB_head (hyc ▸ hBy))
            rcases sevenNorm_firstWord u4.length u4 le_rfl (normB_tail' hB4)
              with hfw | ⟨c', hc', hp'⟩
            · apply hqw
              rw [hfw_y, hy74, hfw] at hmem
              have hfw_4 : (pySplit u4).headD [] =
                  u4.takeWhile (fun c => !(pyIsSpace c)) := by
                rw [h4c]
                exact pySplit_headD (normB_head (h4c ▸ hB4))
              rw [hfw_4]
              exact hmem
            · rw [hfw_y, hy74] at hmem
              have hc'' : pyToLower c' ∈ pyLower
                  ((sevenNorm u4).takeWhile (fun c => !(pyIsSpace c))) :=
                List.mem_map_of_mem pyToLower hc'
              rw [punctTail_lower_fixed hp'] at hc''
              have hnp := all_mem (l := QUESTION_WORDS)
                (p := fun w => w.all (fun ch => !(punctTail ch))) (by decide) hmem
              have hcontra := all_mem hnp hc''
              rw [hp'] at hcontra
              exact absurd hcontra (by simp)
        · exfalso
          rw [if_neg hq4] at h54
          apply hcon.2
          have h4last : u4.getLastD ' ' = '?' := by
            rw [← h54]
            exact h5last
          have hhd4 : u4.headD ' ' = '¿' := by
            by_contra hne4
            exact hq4 ⟨h4last, hne4⟩
          rw [hyhead, h65, h54, hhd4]
      · rw [if_neg hcon]
    -- exclamation mark fixed
    have hxy : addExclamationMark y = y := by
      unfold addExclamationMark
      by_cases hcon : y.getLastD ' ' = '!' ∧ y.headD ' ' ≠ '¡'
      · exfalso
        have h6last : u6.getLastD ' ' = '!' := by
          rw [← hylast]
          exact hcon.1
        have h66 := h6
        unfold addExclamationMark at h66
        by_cases hx5 : u5.getLastD ' ' = '!' ∧ u5.headD ' ' ≠ '¡'
        · rw [if_pos hx5] at h66
          apply hcon.2
          rw [hyhead, h66]
          rfl
        · rw [if_neg hx5] at h66
          apply hcon.2
          have h5last : u5.getLastD ' ' = '!' := by
            rw [← h66]
            exact h6last
          have h5hd : u5.headD ' ' = '¡' := by
            by_contra hne5
            exact hx5 ⟨h5last, hne5⟩
          rw [hyhead, h66, h5hd]
      · rw [if_neg hcon]
    exact ⟨hBy, hhy, hcy, hry, hty, hqy, hxy⟩

lemma clean_fixed {y : Str} (hB : normB y = true)
    (hhd : pyToUpper (y.headD ' ') = y.headD ' ')
    (hcap : noCapPat y 0 = true) (hrol : rolesFixed y = true)
    (htok : tailOk y = true) (hq : addQuestionMark y = y)
    (hx : addExclamationMark y = y) (hne : y ≠ []) :
    cleanTranscript y = y := by
  rw [cleanTranscript_eq hne]
  rw [sjoin_pySplit_fix hB]
  obtain ⟨c, cs, rfl⟩ : ∃ c cs, y = c :: cs := by
    cases hyc : y with
    | nil => exact absurd hyc hne
    | cons c cs => exact ⟨c, cs, rfl⟩
  simp only [List.headD_cons] at hhd
  show pyStrip (punctSpaceB (punctSpaceA (addExclamationMark (addQuestionMark
    (capitalizeRoles (capAfterPunct (pyToUpper c :: cs))))))) = c :: cs
  rw [hhd]
  rw [show capAfterPunct (c :: cs) = c :: cs from capGo_fix (c :: cs) 0 hcap]
  rw [capRoles_fix hrol, hq, hx]
  rw [stripBA_eq_sevenNorm hB]
  exact sevenNorm_fixed (c :: cs).length (c :: cs) le_rfl (normB_tail' hB) htok

/-- C10: `clean_transcript` is idempotent: applying it to its own output
returns that output unchanged, for every input text. -/
theorem c10_clean_transcript_idempotent (t : Str) :
    cleanTranscript (cleanTranscript t) = cleanTranscript t := by
  by_cases h0 : cleanTranscript t = []
  · rw [h0, cleanTranscript_nil]
  · have ht : t ≠ [] := by
      intro h
      rw [h, cleanTranscript_nil] at h0
      exact h0 rfl
    have hB1 : normB (sjoin (pySplit t)) = true := normB_t1 t
    have hhd2 : pyToUpper ((match sjoin (pySplit t) with
        | [] => ([] : Str)
        | c :: cs => pyToUpper c :: cs).headD ' ') =
        (match sjoin (pySplit t) with
        | [] => ([] : Str)
        | c :: cs => pyToUpper c :: cs).headD ' ' := by
      cases h1 : sjoin (pySplit t) with
      | nil => decide
      | cons c1 cs1 =>
        simp only [List.headD_cons]
        exact pyToUpper_idem c1
    have hB2 : normB (match sjoin (pySplit t) with
        | [] => ([] : Str)
        | c :: cs => pyToUpper c :: cs) = true := by
      cases h1 : sjoin (pySplit t) with
      | nil => rfl
      | cons c1 cs1 =>
        have hB1' : normB (c1 :: cs1) = true := h1 ▸ hB1
        refine (normB_congr ?_).symm.trans hB1'
        refine List.Forall₂.cons ?_ (chR_refl cs1)
        right
        refine ⟨normB_head hB1', ?_⟩
        rw [pyIsSpace_pyToUpper]
        exact normB_head hB1'
    obtain ⟨hBy, hhy, hcy, hry, hty, hqy, hxy⟩ :=
      clean_pipeline_invariants _ _ _ _ _ (cleanTranscript t) hB2 hhd2
        rfl rfl rfl rfl (cleanTranscript_eq ht)
    exact clean_fixed hBy hhy hcy hry hty hqy hxy h0
